import Mathlib

/-!
# GraphReconstructor (NGT): a shallow embedding and its verified properties

Source: `lib/NGT/GraphReconstructor.h`.  The file models `adjustPathsEffectively`,
`adjustPaths`, `convertToANNG` and `reconstructGraph`, then states and proves the properties
that the specification claims of them, each on the functions as the source defines them.

Modelling conventions.

* An `ObjectDistance` is a pair of a target id and a distance.  Distances are `double`
  in the source; only their order is ever used, so they are modelled by `Nat`
  (a total order without NaN).
* A `GraphNode` (`ObjectDistances`) is a list of edges, in vector order.
* A `Graph` is the list of the adjacency lists of ids `1..N`; the list of id `i` is
  at index `i - 1` (as in `std::vector<ObjectDistances>` and in `tmpGraph`).
  Every id in `1..N` is readable; an id outside `1..N` has no node.  The source indexes
  vectors with the targets it reads, so it is defined only for targets in `1..N`; the
  theorems carry that hypothesis (`ValidIds`) also where the model does not need it.
* Sizes and ranks are `size_t`/`int`/`uint32_t` in the source; they are modelled by `Nat`
  (no list of the model reaches `2^31` entries).
* Loops whose trip count is not a syntactic bound take a `fuel` argument and return
  `outOfFuel` when it is exhausted; the theorems show which fuel suffices.
* The vector `removeCandidates[idx]` is only read and popped at its back; it is held as a
  stack whose head is `back()`.
* The order that `std::sort` applies to edges (`ObjectDistance::operator<`) is declared in
  another file; it is taken from the spec (see `edgeLe`).

Layout: the definitions come first (the functions of the source, the invariants of input
graphs, the notions of the claims, the invariants of the proofs, the graphs of the scenarios),
then the theorems.
-/

namespace NGT

/-- An edge: `id` is the target object, `distance` its distance from the owner of the list. -/
structure ObjectDistance where
  id : Nat
  distance : Nat
deriving DecidableEq, Repr

/-- The adjacency list of one node (`NGT::GraphNode`, `NGT::ObjectDistances`). -/
abbrev GraphNode := List ObjectDistance

/-- All adjacency lists; the list of id `i` is at index `i - 1`. -/
abbrev Graph := List GraphNode

/-- The entry of object `id` in a vector indexed by `id - 1` (`tmpGraph[id - 1].second`,
`edges[path - 1]`, `*outGraph.getNode(id)`); ids outside `1..N` have the empty entry. -/
def entryOf {α : Type} (v : List (List α)) (id : Nat) : List α :=
  if id = 0 then [] else v.getD (id - 1) []

/-! ## adjustPathsEffectively, stage 1: removal candidates -/

/-- The loop of lines 200-206: `neighbors[srcNode[sni].id] = (sni, srcNode[sni].distance)`
for `sni` counting up from the given start; a later assignment overwrites an earlier one. -/
def neighborsFrom : Nat → GraphNode → (Nat → Option (Nat × Nat)) → Nat → Option (Nat × Nat)
  | _, [], m => m
  | sni, e :: rest, m =>
    neighborsFrom (sni + 1) rest (fun k => if k = e.id then some (sni, e.distance) else m k)

/-- The map `neighbors` of a source node: target id to (rank, distance). -/
def neighborsOf (srcNode : GraphNode) : Nat → Option (Nat × Nat) :=
  neighborsFrom 0 srcNode (fun _ => none)

/-- The inner loop of lines 217-242 for one path node `sn = srcNode[sni]`: the candidates
`(rank of dst, (sn.id, dst))` for the entries of `pathNode` that are neighbours of the source
with both legs strictly shorter than the direct edge. -/
def candidatesVia (neighbors : Nat → Option (Nat × Nat)) (sn : ObjectDistance)
    (pathNode : GraphNode) : List (Nat × (Nat × Nat)) :=
  pathNode.filterMap (fun pn =>
    match neighbors pn.id with
    | some (rank, dist) =>
      if sn.distance < dist ∧ pn.distance < dist then some (rank, (sn.id, pn.id)) else none
    | none => none)

/-- The vector `candidates` of lines 208-243 for one source node, in push order. -/
def candidatesOf (tmpGraph : Graph) (srcNode : GraphNode) : List (Nat × (Nat × Nat)) :=
  srcNode.flatMap (fun sn => candidatesVia (neighborsOf srcNode) sn (entryOf tmpGraph sn.id))

/-- The order `a >= b` of `std::pair<int, std::pair<uint32_t, uint32_t>>` (lexicographic). -/
def candGe (a b : Nat × (Nat × Nat)) : Prop :=
  b.1 < a.1 ∨ (a.1 = b.1 ∧ (b.2.1 < a.2.1 ∨ (a.2.1 = b.2.1 ∧ b.2.2 ≤ a.2.2)))

instance : DecidableRel candGe := fun a b => by unfold candGe; infer_instance

instance : IsTotal (Nat × (Nat × Nat)) candGe :=
  ⟨fun a b => by unfold candGe; omega⟩

instance : IsTrans (Nat × (Nat × Nat)) candGe :=
  ⟨fun a b c => by unfold candGe; omega⟩

/-- Lines 244-247: `removeCandidates[idx]` for one source.  `std::sort` with `std::greater`
orders the candidates descending; the pairs are pushed in that order, so `back()` is the
candidate of least rank.  The vector is held as a stack: the head of the list is `back()`. -/
def removeCandidatesOf (tmpGraph : Graph) (srcNode : GraphNode) : List (Nat × Nat) :=
  (((candidatesOf tmpGraph srcNode).insertionSort candGe).map Prod.snd).reverse

/-! ## adjustPathsEffectively, stage 2: the rank-synchronised commit -/

/-- The two ways the pruner does not return a graph. -/
inductive PruneError where
  /-- The `abort()` of line 276 ("Something wrong!"). -/
  | somethingWrong (id : Nat) (remaining : Nat)
  /-- The model ran out of fuel (the source loop has no syntactic bound). -/
  | outOfFuel
deriving DecidableEq, Repr

/-- The mutable state of stage 2. `removeCandidates[idx]` is a stack (head = `back()`),
`edges[idx]` is the set of committed targets of id `idx + 1`. -/
structure CommitState where
  removeCandidates : List (List (Nat × Nat))
  edges : List (List Nat)
  outGraph : Graph
deriving DecidableEq, Repr

/-- The `while` loop of lines 287-303 on the stack of one source: pops the candidates whose
target is `target`; returns `pathExist` and what is left of the stack. -/
def popCandidates (edges : List (List Nat)) (idx target : Nat) :
    List (Nat × Nat) → Bool × List (Nat × Nat)
  | [] => (false, [])
  | c :: rest =>
    if c.2 = target then
      if c.1 ∈ edges.getD idx [] ∧ c.2 ∈ entryOf edges c.1 then
        (true, rest.dropWhile (fun c' => decide (c'.2 = target)))
      else popCandidates edges idx target rest
    else (false, c :: rest)

/-- The body of the loop over `ids` (lines 269-331) for one `id` at one `rank`.
The Boolean tells whether `id` was erased from `ids`. -/
def commitStep (tmpGraph : Graph) (rank id : Nat) (st : CommitState) :
    Except PruneError (Bool × CommitState) :=
  let idx := id - 1
  let rc := st.removeCandidates.getD idx []
  match (tmpGraph.getD idx [])[rank]? with
  | none =>
    -- rank >= srcNode.size()
    if rc ≠ [] then .error (.somethingWrong id rc.length) else .ok (true, st)
  | some e =>
    let popped := if 0 < rc.length then popCandidates st.edges idx e.id rc else (false, rc)
    let rcs := st.removeCandidates.set idx popped.2
    if popped.1 then
      .ok (false, { st with removeCandidates := rcs })
    else
      .ok (false, { removeCandidates := rcs
                    edges := st.edges.modify (fun s => e.id :: s) idx
                    outGraph := st.outGraph.modify (fun n => n ++ [e]) idx })

/-- One traversal of the list `ids` at a given rank (lines 268-332):
returns the ids that stay in the list and the new state. -/
def commitPass (tmpGraph : Graph) (rank : Nat) :
    List Nat → CommitState → Except PruneError (List Nat × CommitState)
  | [], st => .ok ([], st)
  | id :: ids, st =>
    match commitStep tmpGraph rank id st with
    | .error err => .error err
    | .ok (erased, st1) =>
      match commitPass tmpGraph rank ids st1 with
      | .error err => .error err
      | .ok (ids1, st2) => .ok (if erased then ids1 else id :: ids1, st2)

/-- The outer loop `for (rank = 0; ids.size() != 0; rank++)` of line 267.
Returns the value of `rank` at exit (the number of traversals made) and the final state. -/
def commitLoop (tmpGraph : Graph) :
    Nat → Nat → List Nat → CommitState → Except PruneError (Nat × CommitState)
  | 0, rank, ids, st => if ids = [] then .ok (rank, st) else .error .outOfFuel
  | fuel + 1, rank, ids, st =>
    if ids = [] then .ok (rank, st)
    else
      match commitPass tmpGraph rank ids st with
      | .error err => .error err
      | .ok (ids1, st1) => commitLoop tmpGraph fuel (rank + 1) ids1 st1

/-- Lines 171-183 with `rStartRank = 0`: every node of the live graph is resized to 0. -/
def clearNodes (outGraph : Graph) : Graph :=
  outGraph.map (fun node => if 0 < node.length then node.take 0 else node)

/-- The ids `1..N` in the order in which `ids` is filled (lines 258-262). -/
def allIds (n : Nat) : List Nat := (List.range n).map (fun i => i + 1)

/-- The initial state of stage 2 (lines 189, 244-247, 266). -/
def initialCommitState (tmpGraph : Graph) : CommitState :=
  { removeCandidates := tmpGraph.map (removeCandidatesOf tmpGraph)
    edges := tmpGraph.map (fun _ => [])
    outGraph := clearNodes tmpGraph }

/-- The run of `adjustPathsEffectively` with the number of outer iterations it made. -/
def adjustPathsEffectivelyRun (fuel : Nat) (outGraph : Graph) :
    Except PruneError (Nat × CommitState) :=
  commitLoop outGraph fuel 0 (allIds outGraph.length) (initialCommitState outGraph)

/-- The function `GraphReconstructor::adjustPathsEffectively`: the live graph after pruning. -/
def adjustPathsEffectively (fuel : Nat) (outGraph : Graph) : Except PruneError Graph :=
  match adjustPathsEffectivelyRun fuel outGraph with
  | .error err => .error err
  | .ok (_, st) => .ok st.outGraph

/-! ## adjustPaths: the serial reference pruner -/

/-- The search of lines 102-134 for a dominating two-hop path: some committed edge `tn[tni]`
of the source, other than the edge under decision, leads to a node whose committed list has
the target at a strictly smaller distance.  The branch for `rank >= 1000` runs the same test
over `tni` in parallel with a shared flag; it computes the same Boolean. -/
def pathFound (outGraph : Graph) (rank : Nat) (tn : GraphNode) (e : ObjectDistance) : Bool :=
  if rank < 1000 then
    tn.any (fun t => decide (t.id ≠ e.id) &&
      (entryOf outGraph t.id).any (fun d => decide (d.id = e.id) && decide (d.distance < e.distance)))
  else
    tn.any (fun t => decide (t.id ≠ e.id) &&
      (entryOf outGraph t.id).any (fun d => decide (d.id = e.id) && decide (d.distance < e.distance)))

/-- The body of the loop over `tmpGraph` (lines 88-150) for one entry `(id, node)` at one rank.
`none`: the entry is erased from `tmpGraph`; `some g`: it stays and the live graph is `g`. -/
def simpleStep (rank : Nat) (entry : Nat × GraphNode) (outGraph : Graph) : Option Graph :=
  match entry.2[rank]? with
  | none => none
  | some e =>
    if pathFound outGraph rank (entryOf outGraph entry.1) e then some outGraph
    else some (outGraph.modify (fun n => n ++ [e]) (entry.1 - 1))

/-- One traversal of `tmpGraph` at a given rank (lines 87-151): the entries that stay, the
flag `edge`, and the live graph. -/
def simplePass (rank : Nat) :
    List (Nat × GraphNode) → Graph → List (Nat × GraphNode) × Bool × Graph
  | [], g => ([], false, g)
  | entry :: rest, g =>
    match simpleStep rank entry g with
    | none => simplePass rank rest g
    | some g1 =>
      let r := simplePass rank rest g1
      (entry :: r.1, true, r.2.2)

/-- The outer loop `for (rank = rStartRank; ; rank++)` of lines 84-155, left by `break`
when a traversal meets no edge. -/
def simpleLoop : Nat → Nat → List (Nat × GraphNode) → Graph → Except PruneError Graph
  | 0, _, _, _ => .error .outOfFuel
  | fuel + 1, rank, tmp, g =>
    let r := simplePass rank tmp g
    if r.2.1 then simpleLoop fuel (rank + 1) r.1 r.2.2 else .ok r.2.2

/-- The function `GraphReconstructor::adjustPaths` (without `NGT_SHARED_MEMORY_ALLOCATOR`). -/
def adjustPaths (fuel : Nat) (outGraph : Graph) : Except PruneError Graph :=
  simpleLoop fuel 0 ((allIds outGraph.length).zip outGraph) (clearNodes outGraph)

/-! ## The order of edges -/

/-- Modelled from the spec: `ObjectDistance::operator<`, which `std::sort` uses, is declared
outside this file; the spec gives it as "ascending by distance (ties broken by id)".
`edgeLe a b` is that order read as "a is not after b". -/
def edgeLe (a b : ObjectDistance) : Prop :=
  a.distance < b.distance ∨ (a.distance = b.distance ∧ a.id ≤ b.id)

instance : DecidableRel edgeLe := fun a b => by unfold edgeLe; infer_instance

instance : IsTotal ObjectDistance edgeLe := ⟨fun a b => by unfold edgeLe; omega⟩

instance : IsTrans ObjectDistance edgeLe := ⟨fun a b c => by unfold edgeLe; omega⟩

instance : IsAntisymm ObjectDistance edgeLe :=
  ⟨fun a b h1 h2 => by
    cases a; cases b
    simp only [edgeLe] at h1 h2
    simp only [ObjectDistance.mk.injEq]
    omega⟩

/-! ## Normalisation of a list: sort, then erase an edge whose target is that of its
predecessor -/

/-- The erase loop of lines 356-364 (and 459-475, 589-597): `prev` is the target of the last
edge that was kept (0 at the start); an edge with target `prev` is erased. -/
def dedupAdjacent : Nat → GraphNode → GraphNode
  | _, [] => []
  | prev, e :: rest =>
    if prev = e.id then dedupAdjacent prev rest else e :: dedupAdjacent e.id rest

/-- The call `std::sort(n.begin(), n.end())` followed by the erase loop.  The order is total on
(distance, id), so the sorted vector does not depend on the sorting algorithm. -/
def normalizeNode (node : GraphNode) : GraphNode :=
  dedupAdjacent 0 (node.insertionSort edgeLe)

/-! ## convertToANNG -/

/-- The statement `graph[id - 1].push_back(e)`; an id outside `1..N` addresses no list (in the source such an
access is out of the vector's bounds). -/
def pushAt (graph : Graph) (id : Nat) (e : ObjectDistance) : Graph :=
  if id = 0 then graph else graph.modify (fun n => n ++ [e]) (id - 1)

/-- Lines 346-348 for the node at index `idx`: every edge `ni` of the node adds the edge
`(idx + 1, ni.distance)` to the list of `ni.id`.  The node is read as it stands when its
turn comes; without self-loops the pushes do not touch it. -/
def addReverseEdges (idx : Nat) (node : GraphNode) (graph : Graph) : Graph :=
  node.foldl (fun g ni => pushAt g ni.id ⟨idx + 1, ni.distance⟩) graph

/-- The first loop of `convertToANNG` (lines 344-349) run over the indices below `k`. -/
def addReverseUpto (k : Nat) (graph : Graph) : Graph :=
  (List.range k).foldl (fun g idx => addReverseEdges idx (g.getD idx []) g) graph

/-- The function `GraphReconstructor::convertToANNG` (without `NGT_SHARED_MEMORY_ALLOCATOR`). -/
def convertToANNG (graph : Graph) : Graph :=
  (addReverseUpto graph.length graph).map
    (fun node => if node.length = 0 then node else normalizeNode node)

/-! ## reconstructGraph -/

/-- The way `reconstructGraph` does not return: `exit(1)` at line 377. -/
inductive ReconstructError where
  | edgeSizeTooLarge (reverseEdgeSize : Nat)
deriving DecidableEq, Repr

/-- Phase F (lines 384-412) for the node of index `idx`: with `originalEdgeSize = 0` the node
is emptied; a snapshot list shorter than `originalEdgeSize` leaves the node as it is;
otherwise the node becomes the first `originalEdgeSize` edges of the snapshot list. -/
def forwardNode (graph : Graph) (originalEdgeSize : Nat) (idx : Nat) (node : GraphNode) :
    GraphNode :=
  if originalEdgeSize = 0 then []
  else if (graph.getD idx []).length < originalEdgeSize then node
  else (graph.getD idx []).take originalEdgeSize

/-- Phase F over all nodes of the live graph. -/
def phaseF (graph : Graph) (originalEdgeSize : Nat) (outGraph : Graph) : Graph :=
  outGraph.mapIdx (fun idx node => forwardNode graph originalEdgeSize idx node)

/-- Lines 426-435: the edge `e` of the snapshot list of `id` adds `(id, e.distance)` to the
live node `e.id`; when `getNode` throws (no such node) nothing is added. -/
def pushReverse (id : Nat) (outGraph : Graph) (e : ObjectDistance) : Graph :=
  if e.id = 0 then outGraph
  else outGraph.modify (fun n => n ++ [⟨id, e.distance⟩]) (e.id - 1)

/-- Lines 419-436 for one snapshot list: its first `min reverseEdgeSize size` edges. -/
def reverseNode (reverseEdgeSize : Nat) (outGraph : Graph) (id : Nat) (node : GraphNode) :
    Graph :=
  (node.take reverseEdgeSize).foldl (pushReverse id) outGraph

/-- Phase R (lines 417-441) over the snapshot lists from id `id` on. -/
def phaseRFrom (reverseEdgeSize : Nat) : Nat → List GraphNode → Graph → Graph
  | _, [], outGraph => outGraph
  | id, node :: rest, outGraph =>
    phaseRFrom reverseEdgeSize (id + 1) rest (reverseNode reverseEdgeSize outGraph id node)

/-- Phase R: ids `1..graph.size()`. -/
def phaseR (graph : Graph) (reverseEdgeSize : Nat) (outGraph : Graph) : Graph :=
  phaseRFrom reverseEdgeSize 1 graph outGraph

/-- Phase N (lines 448-483): every live node is normalised. -/
def phaseN (outGraph : Graph) : Graph := outGraph.map normalizeNode

/-- The function `GraphReconstructor::reconstructGraph`; `outGraph` is the live graph on
entry. -/
def reconstructGraph (graph : Graph) (outGraph : Graph)
    (originalEdgeSize reverseEdgeSize : Nat) : Except ReconstructError Graph :=
  if reverseEdgeSize > 10000 then .error (.edgeSizeTooLarge reverseEdgeSize)
  else .ok (phaseN (phaseR graph reverseEdgeSize (phaseF graph originalEdgeSize outGraph)))

/-! ## reconstructGraphWithConstraint -/

/-- Modelled from the spec: `GraphView.addEdge(src, tgt, distance, check)` is declared outside
this file; the spec gives it as "append or merge an edge", without an error when `check` is
false.  On the list of `src`: an edge whose target the list already holds is merged (the list
stays as it is), any other edge is appended. -/
def addEdge (node : GraphNode) (e : ObjectDistance) : GraphNode :=
  if e.id ∈ node.map ObjectDistance.id then node else node ++ [e]

/-- An access to a vector of `reconstructGraphWithConstraint` at an index that is not below
the size of the vector. -/
inductive IndexViolation where
  | reverseSize (index : Nat)
  | reverse (index : Nat)
  | indegreeCount (index : Nat)
deriving DecidableEq, Repr

/-- What lies one past the end of the vectors `reverseSize` and `indegreeCount`.  An access
there is undefined in the source; the model records it as an `IndexViolation` and goes on
with this content, and the theorems hold for every content. -/
structure PastEnd where
  reverseSize : Nat × Nat
  indegreeCount : Nat
deriving DecidableEq, Repr

/-- Lines 511-527: every live node is emptied. -/
def preclear (outGraph : Graph) : Graph :=
  outGraph.map (fun node => if node.length = 0 then node else [])

/-- Line 538: `reverse[e.id].push_back(ObjectDistance(id, e.distance))`; `reverse` is indexed
by the id itself. -/
def reverseAdd (id : Nat) (reverse : List GraphNode) (e : ObjectDistance) : List GraphNode :=
  reverse.modify (fun n => n ++ [⟨id, e.distance⟩]) e.id

/-- Lines 531-544 over the snapshot lists of the ids from `id` on. -/
def buildReverseFrom : Nat → List GraphNode → List GraphNode → List GraphNode
  | _, [], reverse => reverse
  | id, node :: rest, reverse =>
    buildReverseFrom (id + 1) rest (node.foldl (reverseAdd id) reverse)

/-- The vector `reverse` of lines 530-544: `graph.size() + 1` lists, the list of index `v`
holding `(u, d)` for every edge `u -> v` of distance `d` of the snapshot. -/
def buildReverse (graph : Graph) : List GraphNode :=
  buildReverseFrom 1 graph (List.replicate (graph.length + 1) [])

/-- The order `a <= b` of `std::pair<size_t, size_t>` (lexicographic). -/
def pairLe (a b : Nat × Nat) : Prop := a.1 < b.1 ∨ (a.1 = b.1 ∧ a.2 ≤ b.2)

instance : DecidableRel pairLe := fun a b => by unfold pairLe; infer_instance

instance : IsTotal (Nat × Nat) pairLe := ⟨fun a b => by unfold pairLe; omega⟩

instance : IsTrans (Nat × Nat) pairLe := ⟨fun a b c => by unfold pairLe; omega⟩

/-- The vector `reverseSize` of lines 546-551 for a snapshot of `n` lists: the entry `(0, 0)`
at index 0 and `(reverse[rid].size(), rid)` for `rid` in `1..n`, sorted ascending. -/
def reverseSizeOf (n : Nat) (reverse : List GraphNode) : List (Nat × Nat) :=
  ((0, 0) :: (allIds n).map (fun rid => ((reverse.getD rid []).length, rid))).insertionSort
    pairLe

/-- The state of the reverse-emission loop (lines 554-576).  `indegreeCount` holds the
`graph.size()` cells of the vector followed by the cell one past its end. -/
structure EmitState where
  outGraph : Graph
  indegreeCount : List Nat
  zeroCount : Nat
  violations : List IndexViolation
deriving DecidableEq, Repr

/-- Lines 565-574 for one entry `rni` of `reverse[rid]`; `n` is the size with which
`indegreeCount` was created. -/
def emitEdge (originalEdgeSize reverseEdgeSize n rid : Nat) (st : EmitState)
    (rni : ObjectDistance) : EmitState :=
  let violations :=
    if n ≤ rni.id then st.violations ++ [IndexViolation.indegreeCount rni.id]
    else st.violations
  let count := st.indegreeCount.getD rni.id 0
  if reverseEdgeSize ≤ count then { st with violations := violations }
  else if 0 < count ∧ originalEdgeSize ≤ (entryOf st.outGraph rid).length then
    { st with violations := violations }
  else
    { outGraph := pushAt st.outGraph rid ⟨rni.id, rni.distance⟩
      indegreeCount := st.indegreeCount.set rni.id (count + 1)
      zeroCount := st.zeroCount
      violations := violations }

/-- The body of the loop of line 556 for one value of `sizerank`. -/
def emitRank (mem : PastEnd) (originalEdgeSize reverseEdgeSize n : Nat)
    (reverse : List GraphNode) (reverseSize : List (Nat × Nat)) (st : EmitState)
    (sizerank : Nat) : EmitState :=
  let entry := reverseSize.getD sizerank mem.reverseSize
  let v1 :=
    if reverseSize.length ≤ sizerank then
      st.violations ++ [IndexViolation.reverseSize sizerank]
    else st.violations
  if entry.1 = 0 then { st with zeroCount := st.zeroCount + 1, violations := v1 }
  else
    let v2 :=
      if reverse.length ≤ entry.2 then v1 ++ [IndexViolation.reverse entry.2] else v1
    (reverse.getD entry.2 []).foldl (emitEdge originalEdgeSize reverseEdgeSize n entry.2)
      { st with violations := v2 }

/-- The state in which the reverse emission starts (lines 554-555). -/
def initialEmitState (mem : PastEnd) (n : Nat) (outGraph : Graph) : EmitState :=
  { outGraph := outGraph
    indegreeCount := List.replicate n 0 ++ [mem.indegreeCount]
    zeroCount := 0
    violations := [] }

/-- The reverse emission (lines 546-576): the loop runs `sizerank` from 0 to
`reverseSize.size()` inclusive. -/
def reverseEmission (mem : PastEnd) (graph : Graph) (originalEdgeSize reverseEdgeSize : Nat)
    (outGraph : Graph) : EmitState :=
  (List.range ((reverseSizeOf graph.length (buildReverse graph)).length + 1)).foldl
    (emitRank mem originalEdgeSize reverseEdgeSize graph.length (buildReverse graph)
      (reverseSizeOf graph.length (buildReverse graph)))
    (initialEmitState mem graph.length outGraph)

/-- The loop of lines 616-630 for one id, over the snapshot edges still to visit: in mode
`a` the loop stops once the live node has `originalEdgeSize` edges; any other mode adds every
edge. -/
def topUpLoop (originalEdgeSize : Nat) (mode : Char) : List ObjectDistance → GraphNode → GraphNode
  | [], onode => onode
  | e :: rest, onode =>
    if mode = 'a' ∧ originalEdgeSize ≤ onode.length then onode
    else topUpLoop originalEdgeSize mode rest (addEdge onode e)

/-- The forward top-up (lines 608-635): every live node receives the first
`min originalEdgeSize size` edges of its snapshot list through `addEdge`. -/
def topUp (graph : Graph) (originalEdgeSize : Nat) (mode : Char) (outGraph : Graph) : Graph :=
  outGraph.mapIdx (fun idx onode =>
    topUpLoop originalEdgeSize mode ((graph.getD idx []).take originalEdgeSize) onode)

/-- What a call of `reconstructGraphWithConstraint` leaves: the live graph, the count it
reports as "the number of nodes with zero outdegree by reverse edges", and the out-of-bounds
accesses it made. -/
structure ConstraintRun where
  outGraph : Graph
  zeroCount : Nat
  violations : List IndexViolation
deriving DecidableEq, Repr

/-- The function `GraphReconstructor::reconstructGraphWithConstraint` (without
`NGT_SHARED_MEMORY_ALLOCATOR`); `outGraph` is the live graph on entry. -/
def reconstructGraphWithConstraint (mem : PastEnd) (graph outGraph : Graph)
    (originalEdgeSize reverseEdgeSize : Nat) (mode : Char) :
    Except ReconstructError ConstraintRun :=
  if reverseEdgeSize > 10000 then .error (.edgeSizeTooLarge reverseEdgeSize)
  else
    .ok { outGraph := topUp graph originalEdgeSize mode
            (phaseN (reverseEmission mem graph originalEdgeSize reverseEdgeSize
              (preclear outGraph)).outGraph)
          zeroCount := (reverseEmission mem graph originalEdgeSize reverseEdgeSize
            (preclear outGraph)).zeroCount
          violations := (reverseEmission mem graph originalEdgeSize reverseEdgeSize
            (preclear outGraph)).violations }

/-! ## The live graph at the end of a call -/

/-- How a call of a reconstruction function ends: it returns with every vector access inside
the bounds; or the test of `reverseEdgeSize` ends the process with `exit(1)`; or the call
makes an access to a vector outside its bounds, for which C++ defines no behaviour (a build
that checks bounds aborts there). -/
inductive CallEnd where
  | returned
  | exited (err : ReconstructError)
  | outOfBounds
deriving DecidableEq, Repr

/-- The live graph as a call of a reconstruction function leaves it, and how the call ends.
After `outOfBounds` the field `live` is what the run gives when the accesses outside the
bounds read the given cells and write nothing. -/
structure LiveRun where
  live : Graph
  ending : CallEnd
deriving DecidableEq, Repr

/-- The ids `id` of the live graph for which the read `graph[id - 1]` of the snapshot (line 394
of `reconstructGraph`, line 611 of `reconstructGraphWithConstraint`) is outside the snapshot:
both loops run over the ids of the live graph, not of the snapshot. -/
def snapshotMisses (graph outGraph : Graph) : List Nat :=
  (allIds outGraph.length).filter (fun id => decide (graph.length ≤ id - 1))

/-- The edges of the snapshot whose target indexes the vector `reverse` of `N + 1` entries
outside its bounds (line 535). -/
def reverseMisses (graph : Graph) : List ObjectDistance :=
  graph.flatten.filter (fun e => decide (graph.length < e.id))

/-- The function `GraphReconstructor::reconstructGraph` on the live graph: the test of lines
374-377 is the first statement, and `exit(1)` leaves the live graph as the call found it;
past the test the three phases run on the live graph.  Phase F reads `graph[id - 1]` for
every id of the live graph when `originalEdgeSize` is not 0 (line 394); the other accesses
are inside the bounds, and every `getNode` stands in a `try` whose `catch` goes on. -/
def reconstructGraphOnLive (graph : Graph) (outGraph : Graph)
    (originalEdgeSize reverseEdgeSize : Nat) : LiveRun :=
  if reverseEdgeSize > 10000 then
    { live := outGraph, ending := .exited (.edgeSizeTooLarge reverseEdgeSize) }
  else
    { live := phaseN (phaseR graph reverseEdgeSize (phaseF graph originalEdgeSize outGraph))
      ending :=
        if originalEdgeSize ≠ 0 ∧ snapshotMisses graph outGraph ≠ [] then .outOfBounds
        else .returned }

/-- The function `GraphReconstructor::reconstructGraphWithConstraint` on the live graph
(without `NGT_SHARED_MEMORY_ALLOCATOR`), for a live graph in which every id of the snapshot
can be read: the test of lines 506-509 stands before the first statement that touches the
live graph, and `exit(1)` leaves the live graph as the call found it; past the test the
preclear, the reverse emission, the normalisation and the forward top-up run on the live
graph.  The call returns when no access is outside the bounds: none to `reverse` in the
accumulation (line 535), none to `reverseSize`, `reverse` and `indegreeCount` in the
emission (lines 556-574), none to the snapshot in the top-up (line 611). -/
def reconstructGraphWithConstraintOnLive (mem : PastEnd) (graph outGraph : Graph)
    (originalEdgeSize reverseEdgeSize : Nat) (mode : Char) : LiveRun :=
  if reverseEdgeSize > 10000 then
    { live := outGraph, ending := .exited (.edgeSizeTooLarge reverseEdgeSize) }
  else
    { live := topUp graph originalEdgeSize mode
        (phaseN (reverseEmission mem graph originalEdgeSize reverseEdgeSize
          (preclear outGraph)).outGraph)
      ending :=
        if reverseMisses graph = [] ∧
            (reverseEmission mem graph originalEdgeSize reverseEdgeSize
              (preclear outGraph)).violations = [] ∧
            snapshotMisses graph outGraph = [] then .returned
        else .outOfBounds }

/-! ## extractGraph -/

/-- The live graph as `getNode` sees it: the node of id `i` is at index `i - 1`; `none` stands
for an id for which `getNode` throws. -/
abbrev LiveGraph := List (Option GraphNode)

/-- The body of the loop of `extractGraph` (lines 40-58) for one id: a node that is read is
pushed to the back of `graph`; when `getNode` throws, the `catch` block warns and goes on to
the next id, and nothing is pushed. -/
def extractNode (graph : Graph) (node : Option GraphNode) : Graph :=
  match node with
  | some n => graph ++ [n]
  | none => graph

/-- The function `GraphReconstructor::extractGraph`: `graph` is the output vector on entry,
`index` the live graph. -/
def extractGraph (graph : Graph) (index : LiveGraph) : Graph :=
  index.foldl extractNode graph

/-! ## The adjacency-list invariants of an input graph -/

/-- Every target is an id in `1..N`. -/
def ValidIds (T : Graph) : Prop := ∀ node ∈ T, ∀ e ∈ node, 1 ≤ e.id ∧ e.id ≤ T.length

/-- No list holds two edges with the same target. -/
def DistinctTargets (T : Graph) : Prop := ∀ node ∈ T, (node.map ObjectDistance.id).Nodup

/-- Every list is in ascending order of distance (ties allowed, in any order). -/
def SortedByDistance (T : Graph) : Prop :=
  ∀ node ∈ T, node.Pairwise (fun a b => a.distance ≤ b.distance)

/-- No edge of the list of id `idx + 1` has target `idx + 1`. -/
def NoSelfLoops (T : Graph) : Prop :=
  ∀ idx, idx < T.length → ∀ e ∈ T.getD idx [], e.id ≠ idx + 1

instance (T : Graph) : Decidable (ValidIds T) := by unfold ValidIds; infer_instance
instance (T : Graph) : Decidable (DistinctTargets T) := by unfold DistinctTargets; infer_instance
instance (T : Graph) : Decidable (SortedByDistance T) := by unfold SortedByDistance; infer_instance
instance (T : Graph) : Decidable (NoSelfLoops T) := by unfold NoSelfLoops; infer_instance

/-- Every list is sorted by distance ascending, ties by id ascending. -/
def SortedByDistanceThenId (T : Graph) : Prop := ∀ node ∈ T, node.Pairwise edgeLe

instance (T : Graph) : Decidable (SortedByDistanceThenId T) := by
  unfold SortedByDistanceThenId; infer_instance

/-- Every list is in strictly ascending order of distance (no two edges of a list tie). -/
def StrictlySortedByDistance (T : Graph) : Prop :=
  ∀ node ∈ T, node.Pairwise (fun a b => a.distance < b.distance)

/-- Every list has fewer than 1000 edges, so that `adjustPaths` takes its serial branch. -/
def SmallLists (T : Graph) : Prop := ∀ node ∈ T, node.length < 1000

instance (T : Graph) : Decidable (StrictlySortedByDistance T) := by
  unfold StrictlySortedByDistance; infer_instance
instance (T : Graph) : Decidable (SmallLists T) := by unfold SmallLists; infer_instance

/-- Whenever `u -> v` and `v -> u` are both present they have the same distance. -/
def SymmetricDistances (S : Graph) : Prop :=
  ∀ idx, idx < S.length → ∀ e ∈ S.getD idx [], ∀ r ∈ entryOf S e.id,
    r.id = idx + 1 → r.distance = e.distance

instance (S : Graph) : Decidable (SymmetricDistances S) := by
  unfold SymmetricDistances; infer_instance

/-! ## Notions in which the claims are stated -/

/-- A two-hop path in `g` that dominates the edge `e` of the node at index `idx`: an edge
`sn` of that node and an edge `pn` of the node `sn.id` with the target of `e`, both strictly
shorter than `e`. -/
def Shortcut (g : Graph) (idx : Nat) (e : ObjectDistance) : Prop :=
  ∃ sn ∈ g.getD idx [], ∃ pn ∈ entryOf g sn.id,
    pn.id = e.id ∧ sn.distance < e.distance ∧ pn.distance < e.distance

/-- The edge `v -> w` at rank `kv` of its list is decided before the edge `s -> w` at rank `k`
of its list: at a smaller rank, or at the same rank by a node visited earlier. -/
def DecidedBefore (kv v k s : Nat) : Prop := kv < k ∨ (kv = k ∧ v < s)

/-- The edges that Phase R appends to the live node `s`, in the order of the pushes, for the
snapshot lists `nodes` of the ids from `id` on. -/
def reverseEdgesFrom (reverseEdgeSize s : Nat) : Nat → List GraphNode → GraphNode
  | _, [] => []
  | id, node :: rest =>
    ((node.take reverseEdgeSize).filter (fun e => decide (e.id = s))).map
        (fun e => (⟨id, e.distance⟩ : ObjectDistance))
      ++ reverseEdgesFrom reverseEdgeSize s (id + 1) rest

/-- The edges that Phase R appends to the live node `s`. -/
def reverseEdges (graph : Graph) (reverseEdgeSize s : Nat) : GraphNode :=
  reverseEdgesFrom reverseEdgeSize s 1 graph

/-- The number of positions `(j, k)` with `k < min reverseEdgeSize |S[j-1]|` and
`S[j-1][k].id = s`: the input edges `j -> s` within the first `reverseEdgeSize` positions of
their list. -/
def reverseCount (graph : Graph) (reverseEdgeSize s : Nat) : Nat :=
  (graph.map (fun node => (node.take reverseEdgeSize).countP (fun e => decide (e.id = s)))).sum

/-- The spec's deduplication, "deduplicate by target id keeping the first occurrence":
an edge is dropped when its target is among the targets `seen` so far. -/
def dropRepeatedTargets : List Nat → GraphNode → GraphNode
  | _, [] => []
  | seen, e :: rest =>
    if e.id ∈ seen then dropRepeatedTargets seen rest
    else e :: dropRepeatedTargets (e.id :: seen) rest

/-- The normalisation in the spec's words: sort by distance then id, drop repeated targets. -/
def specNormalize (node : GraphNode) : GraphNode :=
  dropRepeatedTargets [] (node.insertionSort edgeLe)

/-- The number of edges with target `u` over all lists of `g`. -/
def targetCount (g : Graph) (u : Nat) : Nat :=
  (g.map (fun node => node.countP (fun e => decide (e.id = u)))).sum

/-- The number of ids in `1..N` that are the target of no edge of the snapshot. -/
def zeroReverseIds (S : Graph) : Nat :=
  (allIds S.length).countP (fun v => decide (∀ node ∈ S, ∀ e ∈ node, e.id ≠ v))

/-! ## Invariants of stage 2 -/

/-- The rank under which stage 1 files a candidate: the rank that `neighbors` holds for its
target. -/
def rankKey (src : GraphNode) (c : Nat × Nat) : Nat :=
  match neighborsOf src c.2 with
  | some p => p.1
  | none => 0

/-- The number of edges of the node at index `idx`. -/
def sizeAt (T : Graph) (idx : Nat) : Nat := (T.getD idx []).length

/-- The three vectors of the commit state have one entry per node. -/
structure StateLen (T : Graph) (st : CommitState) : Prop where
  rc : st.removeCandidates.length = T.length
  edges : st.edges.length = T.length
  out : st.outGraph.length = T.length

/-- What holds of the node at index `idx` once its first `p` ranks are decided:
its stack is what is left of the stage 1 list, above rank `p`; `edges` is the set of the
targets of the committed list; the committed list is a subsequence of the decided ranks. -/
structure NodeBase (T : Graph) (st : CommitState) (idx p : Nat) : Prop where
  rcSuffix : List.IsSuffix (st.removeCandidates.getD idx []) (removeCandidatesOf T (T.getD idx []))
  rcLow : ∀ c ∈ st.removeCandidates.getD idx [], p ≤ rankKey (T.getD idx []) c
  edgesOut : ∀ v, v ∈ st.edges.getD idx [] ↔ ∃ e ∈ st.outGraph.getD idx [], e.id = v
  outSub : List.Sublist (st.outGraph.getD idx []) ((T.getD idx []).take p)

/-- The state that `commitStep` leaves when the rank holds the edge `e`. -/
def stepState (st : CommitState) (idx : Nat) (e : ObjectDistance) : CommitState :=
  let rc := st.removeCandidates.getD idx []
  let rcs := st.removeCandidates.set idx (rc.dropWhile (fun c => decide (c.2 = e.id)))
  if (popCandidates st.edges idx e.id rc).1 then { st with removeCandidates := rcs }
  else { removeCandidates := rcs
         edges := st.edges.modify (fun s => e.id :: s) idx
         outGraph := st.outGraph.modify (fun n => n ++ [e]) idx }

/-- The number of ranks of the node at index `idx` that are decided during the traversal at
rank `r`, when the ids of `pending` have not been visited yet. -/
def progress (T : Graph) (r : Nat) (pending : List Nat) (idx : Nat) : Nat :=
  min (if idx + 1 ∈ pending then r else r + 1) (sizeAt T idx)

/-- The ids that stay in `ids` after the traversal at rank `r`. -/
def liveAfter (T : Graph) (r : Nat) (ids : List Nat) : List Nat :=
  ids.filter (fun id => decide (r < sizeAt T (id - 1)))

/-- The largest size of a node. -/
def maxSize (T : Graph) : Nat := (T.map List.length).foldr max 0

/-- The invariant of a traversal, for any graph. -/
structure PassBase (T : Graph) (r : Nat) (pending : List Nat) (st : CommitState) : Prop where
  len : StateLen T st
  valid : ∀ id ∈ pending, 1 ≤ id ∧ id ≤ T.length
  sorted : pending.Pairwise (fun a b => a < b)
  node : ∀ idx, idx < T.length → NodeBase T st idx (progress T r pending idx)

/-- The ids that are in the list `ids` when the traversal at rank `rank` starts. -/
def liveAt (T : Graph) (rank : Nat) : List Nat :=
  (allIds T.length).filter (fun id => decide (rank ≤ sizeAt T (id - 1)))

/-- The invariant of the outer loop, for any graph. -/
structure LoopBase (T : Graph) (rank : Nat) (ids : List Nat) (st : CommitState) : Prop where
  ids_eq : ids = liveAt T rank
  len : StateLen T st
  node : ∀ idx, idx < T.length → NodeBase T st idx (min rank (sizeAt T idx))

/-- Once a rank of the node at index `idx` is decided, the committed list starts with the
edge of rank 0. -/
def NodeFirst (T : Graph) (st : CommitState) (idx p : Nat) : Prop :=
  1 ≤ p → ∀ e, (T.getD idx [])[0]? = some e → (st.outGraph.getD idx []).head? = some e

/-- Every stage 1 candidate of rank `p` or more is still on the stack. -/
def NodeHigh (T : Graph) (st : CommitState) (idx p : Nat) : Prop :=
  ∀ c ∈ removeCandidatesOf T (T.getD idx []), p ≤ rankKey (T.getD idx []) c →
    c ∈ st.removeCandidates.getD idx []

/-- The invariant of a traversal for a graph with distinct targets, sorted by distance. -/
structure PassFull (T : Graph) (r : Nat) (pending : List Nat) (st : CommitState) : Prop where
  base : PassBase T r pending st
  high : ∀ idx, idx < T.length → NodeHigh T st idx (progress T r pending idx)
  order : ∀ idx, idx < T.length → idx + 1 ∉ pending → r < sizeAt T idx →
    ∀ id ∈ pending, idx + 1 < id
  sound : ∀ idx, idx < T.length → ∀ k e, k < progress T r pending idx →
    (T.getD idx [])[k]? = some e → e ∉ st.outGraph.getD idx [] → Shortcut st.outGraph idx e
  compl : ∀ idx, idx < T.length → ∀ k e, k < progress T r pending idx →
    (T.getD idx [])[k]? = some e → e ∈ st.outGraph.getD idx [] →
    ∀ sn ∈ st.outGraph.getD idx [], ∀ kv pn, (T.getD (sn.id - 1) [])[kv]? = some pn →
      pn ∈ entryOf st.outGraph sn.id → pn.id = e.id →
      sn.distance < e.distance → pn.distance < e.distance →
      ¬ DecidedBefore kv sn.id k (idx + 1)

/-- The entries of `tmpGraph` in `adjustPaths` for the ids `ids`. -/
def tmpEntries (T : Graph) (ids : List Nat) : List (Nat × GraphNode) :=
  ids.map (fun id => (id, T.getD (id - 1) []))

/-! ## Invariant of the reverse emission -/

/-- The invariant of the reverse-emission loop; `init` is `indegreeCount` at the start.
Every append of a target was counted, and a target that was appended has its counter at most
`reverseEdgeSize`. -/
structure EmitInv (reverseEdgeSize : Nat) (init : List Nat) (st : EmitState) : Prop where
  len : st.indegreeCount.length = init.length
  counted : ∀ u, targetCount st.outGraph u + init.getD u 0 ≤ st.indegreeCount.getD u 0
  capped : ∀ u, targetCount st.outGraph u = 0 ∨ st.indegreeCount.getD u 0 ≤ reverseEdgeSize

/-! ## Graphs of the scenarios and of the counterexamples -/

/-- The graph of the "trivial triangle" scenario (distances scaled by 10). -/
def triangleGraph : Graph := [[⟨2, 10⟩, ⟨3, 25⟩], [⟨3, 10⟩], []]

/-- A graph in which the edge `1 -> 3` has the shorter two-hop path `1 -> 2 -> 3`, and the
edge `2 -> 3` stands at a larger rank in its list than `1 -> 3` does. -/
def lateLegGraph : Graph := [[⟨2, 1⟩, ⟨3, 3⟩], [⟨1, 1⟩, ⟨4, 1⟩, ⟨3, 2⟩], [], []]

/-- A graph with a tie: `1 -> 2` and `1 -> 3` are both at distance 3, and `2 -> 3` is at
distance 1. -/
def tieGraph : Graph := [[⟨2, 3⟩, ⟨3, 3⟩], [⟨3, 1⟩], []]

/-- A snapshot with the two edges `1 -> 2`, `1 -> 3` and the edge `3 -> 1` at the distance of
`1 -> 3`. -/
def halfSymmetricGraph : Graph := [[⟨2, 10⟩, ⟨3, 5⟩], [], [⟨1, 5⟩]]

/-- A snapshot in which `1 -> 3` has distance 5 and `3 -> 1` has distance 6. -/
def asymmetricGraph : Graph := [[⟨2, 10⟩, ⟨3, 5⟩], [⟨3, 7⟩], [⟨1, 6⟩]]

/-- The snapshot of the "reverse addition" scenario (distances scaled by 10). -/
def chainGraph : Graph := [[⟨2, 10⟩], [⟨3, 10⟩], []]

/-- A live graph of three empty nodes. -/
def emptyGraph3 : Graph := [[], [], []]

/-- A snapshot whose first list repeats the target 2 at the distances 10 and 30, with another
edge between them in the order of distance. -/
def repeatedTargetGraph : Graph := [[⟨2, 10⟩, ⟨3, 20⟩, ⟨2, 30⟩], [], []]

/-- A snapshot with distinct targets in which `1 -> 2` has distance 10 and `2 -> 1` has
distance 20, with `1 -> 3` between them in the order of distance. -/
def skewGraph : Graph := [[⟨2, 10⟩, ⟨3, 15⟩], [⟨1, 20⟩], []]

/-- A graph with valid ids whose lists are not sorted and repeat targets. -/
def messyGraph : Graph := [[⟨2, 5⟩, ⟨3, 3⟩, ⟨2, 1⟩], [⟨3, 4⟩, ⟨3, 2⟩], [⟨1, 1⟩]]

/-- A snapshot in which the nodes 1 and 2 each have the single edge to node 3. -/
def fanGraph : Graph := [[⟨3, 1⟩], [⟨3, 1⟩], []]

/-- A snapshot of two nodes with the edges `1 -> 2` and `2 -> 1`. -/
def pairGraph : Graph := [[⟨2, 10⟩], [⟨1, 10⟩]]

/-- A snapshot with the reverse counts `|R[1]| = 2`, `|R[2]| = 1`, `|R[3]| = 0` of the
"constrained fairness" scenario. -/
def fairGraph : Graph := [[⟨2, 10⟩], [⟨1, 10⟩], [⟨1, 20⟩]]

/-! # Theorems -/



/-! ## Facts about stage 1 -/

theorem neighborsFrom_some (l : GraphNode) : ∀ (s : Nat) (m : Nat → Option (Nat × Nat)) (w rk d : Nat),
    neighborsFrom s l m w = some (rk, d) →
      (m w = some (rk, d) ∧ ∀ e ∈ l, e.id ≠ w) ∨ (s ≤ rk ∧ l[rk - s]? = some ⟨w, d⟩) := by
  induction l with
  | nil => intro s m w rk d h; left; exact ⟨h, by simp⟩
  | cons e rest ih =>
    intro s m w rk d h
    simp only [neighborsFrom] at h
    rcases ih _ _ _ _ _ h with ⟨h1, h2⟩ | ⟨h1, h2⟩
    · by_cases hw : w = e.id
      · simp only [hw, if_true, Option.some.injEq, Prod.mk.injEq] at h1
        right
        obtain ⟨rfl, rfl⟩ := h1
        refine ⟨le_refl _, ?_⟩
        simp [hw]
      · simp only [hw, if_false] at h1
        left
        refine ⟨h1, ?_⟩
        intro x hx
        rcases List.mem_cons.1 hx with rfl | hx
        · exact fun h => hw h.symm
        · exact h2 x hx
    · right
      refine ⟨by omega, ?_⟩
      have : rk - s = (rk - (s + 1)) + 1 := by omega
      rw [this, List.getElem?_cons_succ]
      exact h2

theorem neighborsOf_some {l : GraphNode} {w rk d : Nat} (h : neighborsOf l w = some (rk, d)) :
    l[rk]? = some ⟨w, d⟩ := by
  rcases neighborsFrom_some l 0 _ w rk d h with ⟨h1, _⟩ | ⟨_, h2⟩
  · simp at h1
  · simpa using h2

theorem neighborsFrom_of_not_mem (l : GraphNode) : ∀ (s : Nat) (m : Nat → Option (Nat × Nat)) (w : Nat),
    (∀ e ∈ l, e.id ≠ w) → neighborsFrom s l m w = m w := by
  induction l with
  | nil => intro s m w _; rfl
  | cons e rest ih =>
    intro s m w h
    simp only [neighborsFrom]
    rw [ih _ _ _ (fun x hx => h x (List.mem_cons_of_mem _ hx))]
    have : w ≠ e.id := fun hw => h e (List.mem_cons_self _ _) hw.symm
    simp [this]

theorem neighborsFrom_nodup (l : GraphNode) : ∀ (s : Nat) (m : Nat → Option (Nat × Nat)) (k : Nat)
    (e : ObjectDistance), (l.map ObjectDistance.id).Nodup → l[k]? = some e →
      neighborsFrom s l m e.id = some (s + k, e.distance) := by
  induction l with
  | nil => intro s m k e _ h; simp at h
  | cons x rest ih =>
    intro s m k e hnd h
    simp only [List.map_cons, List.nodup_cons] at hnd
    simp only [neighborsFrom]
    cases k with
    | zero =>
      simp only [List.getElem?_cons_zero, Option.some.injEq] at h
      subst h
      rw [neighborsFrom_of_not_mem]
      · simp
      · intro y hy hid
        exact hnd.1 (hid ▸ List.mem_map_of_mem _ hy)
    | succ k =>
      simp only [List.getElem?_cons_succ] at h
      rw [ih (s + 1) _ k e hnd.2 h]
      congr 2
      omega

theorem neighborsOf_nodup {l : GraphNode} {k : Nat} {e : ObjectDistance}
    (hnd : (l.map ObjectDistance.id).Nodup) (h : l[k]? = some e) :
    neighborsOf l e.id = some (k, e.distance) := by
  have := neighborsFrom_nodup l 0 (fun _ => none) k e hnd h
  simpa [neighborsOf] using this

theorem mem_candidatesOf {T : Graph} {src : GraphNode} {rk v w : Nat} :
    (rk, (v, w)) ∈ candidatesOf T src ↔
      ∃ sn ∈ src, sn.id = v ∧ ∃ pn ∈ entryOf T v, pn.id = w ∧
        ∃ d, neighborsOf src w = some (rk, d) ∧ sn.distance < d ∧ pn.distance < d := by
  unfold candidatesOf candidatesVia
  simp only [List.mem_flatMap, List.mem_filterMap]
  constructor
  · rintro ⟨sn, hsn, pn, hpn, h⟩
    cases hn : neighborsOf src pn.id with
    | none => simp [hn] at h
    | some p =>
      obtain ⟨rk1, d⟩ := p
      simp only [hn] at h
      split_ifs at h with hc
      simp only [Option.some.injEq, Prod.mk.injEq] at h
      obtain ⟨rfl, rfl, rfl⟩ := h
      exact ⟨sn, hsn, rfl, pn, hpn, rfl, d, hn, hc.1, hc.2⟩
  · rintro ⟨sn, hsn, rfl, pn, hpn, rfl, d, hn, h1, h2⟩
    refine ⟨sn, hsn, pn, hpn, ?_⟩
    simp [hn, h1, h2]


theorem mem_removeCandidatesOf {T : Graph} {src : GraphNode} {c : Nat × Nat} :
    c ∈ removeCandidatesOf T src ↔ ∃ rk, (rk, c) ∈ candidatesOf T src := by
  unfold removeCandidatesOf
  simp only [List.mem_reverse, List.mem_map]
  constructor
  · rintro ⟨x, hx, rfl⟩
    exact ⟨x.1, (List.perm_insertionSort candGe _).mem_iff.1 hx⟩
  · rintro ⟨rk, h⟩
    exact ⟨(rk, c), (List.perm_insertionSort candGe _).mem_iff.2 h, rfl⟩

theorem rankKey_of_mem_candidatesOf {T : Graph} {src : GraphNode} {rk : Nat} {c : Nat × Nat}
    (h : (rk, c) ∈ candidatesOf T src) : rankKey src c = rk := by
  obtain ⟨v, w⟩ := c
  obtain ⟨_, _, _, _, _, _, d, hn, _, _⟩ := mem_candidatesOf.1 h
  simp [rankKey, hn]

theorem removeCandidatesOf_sorted (T : Graph) (src : GraphNode) :
    (removeCandidatesOf T src).Pairwise (fun a b => rankKey src a ≤ rankKey src b) := by
  unfold removeCandidatesOf
  rw [List.pairwise_reverse, List.pairwise_map]
  have hs : ((candidatesOf T src).insertionSort candGe).Pairwise candGe :=
    List.sorted_insertionSort candGe _
  refine (List.Pairwise.and_mem.1 hs).imp ?_
  intro a b ⟨ha, hb, hab⟩
  have ha1 := rankKey_of_mem_candidatesOf ((List.perm_insertionSort candGe _).mem_iff.1 ha)
  have hb1 := rankKey_of_mem_candidatesOf ((List.perm_insertionSort candGe _).mem_iff.1 hb)
  rw [ha1, hb1]
  unfold candGe at hab
  omega

theorem rankKey_spec {T : Graph} {src : GraphNode} {c : Nat × Nat}
    (h : c ∈ removeCandidatesOf T src) :
    ∃ d, src[rankKey src c]? = some ⟨c.2, d⟩ := by
  obtain ⟨rk, hrk⟩ := mem_removeCandidatesOf.1 h
  have hk := rankKey_of_mem_candidatesOf hrk
  obtain ⟨v, w⟩ := c
  obtain ⟨_, _, _, _, _, _, d, hn, _, _⟩ := mem_candidatesOf.1 hrk
  exact ⟨d, by rw [hk]; exact neighborsOf_some hn⟩

/-! ## Facts about the pop loop -/

theorem popCandidates_snd (edges : List (List Nat)) (idx w : Nat) (rc : List (Nat × Nat)) :
    (popCandidates edges idx w rc).2 = rc.dropWhile (fun c => decide (c.2 = w)) := by
  induction rc with
  | nil => rfl
  | cons c rest ih =>
    simp only [popCandidates]
    by_cases hc : c.2 = w
    · simp only [hc, if_true, List.dropWhile_cons, decide_True]
      split_ifs with h2
      · rfl
      · exact ih
    · simp [hc, List.dropWhile_cons]

theorem popCandidates_fst (edges : List (List Nat)) (idx w : Nat) (rc : List (Nat × Nat)) :
    (popCandidates edges idx w rc).1 = true ↔
      ∃ c ∈ rc.takeWhile (fun c => decide (c.2 = w)),
        c.1 ∈ edges.getD idx [] ∧ c.2 ∈ entryOf edges c.1 := by
  induction rc with
  | nil => simp [popCandidates]
  | cons c rest ih =>
    simp only [popCandidates]
    by_cases hc : c.2 = w
    · simp only [hc, if_true, List.takeWhile_cons, decide_True, List.mem_cons]
      split_ifs with h2
      · simp only [true_iff]
        exact ⟨c, Or.inl rfl, by rw [hc]; exact h2⟩
      · rw [ih]
        constructor
        · rintro ⟨x, hx, h⟩
          exact ⟨x, Or.inr hx, h⟩
        · rintro ⟨x, hx | hx, h⟩
          · subst hx
            rw [hc] at h
            exact absurd h h2
          · exact ⟨x, hx, h⟩
    · simp [hc, List.takeWhile_cons]



/-! ## Facts about vectors of lists -/

theorem getD_set_self {α : Type} {l : List (List α)} {i : Nat} (a : List α) (h : i < l.length) :
    (l.set i a).getD i [] = a := by
  simp [List.getD_eq_getElem?_getD, List.getElem?_set, h]

theorem getD_set_ne {α : Type} {l : List (List α)} {i j : Nat} (a : List α) (h : i ≠ j) :
    (l.set i a).getD j [] = l.getD j [] := by
  simp [List.getD_eq_getElem?_getD, List.getElem?_set, h]

theorem getD_modify_self {α : Type} {l : List (List α)} {i : Nat} (f : List α → List α)
    (h : i < l.length) : (l.modify f i).getD i [] = f (l.getD i []) := by
  simp [List.getD_eq_getElem?_getD, List.getElem?_modify, List.getElem?_eq_getElem h]

theorem getD_modify_ne {α : Type} {l : List (List α)} {i j : Nat} (f : List α → List α)
    (h : i ≠ j) : (l.modify f i).getD j [] = l.getD j [] := by
  simp only [List.getD_eq_getElem?_getD, List.getElem?_modify, h, if_false]
  cases l[j]? <;> rfl

/-! ## The step of stage 2 in closed form -/

theorem commitStep_none {T : Graph} {r id : Nat} {st : CommitState}
    (h : (T.getD (id - 1) [])[r]? = none) (hrc : st.removeCandidates.getD (id - 1) [] = []) :
    commitStep T r id st = .ok (true, st) := by
  unfold commitStep
  simp only [h, hrc]
  rfl

theorem commitStep_some {T : Graph} {r id : Nat} {st : CommitState} {e : ObjectDistance}
    (h : (T.getD (id - 1) [])[r]? = some e) :
    commitStep T r id st = .ok (false, stepState st (id - 1) e) := by
  have hp : (if 0 < (st.removeCandidates.getD (id - 1) []).length
      then popCandidates st.edges (id - 1) e.id (st.removeCandidates.getD (id - 1) [])
      else (false, st.removeCandidates.getD (id - 1) []))
      = popCandidates st.edges (id - 1) e.id (st.removeCandidates.getD (id - 1) []) := by
    split_ifs with h0
    · rfl
    · have : st.removeCandidates.getD (id - 1) [] = [] := by
        simpa using h0
      rw [this]; rfl
  unfold commitStep
  simp only [h, hp, stepState, popCandidates_snd]
  split_ifs <;> rfl

/-! ## Accessors of the state after a step -/

theorem stepState_rc_self {T : Graph} {st : CommitState} {idx : Nat} (e : ObjectDistance)
    (hl : StateLen T st) (hi : idx < T.length) :
    (stepState st idx e).removeCandidates.getD idx [] =
      (st.removeCandidates.getD idx []).dropWhile (fun c => decide (c.2 = e.id)) := by
  simp only [stepState]
  split_ifs <;> exact getD_set_self _ (by rw [hl.rc]; exact hi)

theorem stepState_rc_ne {st : CommitState} {idx j : Nat} (e : ObjectDistance) (h : idx ≠ j) :
    (stepState st idx e).removeCandidates.getD j [] = st.removeCandidates.getD j [] := by
  simp only [stepState]
  split_ifs <;> exact getD_set_ne _ h

theorem stepState_edges_ne {st : CommitState} {idx j : Nat} (e : ObjectDistance) (h : idx ≠ j) :
    (stepState st idx e).edges.getD j [] = st.edges.getD j [] := by
  simp only [stepState]
  split_ifs
  · rfl
  · exact getD_modify_ne _ h

theorem stepState_out_ne {st : CommitState} {idx j : Nat} (e : ObjectDistance) (h : idx ≠ j) :
    (stepState st idx e).outGraph.getD j [] = st.outGraph.getD j [] := by
  simp only [stepState]
  split_ifs
  · rfl
  · exact getD_modify_ne _ h

theorem stepState_out_self {T : Graph} {st : CommitState} {idx : Nat} (e : ObjectDistance)
    (hl : StateLen T st) (hi : idx < T.length) :
    (stepState st idx e).outGraph.getD idx [] =
      if (popCandidates st.edges idx e.id (st.removeCandidates.getD idx [])).1
      then st.outGraph.getD idx [] else st.outGraph.getD idx [] ++ [e] := by
  simp only [stepState]
  split_ifs
  · rfl
  · exact getD_modify_self _ (by rw [hl.out]; exact hi)

theorem stepState_edges_self {T : Graph} {st : CommitState} {idx : Nat} (e : ObjectDistance)
    (hl : StateLen T st) (hi : idx < T.length) :
    (stepState st idx e).edges.getD idx [] =
      if (popCandidates st.edges idx e.id (st.removeCandidates.getD idx [])).1
      then st.edges.getD idx [] else e.id :: st.edges.getD idx [] := by
  simp only [stepState]
  split_ifs
  · rfl
  · exact getD_modify_self _ (by rw [hl.edges]; exact hi)

theorem stepState_len {T : Graph} {st : CommitState} (idx : Nat) (e : ObjectDistance)
    (hl : StateLen T st) : StateLen T (stepState st idx e) := by
  simp only [stepState]
  split_ifs
  · exact ⟨by simp [hl.rc], hl.edges, hl.out⟩
  · exact ⟨by simp [hl.rc], by simp [hl.edges], by simp [hl.out]⟩

theorem stepState_out_mono {T : Graph} {st : CommitState} (idx j : Nat) (e : ObjectDistance)
    (hl : StateLen T st) (hi : idx < T.length) {x : ObjectDistance}
    (hx : x ∈ st.outGraph.getD j []) : x ∈ (stepState st idx e).outGraph.getD j [] := by
  by_cases h : idx = j
  · subst h
    rw [stepState_out_self e hl hi]
    split_ifs
    · exact hx
    · exact List.mem_append_left _ hx
  · rw [stepState_out_ne e h]; exact hx

/-! ## The base invariant is kept by a step -/

theorem head_dropWhile_false {α : Type} (p : α → Bool) : ∀ (l : List α) (h : α) (t : List α),
    l.dropWhile p = h :: t → p h = false := by
  intro l
  induction l with
  | nil => intro h t hl; simp at hl
  | cons a rest ih =>
    intro h t hl
    rw [List.dropWhile_cons] at hl
    split_ifs at hl with ha
    · exact ih h t hl
    · simp only [List.cons.injEq] at hl
      rw [← hl.1]
      simpa using ha

theorem nodeBase_of_ne {T : Graph} {st : CommitState} {idx j p : Nat} (e : ObjectDistance)
    (hne : idx ≠ j) (h : NodeBase T st j p) : NodeBase T (stepState st idx e) j p := by
  refine ⟨?_, ?_, ?_, ?_⟩
  · rw [stepState_rc_ne e hne]; exact h.rcSuffix
  · rw [stepState_rc_ne e hne]; exact h.rcLow
  · rw [stepState_edges_ne e hne, stepState_out_ne e hne]; exact h.edgesOut
  · rw [stepState_out_ne e hne]; exact h.outSub

theorem nodeBase_step {T : Graph} {st : CommitState} {idx r : Nat} {e : ObjectDistance}
    (hl : StateLen T st) (hi : idx < T.length) (he : (T.getD idx [])[r]? = some e)
    (h : NodeBase T st idx r) : NodeBase T (stepState st idx e) idx (r + 1) := by
  have hsuf : List.IsSuffix ((st.removeCandidates.getD idx []).dropWhile
      (fun c => decide (c.2 = e.id))) (st.removeCandidates.getD idx []) :=
    List.dropWhile_suffix _
  have hsorted : (st.removeCandidates.getD idx []).Pairwise
      (fun a b => rankKey (T.getD idx []) a ≤ rankKey (T.getD idx []) b) :=
    (removeCandidatesOf_sorted T _).sublist h.rcSuffix.sublist
  refine ⟨?_, ?_, ?_, ?_⟩
  · rw [stepState_rc_self e hl hi]
    exact hsuf.trans h.rcSuffix
  · rw [stepState_rc_self e hl hi]
    intro c hc
    have hkey : ∀ x ∈ st.removeCandidates.getD idx [], rankKey (T.getD idx []) x = r →
        x.2 = e.id := by
      intro x hx hxr
      obtain ⟨d, hd⟩ := rankKey_spec (h.rcSuffix.subset hx)
      rw [hxr, he] at hd
      simp only [Option.some.injEq] at hd
      rw [hd]
    cases hdw : (st.removeCandidates.getD idx []).dropWhile (fun c => decide (c.2 = e.id)) with
    | nil => rw [hdw] at hc; simp at hc
    | cons hd tl =>
      have hhd : decide (hd.2 = e.id) = false :=
        head_dropWhile_false (fun c => decide (c.2 = e.id)) _ hd tl hdw
      have hhd_mem : hd ∈ st.removeCandidates.getD idx [] :=
        hsuf.subset (by rw [hdw]; exact List.mem_cons_self _ _)
      have hhd_key : r + 1 ≤ rankKey (T.getD idx []) hd := by
        have h1 := h.rcLow hd hhd_mem
        rcases Nat.lt_or_ge r (rankKey (T.getD idx []) hd) with h2 | h2
        · exact h2
        · have := hkey hd hhd_mem (by omega)
          simp [this] at hhd
      rw [hdw] at hc
      rcases List.mem_cons.1 hc with rfl | hct
      · exact hhd_key
      · have hpw : (hd :: tl).Pairwise
            (fun a b => rankKey (T.getD idx []) a ≤ rankKey (T.getD idx []) b) := by
          rw [← hdw]; exact hsorted.sublist hsuf.sublist
        have := List.rel_of_pairwise_cons hpw hct
        omega
  · intro v
    rw [stepState_edges_self e hl hi, stepState_out_self e hl hi]
    split_ifs
    · exact h.edgesOut v
    · simp only [List.mem_cons, List.mem_append, List.not_mem_nil, or_false]
      rw [h.edgesOut v]
      constructor
      · rintro (rfl | ⟨x, hx, rfl⟩)
        · exact ⟨e, Or.inr rfl, rfl⟩
        · exact ⟨x, Or.inl hx, rfl⟩
      · rintro ⟨x, hx | rfl, rfl⟩
        · exact Or.inr ⟨x, hx, rfl⟩
        · exact Or.inl rfl
  · rw [stepState_out_self e hl hi]
    have htake : (T.getD idx []).take (r + 1) = (T.getD idx []).take r ++ [e] := by
      rw [List.take_succ, he]; rfl
    rw [htake]
    split_ifs
    · exact h.outSub.trans (List.sublist_append_left _ _)
    · exact h.outSub.append (List.Sublist.refl _)

/-! ## Induction over a traversal and over the outer loop -/

theorem commitPass_induct (T : Graph) (r : Nat) (P : List Nat → CommitState → Prop)
    (hstep : ∀ id rest st, P (id :: rest) st →
      ((T.getD (id - 1) [])[r]? = none ∧ st.removeCandidates.getD (id - 1) [] = [] ∧ P rest st) ∨
      (∃ e, (T.getD (id - 1) [])[r]? = some e ∧ P rest (stepState st (id - 1) e))) :
    ∀ ids st, P ids st →
      ∃ st1, commitPass T r ids st = .ok (liveAfter T r ids, st1) ∧ P [] st1 := by
  intro ids
  induction ids with
  | nil => intro st h; exact ⟨st, rfl, h⟩
  | cons id rest ih =>
    intro st h
    rcases hstep id rest st h with ⟨hn, hrc, hP⟩ | ⟨e, he, hP⟩
    · obtain ⟨st1, h1, h2⟩ := ih st hP
      refine ⟨st1, ?_, h2⟩
      have hsz : ¬ r < sizeAt T (id - 1) := by
        unfold sizeAt
        have := List.getElem?_eq_none_iff.1 hn
        omega
      simp only [commitPass, commitStep_none hn hrc, h1, liveAfter, List.filter_cons, hsz,
        decide_False, if_true]
      rfl
    · obtain ⟨st1, h1, h2⟩ := ih _ hP
      refine ⟨st1, ?_, h2⟩
      have hsz : r < sizeAt T (id - 1) := by
        unfold sizeAt
        by_contra hc
        rw [List.getElem?_eq_none (by omega)] at he
        exact absurd he (by simp)
      simp only [commitPass, commitStep_some he, h1, liveAfter, List.filter_cons, hsz,
        decide_True, if_true]
      rfl

theorem commitLoop_induct (T : Graph) (bound : Nat) (Q : Nat → List Nat → CommitState → Prop)
    (hpass : ∀ rank ids st, Q rank ids st → ids ≠ [] →
      ∃ st1, commitPass T rank ids st = .ok (liveAfter T rank ids, st1) ∧
        Q (rank + 1) (liveAfter T rank ids) st1)
    (hbound : ∀ rank ids st, Q rank ids st → bound < rank → ids = []) :
    ∀ fuel rank ids st, Q rank ids st → bound + 1 ≤ rank + fuel →
      ∃ rank1 st1, commitLoop T fuel rank ids st = .ok (rank1, st1) ∧ Q rank1 [] st1 ∧
        rank ≤ rank1 ∧ (ids ≠ [] → rank < rank1) ∧ rank1 ≤ max rank (bound + 1) := by
  intro fuel
  induction fuel with
  | zero =>
    intro rank ids st hQ hf
    have hnil : ids = [] := hbound rank ids st hQ (by omega)
    subst hnil
    exact ⟨rank, st, by simp [commitLoop], hQ, le_refl _, fun h => absurd rfl h, le_max_left _ _⟩
  | succ fuel ih =>
    intro rank ids st hQ hf
    by_cases hnil : ids = []
    · subst hnil
      exact ⟨rank, st, by simp [commitLoop], hQ, le_refl _, fun h => absurd rfl h,
        le_max_left _ _⟩
    · obtain ⟨st1, h1, hQ1⟩ := hpass rank ids st hQ hnil
      obtain ⟨rank2, st2, h2, hQ2, hle, _, hub⟩ := ih (rank + 1) _ st1 hQ1 (by omega)
      refine ⟨rank2, st2, ?_, hQ2, by omega, fun _ => by omega, ?_⟩
      · simp only [commitLoop, hnil, if_false, h1]
        exact h2
      · have hr : rank ≤ bound := by
          by_contra hc
          exact hnil (hbound rank ids st hQ (by omega))
        rw [max_eq_right (by omega)] at hub
        exact le_trans hub (le_max_right _ _)

/-! ## The base invariant along a traversal -/

theorem progress_head {T : Graph} {r id : Nat} {rest : List Nat} (h1 : 1 ≤ id) :
    progress T r (id :: rest) (id - 1) = min r (sizeAt T (id - 1)) := by
  have : id - 1 + 1 = id := by omega
  simp [progress, this]

theorem progress_tail_self {T : Graph} {r id : Nat} {rest : List Nat} (h1 : 1 ≤ id)
    (hn : id ∉ rest) : progress T r rest (id - 1) = min (r + 1) (sizeAt T (id - 1)) := by
  have : id - 1 + 1 = id := by omega
  simp [progress, this, hn]

theorem progress_tail_ne {T : Graph} {r id j : Nat} {rest : List Nat} (h1 : 1 ≤ id)
    (hne : id - 1 ≠ j) : progress T r (id :: rest) j = progress T r rest j := by
  have : j + 1 ≠ id := by omega
  simp [progress, this]

theorem size_le_of_getElem?_none {T : Graph} {idx r : Nat}
    (h : (T.getD idx [])[r]? = none) : sizeAt T idx ≤ r := by
  unfold sizeAt
  exact List.getElem?_eq_none_iff.1 h

theorem lt_size_of_getElem?_some {T : Graph} {idx r : Nat} {e : ObjectDistance}
    (h : (T.getD idx [])[r]? = some e) : r < sizeAt T idx := by
  unfold sizeAt
  by_contra hc
  rw [List.getElem?_eq_none (by omega)] at h
  exact absurd h (by simp)

theorem rankKey_lt_size {T : Graph} {idx : Nat} {c : Nat × Nat}
    (h : c ∈ removeCandidatesOf T (T.getD idx [])) :
    rankKey (T.getD idx []) c < sizeAt T idx := by
  obtain ⟨d, hd⟩ := rankKey_spec h
  exact lt_size_of_getElem?_some hd

theorem nodeBase_rc_nil {T : Graph} {st : CommitState} {idx p : Nat}
    (h : NodeBase T st idx p) (hp : sizeAt T idx ≤ p) :
    st.removeCandidates.getD idx [] = [] := by
  cases hrc : st.removeCandidates.getD idx [] with
  | nil => rfl
  | cons c rest =>
    have hc : c ∈ st.removeCandidates.getD idx [] := by rw [hrc]; exact List.mem_cons_self _ _
    have h1 := h.rcLow c hc
    have h2 := rankKey_lt_size (h.rcSuffix.subset hc)
    omega

theorem passBase_step {T : Graph} {r id : Nat} {rest : List Nat} {st : CommitState}
    (h : PassBase T r (id :: rest) st) :
    ((T.getD (id - 1) [])[r]? = none ∧ st.removeCandidates.getD (id - 1) [] = [] ∧
        PassBase T r rest st) ∨
    (∃ e, (T.getD (id - 1) [])[r]? = some e ∧ PassBase T r rest (stepState st (id - 1) e)) := by
  obtain ⟨h1, hN⟩ := h.valid id (List.mem_cons_self _ _)
  have hi : id - 1 < T.length := by omega
  have hnotin : id ∉ rest := fun hm =>
    absurd (List.rel_of_pairwise_cons h.sorted hm) (lt_irrefl _)
  have hvalid : ∀ x ∈ rest, 1 ≤ x ∧ x ≤ T.length :=
    fun x hx => h.valid x (List.mem_cons_of_mem _ hx)
  have hsorted : rest.Pairwise (fun a b => a < b) := (List.pairwise_cons.1 h.sorted).2
  have hnode := h.node (id - 1) hi
  rw [progress_head h1] at hnode
  cases he : (T.getD (id - 1) [])[r]? with
  | none =>
    left
    have hsz := size_le_of_getElem?_none he
    refine ⟨rfl, nodeBase_rc_nil hnode (by rw [min_eq_right hsz]), h.len, hvalid, hsorted, ?_⟩
    intro j hj
    by_cases hje : id - 1 = j
    · subst hje
      rw [progress_tail_self h1 hnotin, min_eq_right (by omega)]
      rw [min_eq_right hsz] at hnode
      exact hnode
    · rw [← progress_tail_ne h1 hje]
      exact h.node j hj
  | some e =>
    right
    have hsz := lt_size_of_getElem?_some he
    refine ⟨e, rfl, stepState_len _ _ h.len, hvalid, hsorted, ?_⟩
    intro j hj
    by_cases hje : id - 1 = j
    · subst hje
      rw [progress_tail_self h1 hnotin, min_eq_left (by omega)]
      rw [min_eq_left (by omega)] at hnode
      exact nodeBase_step h.len hi he hnode
    · rw [← progress_tail_ne h1 hje]
      exact nodeBase_of_ne e hje (h.node j hj)

/-! ## The base invariant along the outer loop -/

theorem mem_allIds {n id : Nat} : id ∈ allIds n ↔ 1 ≤ id ∧ id ≤ n := by
  unfold allIds
  simp only [List.mem_map, List.mem_range]
  constructor
  · rintro ⟨i, hi, rfl⟩; omega
  · rintro ⟨h1, h2⟩; exact ⟨id - 1, by omega, by omega⟩

theorem allIds_sorted (n : Nat) : (allIds n).Pairwise (fun a b => a < b) := by
  unfold allIds
  rw [List.pairwise_map]
  exact (List.pairwise_lt_range n).imp (fun h => by omega)

theorem mem_liveAt {T : Graph} {rank id : Nat} :
    id ∈ liveAt T rank ↔ (1 ≤ id ∧ id ≤ T.length) ∧ rank ≤ sizeAt T (id - 1) := by
  simp [liveAt, mem_allIds]

theorem liveAfter_liveAt (T : Graph) (rank : Nat) :
    liveAfter T rank (liveAt T rank) = liveAt T (rank + 1) := by
  unfold liveAfter liveAt
  rw [List.filter_filter]
  congr 1
  funext id
  rw [← Bool.decide_and, decide_eq_decide]
  omega

theorem sizeAt_le_maxSize (T : Graph) (idx : Nat) : sizeAt T idx ≤ maxSize T := by
  unfold sizeAt maxSize
  induction T generalizing idx with
  | nil => simp
  | cons a rest ih =>
    cases idx with
    | zero => simp
    | succ i =>
      simp only [List.getD_cons_succ, List.map_cons, List.foldr_cons]
      exact le_trans (ih i) (le_max_right _ _)

theorem liveAt_eq_nil {T : Graph} {rank : Nat} (h : maxSize T < rank) : liveAt T rank = [] := by
  rw [List.eq_nil_iff_forall_not_mem]
  intro id hid
  have := (mem_liveAt.1 hid).2
  have := sizeAt_le_maxSize T (id - 1)
  omega

theorem passBase_of_loopBase {T : Graph} {rank : Nat} {ids : List Nat} {st : CommitState}
    (h : LoopBase T rank ids st) : PassBase T rank ids st := by
  refine ⟨h.len, ?_, ?_, ?_⟩
  · intro id hid
    rw [h.ids_eq] at hid
    exact (mem_liveAt.1 hid).1
  · rw [h.ids_eq]
    exact (allIds_sorted _).sublist (List.filter_sublist _)
  · intro idx hidx
    have hn := h.node idx hidx
    unfold progress
    split_ifs with hm
    · exact hn
    · have : sizeAt T idx < rank := by
        by_contra hc
        apply hm
        rw [h.ids_eq]
        exact mem_liveAt.2 ⟨⟨by omega, by omega⟩, by simpa using le_of_not_lt hc⟩
      rw [min_eq_right (by omega)]
      rw [min_eq_right (by omega)] at hn
      exact hn

theorem loopBase_of_passBase {T : Graph} {rank : Nat} {st : CommitState}
    (h : PassBase T rank [] st) : LoopBase T (rank + 1) (liveAt T (rank + 1)) st := by
  refine ⟨rfl, h.len, ?_⟩
  intro idx hidx
  have := h.node idx hidx
  simpa [progress] using this

theorem clearNodes_getD (T : Graph) (idx : Nat) : (clearNodes T).getD idx [] = [] := by
  unfold clearNodes
  rw [List.getD_eq_getElem?_getD, List.getElem?_map]
  cases T[idx]? with
  | none => rfl
  | some node =>
    simp only [Option.map_some', Option.getD_some]
    split_ifs <;> simp_all

theorem loopBase_initial (T : Graph) :
    LoopBase T 0 (allIds T.length) (initialCommitState T) := by
  refine ⟨?_, ⟨?_, ?_, ?_⟩, ?_⟩
  · simp [liveAt]
  · simp [initialCommitState]
  · simp [initialCommitState]
  · simp [initialCommitState, clearNodes]
  · intro idx hidx
    have hrc : (initialCommitState T).removeCandidates.getD idx [] =
        removeCandidatesOf T (T.getD idx []) := by
      simp [initialCommitState, List.getD_eq_getElem?_getD, List.getElem?_map,
        List.getElem?_eq_getElem hidx]
    have hed : (initialCommitState T).edges.getD idx [] = [] := by
      simp [initialCommitState, List.getD_eq_getElem?_getD, List.getElem?_map,
        List.getElem?_eq_getElem hidx]
    have hout : (initialCommitState T).outGraph.getD idx [] = [] := clearNodes_getD T idx
    refine ⟨?_, ?_, ?_, ?_⟩
    · rw [hrc]
    · intro c _; rw [Nat.zero_min]; exact Nat.zero_le _
    · intro v; rw [hed, hout]; simp
    · rw [hout]; exact List.nil_sublist _

/-- For any graph, stage 2 started with fuel above the largest node size returns, after at
most `maxSize T + 1` traversals, a state in which every node satisfies the base invariant
with all its ranks decided. -/
theorem adjustPathsEffectivelyRun_base (T : Graph) (fuel : Nat) (hf : maxSize T + 1 ≤ fuel) :
    ∃ rank st, adjustPathsEffectivelyRun fuel T = .ok (rank, st) ∧
      rank ≤ maxSize T + 1 ∧ StateLen T st ∧
      ∀ idx, idx < T.length → NodeBase T st idx (sizeAt T idx) := by
  have hloop := commitLoop_induct T (maxSize T) (LoopBase T)
    (by
      intro rank ids st hQ _
      obtain ⟨st1, h1, h2⟩ := commitPass_induct T rank (PassBase T rank)
        (fun id rest st h => passBase_step h) ids st (passBase_of_loopBase hQ)
      refine ⟨st1, h1, ?_⟩
      have := loopBase_of_passBase h2
      rw [hQ.ids_eq, liveAfter_liveAt]
      exact this)
    (by
      intro rank ids st hQ hb
      rw [hQ.ids_eq]
      exact liveAt_eq_nil hb)
    fuel 0 (allIds T.length) (initialCommitState T) (loopBase_initial T) (by omega)
  obtain ⟨rank, st, hrun, hQ, _, _, hub⟩ := hloop
  refine ⟨rank, st, hrun, by simpa using hub, hQ.len, ?_⟩
  intro idx hidx
  have hn := hQ.node idx hidx
  have hlive : idx + 1 ∉ liveAt T rank := by
    rw [← hQ.ids_eq]; simp
  have : sizeAt T idx < rank := by
    by_contra hc
    exact hlive (mem_liveAt.2 ⟨⟨by omega, by omega⟩, by simpa using le_of_not_lt hc⟩)
  rw [min_eq_right (by omega)] at hn
  exact hn

/-! ## Graphs with distinct targets: the pop loop decides `Shortcut` -/

theorem mem_entryOf {α : Type} {v : List (List α)} {id : Nat} {x : α} :
    x ∈ entryOf v id ↔ id ≠ 0 ∧ x ∈ v.getD (id - 1) [] := by
  unfold entryOf
  split_ifs with h
  · simp [h]
  · simp [h]

theorem getD_mem_or_nil (T : Graph) (idx : Nat) : T.getD idx [] ∈ T ∨ T.getD idx [] = [] := by
  rw [List.getD_eq_getElem?_getD]
  cases h : T[idx]? with
  | none => right; rfl
  | some a => left; exact List.getElem?_mem h

theorem distinct_getD {T : Graph} (hd : DistinctTargets T) (idx : Nat) :
    ((T.getD idx []).map ObjectDistance.id).Nodup := by
  rcases getD_mem_or_nil T idx with h | h
  · exact hd _ h
  · rw [h]; exact List.nodup_nil

theorem distinct_eq {T : Graph} (hd : DistinctTargets T) {idx : Nat} {a b : ObjectDistance}
    (ha : a ∈ T.getD idx []) (hb : b ∈ T.getD idx []) (h : a.id = b.id) : a = b :=
  List.inj_on_of_nodup_map (distinct_getD hd idx) ha hb h

theorem distinct_rank_eq {T : Graph} (hd : DistinctTargets T) {idx i j : Nat}
    {a b : ObjectDistance} (ha : (T.getD idx [])[i]? = some a) (hb : (T.getD idx [])[j]? = some b)
    (h : a.id = b.id) : i = j := by
  have h1 := neighborsOf_nodup (distinct_getD hd idx) ha
  have h2 := neighborsOf_nodup (distinct_getD hd idx) hb
  rw [h, h2] at h1
  simp only [Option.some.injEq, Prod.mk.injEq] at h1
  exact h1.1.symm

theorem passBase_edges {T : Graph} {r : Nat} {pending : List Nat} {st : CommitState}
    (h : PassBase T r pending st) (j v : Nat) :
    v ∈ st.edges.getD j [] ↔ ∃ x ∈ st.outGraph.getD j [], x.id = v := by
  by_cases hj : j < T.length
  · exact (h.node j hj).edgesOut v
  · have h1 : st.edges.getD j [] = [] := by
      rw [List.getD_eq_getElem?_getD, List.getElem?_eq_none (by rw [h.len.edges]; omega)]; rfl
    have h2 : st.outGraph.getD j [] = [] := by
      rw [List.getD_eq_getElem?_getD, List.getElem?_eq_none (by rw [h.len.out]; omega)]; rfl
    rw [h1, h2]; simp

theorem passBase_subset {T : Graph} {r : Nat} {pending : List Nat} {st : CommitState}
    (h : PassBase T r pending st) (j : Nat) {x : ObjectDistance}
    (hx : x ∈ st.outGraph.getD j []) : x ∈ T.getD j [] := by
  by_cases hj : j < T.length
  · exact List.mem_of_mem_take ((h.node j hj).outSub.subset hx)
  · have h2 : st.outGraph.getD j [] = [] := by
      rw [List.getD_eq_getElem?_getD, List.getElem?_eq_none (by rw [h.len.out]; omega)]; rfl
    rw [h2] at hx; simp at hx

theorem mem_takeWhile_of_sorted {α : Type} (key : α → Nat) (p : α → Bool) :
    ∀ (l : List α) (c : α), l.Pairwise (fun a b => key a ≤ key b) → c ∈ l →
      (∀ x ∈ l, key x ≤ key c → p x = true) → c ∈ l.takeWhile p := by
  intro l
  induction l with
  | nil => intro c _ hc _; simp at hc
  | cons a rest ih =>
    intro c hpw hc hp
    have hrel := List.pairwise_cons.1 hpw
    have ha : key a ≤ key c := by
      rcases List.mem_cons.1 hc with rfl | hc1
      · exact le_refl _
      · exact hrel.1 c hc1
    have hpa : p a = true := hp a (List.mem_cons_self _ _) ha
    rw [List.takeWhile_cons, hpa]
    simp only [if_true]
    rcases List.mem_cons.1 hc with rfl | hc1
    · exact List.mem_cons_self _ _
    · exact List.mem_cons_of_mem _
        (ih c hrel.2 hc1 (fun x hx hk => hp x (List.mem_cons_of_mem _ hx) hk))

theorem shortcut_of_pathExist {T : Graph} {r : Nat} {pending : List Nat} {st : CommitState}
    {idx k : Nat} {e : ObjectDistance} (hd : DistinctTargets T) (h : PassBase T r pending st)
    (hi : idx < T.length) (he : (T.getD idx [])[k]? = some e)
    (hp : (popCandidates st.edges idx e.id (st.removeCandidates.getD idx [])).1 = true) :
    Shortcut st.outGraph idx e := by
  obtain ⟨c, hc, hc1, hc2⟩ := (popCandidates_fst _ _ _ _).1 hp
  have hcw : c.2 = e.id := by
    simpa using (List.mem_takeWhile_imp hc)
  have hcrc : c ∈ removeCandidatesOf T (T.getD idx []) :=
    (h.node idx hi).rcSuffix.subset ((List.takeWhile_sublist _).subset hc)
  obtain ⟨rk, hrk⟩ := mem_removeCandidatesOf.1 hcrc
  obtain ⟨v, w⟩ := c
  obtain ⟨sn, hsn, hsnid, pn, hpn, hpnid, d, hnb, hd1, hd2⟩ := mem_candidatesOf.1 hrk
  simp only at hcw hc1 hc2 hsnid hpnid
  subst hcw
  -- the distance that `neighbors` holds is the distance of `e`
  have hrke : (T.getD idx [])[rk]? = some ⟨e.id, d⟩ := neighborsOf_some hnb
  have hee : (⟨e.id, d⟩ : ObjectDistance) = e :=
    distinct_eq hd (List.getElem?_mem hrke) (List.getElem?_mem he) rfl
  have hde : d = e.distance := by rw [← hee]
  subst hde
  -- the first leg is committed
  obtain ⟨x, hx, hxid⟩ := (passBase_edges h idx v).1 hc1
  have hxsn : x = sn := distinct_eq hd (passBase_subset h idx hx) hsn (by rw [hxid, hsnid])
  subst hxsn
  -- the second leg is committed
  obtain ⟨hv0, hc2⟩ := mem_entryOf.1 hc2
  obtain ⟨y, hy, hyid⟩ := (passBase_edges h (v - 1) e.id).1 hc2
  obtain ⟨_, hpn1⟩ := mem_entryOf.1 hpn
  have hypn : y = pn := distinct_eq hd (passBase_subset h (v - 1) hy) hpn1 (by rw [hyid, hpnid])
  subst hypn
  refine ⟨x, hx, y, ?_, hpnid, hd1, hd2⟩
  rw [hsnid]
  exact mem_entryOf.2 ⟨hv0, hy⟩

theorem pathExist_of_shortcut {T : Graph} {r : Nat} {pending : List Nat} {st : CommitState}
    {idx k : Nat} {e : ObjectDistance} (hd : DistinctTargets T) (h : PassBase T r pending st)
    (hi : idx < T.length) (he : (T.getD idx [])[k]? = some e)
    (hlow : ∀ c ∈ st.removeCandidates.getD idx [], k ≤ rankKey (T.getD idx []) c)
    (hhigh : NodeHigh T st idx k) (hs : Shortcut st.outGraph idx e) :
    (popCandidates st.edges idx e.id (st.removeCandidates.getD idx [])).1 = true := by
  obtain ⟨sn, hsn, pn, hpn, hpnid, hd1, hd2⟩ := hs
  obtain ⟨hv0, hpn1⟩ := mem_entryOf.1 hpn
  have hnb : neighborsOf (T.getD idx []) e.id = some (k, e.distance) :=
    neighborsOf_nodup (distinct_getD hd idx) he
  have hcand : (k, (sn.id, e.id)) ∈ candidatesOf T (T.getD idx []) :=
    mem_candidatesOf.2 ⟨sn, passBase_subset h idx hsn, rfl, pn,
      mem_entryOf.2 ⟨hv0, passBase_subset h _ hpn1⟩, hpnid, e.distance, hnb, hd1, hd2⟩
  have hrc0 : (sn.id, e.id) ∈ removeCandidatesOf T (T.getD idx []) :=
    mem_removeCandidatesOf.2 ⟨k, hcand⟩
  have hkey : rankKey (T.getD idx []) (sn.id, e.id) = k := rankKey_of_mem_candidatesOf hcand
  have hrc : (sn.id, e.id) ∈ st.removeCandidates.getD idx [] := hhigh _ hrc0 (by rw [hkey])
  have hsorted : (st.removeCandidates.getD idx []).Pairwise
      (fun a b => rankKey (T.getD idx []) a ≤ rankKey (T.getD idx []) b) :=
    (removeCandidatesOf_sorted T _).sublist (h.node idx hi).rcSuffix.sublist
  have htw : (sn.id, e.id) ∈ (st.removeCandidates.getD idx []).takeWhile
      (fun c => decide (c.2 = e.id)) := by
    refine mem_takeWhile_of_sorted (rankKey (T.getD idx [])) _ _ _ hsorted hrc ?_
    intro x hx hxk
    rw [hkey] at hxk
    have hxk2 := hlow x hx
    obtain ⟨d, hd⟩ := rankKey_spec ((h.node idx hi).rcSuffix.subset hx)
    have : rankKey (T.getD idx []) x = k := by omega
    rw [this, he] at hd
    simp only [Option.some.injEq] at hd
    simp [hd]
  refine (popCandidates_fst _ _ _ _).2 ⟨(sn.id, e.id), htw, ?_, ?_⟩
  · exact (passBase_edges h idx sn.id).2 ⟨sn, hsn, rfl⟩
  · exact mem_entryOf.2 ⟨hv0, (passBase_edges h (sn.id - 1) e.id).2 ⟨pn, hpn1, hpnid⟩⟩

/-! ## The full invariant is kept by a step -/

theorem mem_stepState_out {T : Graph} {st : CommitState} {idx : Nat} {e : ObjectDistance}
    (hl : StateLen T st) (hi : idx < T.length) {j : Nat} {x : ObjectDistance} :
    x ∈ (stepState st idx e).outGraph.getD j [] ↔
      x ∈ st.outGraph.getD j [] ∨
      (j = idx ∧ (popCandidates st.edges idx e.id (st.removeCandidates.getD idx [])).1 = false ∧
        x = e) := by
  by_cases hj : idx = j
  · subst hj
    rw [stepState_out_self e hl hi]
    split_ifs with hp
    · simp [-List.getD_eq_getElem?_getD, hp]
    · simp [-List.getD_eq_getElem?_getD, hp]
  · rw [stepState_out_ne e hj]
    constructor
    · exact Or.inl
    · rintro (h | ⟨h, _⟩)
      · exact h
      · exact absurd h.symm hj

theorem shortcut_mono {g g1 : Graph} {idx : Nat} {e : ObjectDistance}
    (hm : ∀ j x, x ∈ g.getD j [] → x ∈ g1.getD j []) (h : Shortcut g idx e) :
    Shortcut g1 idx e := by
  obtain ⟨sn, hsn, pn, hpn, h1, h2, h3⟩ := h
  obtain ⟨hv, hpn⟩ := mem_entryOf.1 hpn
  exact ⟨sn, hm _ _ hsn, pn, mem_entryOf.2 ⟨hv, hm _ _ hpn⟩, h1, h2, h3⟩

theorem sorted_rank_le {T : Graph} (hs : SortedByDistance T) {idx i j : Nat}
    {a b : ObjectDistance} (ha : (T.getD idx [])[i]? = some a)
    (hb : (T.getD idx [])[j]? = some b) (hij : i < j) : a.distance ≤ b.distance := by
  have hpw : (T.getD idx []).Pairwise (fun a b => a.distance ≤ b.distance) := by
    rcases getD_mem_or_nil T idx with h | h
    · exact hs _ h
    · rw [h]; exact List.Pairwise.nil
  obtain ⟨hi, hai⟩ := List.getElem?_eq_some_iff.1 ha
  obtain ⟨hj, hbj⟩ := List.getElem?_eq_some_iff.1 hb
  have := List.pairwise_iff_getElem.1 hpw i j hi hj hij
  rw [hai, hbj] at this
  exact this

theorem nodeHigh_step {T : Graph} {st : CommitState} {idx r : Nat} {e : ObjectDistance}
    (hd : DistinctTargets T) (hl : StateLen T st) (hi : idx < T.length)
    (he : (T.getD idx [])[r]? = some e) (h : NodeHigh T st idx r) :
    NodeHigh T (stepState st idx e) idx (r + 1) := by
  intro c hc hk
  rw [stepState_rc_self e hl hi]
  have hrc := h c hc (by omega)
  have hne : c.2 ≠ e.id := by
    intro hce
    have hnb := neighborsOf_nodup (distinct_getD hd idx) he
    have : rankKey (T.getD idx []) c = r := by
      simp only [rankKey, hce, hnb]
    omega
  rw [← List.takeWhile_append_dropWhile (fun c => decide (c.2 = e.id))
    (st.removeCandidates.getD idx [])] at hrc
  rcases List.mem_append.1 hrc with h1 | h1
  · have := List.mem_takeWhile_imp h1
    simp only [decide_eq_true_eq] at this
    exact absurd this hne
  · exact h1

theorem mem_out_rank {T : Graph} {r : Nat} {pending : List Nat} {st : CommitState}
    (h : PassBase T r pending st) {idx : Nat} (hi : idx < T.length) {x : ObjectDistance}
    (hx : x ∈ st.outGraph.getD idx []) :
    ∃ k, k < progress T r pending idx ∧ (T.getD idx [])[k]? = some x := by
  have h1 := (h.node idx hi).outSub.subset hx
  obtain ⟨k, hk, hkx⟩ := List.mem_iff_getElem.1 h1
  rw [List.length_take] at hk
  refine ⟨k, lt_of_lt_of_le hk (min_le_left _ _), ?_⟩
  rw [List.getElem_take] at hkx
  rw [← hkx]
  exact List.getElem?_eq_getElem _

theorem passFull_step {T : Graph} {r id : Nat} {rest : List Nat} {st : CommitState}
    (hd : DistinctTargets T) (hs : SortedByDistance T) (h : PassFull T r (id :: rest) st) :
    ((T.getD (id - 1) [])[r]? = none ∧ st.removeCandidates.getD (id - 1) [] = [] ∧
        PassFull T r rest st) ∨
    (∃ e, (T.getD (id - 1) [])[r]? = some e ∧ PassFull T r rest (stepState st (id - 1) e)) := by
  obtain ⟨h1, hN⟩ := h.base.valid id (List.mem_cons_self _ _)
  have hi : id - 1 < T.length := by omega
  have hnotin : id ∉ rest := fun hm =>
    absurd (List.rel_of_pairwise_cons h.base.sorted hm) (lt_irrefl _)
  rcases passBase_step h.base with ⟨hn, hrc, hb⟩ | ⟨e, he, hb⟩
  · left
    have hsz := size_le_of_getElem?_none hn
    have hprog : ∀ j, progress T r rest j = progress T r (id :: rest) j := by
      intro j
      by_cases hje : id - 1 = j
      · subst hje
        rw [progress_tail_self h1 hnotin, progress_head h1, min_eq_right hsz,
          min_eq_right (by omega)]
      · exact (progress_tail_ne h1 hje).symm
    refine ⟨hn, hrc, hb, ?_, ?_, ?_, ?_⟩
    · intro j hj; rw [hprog]; exact h.high j hj
    · intro j hj hjn hrj id1 hid1
      have : j + 1 ∉ id :: rest := by
        intro hm
        rcases List.mem_cons.1 hm with heq | hm
        · have : j = id - 1 := by omega
          subst this; omega
        · exact hjn hm
      exact h.order j hj this hrj id1 (List.mem_cons_of_mem _ hid1)
    · intro j hj k e hk; rw [hprog] at hk; exact h.sound j hj k e hk
    · intro j hj k e hk; rw [hprog] at hk; exact h.compl j hj k e hk
  · right
    have hsz := lt_size_of_getElem?_some he
    have hp_old : progress T r (id :: rest) (id - 1) = r := by
      rw [progress_head h1, min_eq_left (by omega)]
    have hp_new : progress T r rest (id - 1) = r + 1 := by
      rw [progress_tail_self h1 hnotin, min_eq_left (by omega)]
    have hl := h.base.len
    have hmono : ∀ j x, x ∈ st.outGraph.getD j [] →
        x ∈ (stepState st (id - 1) e).outGraph.getD j [] :=
      fun j x hx => stepState_out_mono (id - 1) j e hl hi hx
    refine ⟨e, he, hb, ?_, ?_, ?_, ?_⟩
    · -- high
      intro j hj
      by_cases hje : id - 1 = j
      · subst hje
        rw [hp_new]
        have := h.high (id - 1) hi
        rw [hp_old] at this
        exact nodeHigh_step hd hl hi he this
      · rw [← progress_tail_ne h1 hje]
        intro c hc hk
        rw [stepState_rc_ne e hje]
        exact h.high j hj c hc hk
    · -- order
      intro j hj hjn hrj id1 hid1
      by_cases hje : id - 1 = j
      · subst hje
        have := List.rel_of_pairwise_cons h.base.sorted hid1
        omega
      · have : j + 1 ∉ id :: rest := by
          intro hm
          rcases List.mem_cons.1 hm with heq | hm
          · omega
          · exact hjn hm
        exact h.order j hj this hrj id1 (List.mem_cons_of_mem _ hid1)
    · -- sound
      intro j hj k e1 hk he1 hnot
      have hnot_old : e1 ∉ st.outGraph.getD j [] := fun hm => hnot (hmono _ _ hm)
      by_cases hje : id - 1 = j
      · subst hje
        rw [hp_new] at hk
        by_cases hkr : k < r
        · exact shortcut_mono hmono
            (h.sound (id - 1) hi k e1 (by rw [hp_old]; exact hkr) he1 hnot_old)
        · have hkeq : k = r := by omega
          subst hkeq
          rw [he] at he1
          simp only [Option.some.injEq] at he1
          subst he1
          have hp : (popCandidates st.edges (id - 1) e.id
              (st.removeCandidates.getD (id - 1) [])).1 = true := by
            by_contra hc
            exact hnot ((mem_stepState_out hl hi).2 (Or.inr ⟨rfl, by simpa using hc, rfl⟩))
          exact shortcut_mono hmono (shortcut_of_pathExist hd h.base hi he hp)
      · rw [← progress_tail_ne h1 hje] at hk
        exact shortcut_mono hmono (h.sound j hj k e1 hk he1 hnot_old)
    · -- compl
      intro j hj k e1 hk he1 hmem sn hsn kv pn hpnT hpn hpnid hd1 hd2 hbefore
      obtain ⟨hv0, hpn1⟩ := mem_entryOf.1 hpn
      rw [mem_stepState_out hl hi] at hmem hsn hpn1
      unfold DecidedBefore at hbefore
      by_cases hje : id - 1 = j
      · subst hje
        rw [hp_new] at hk
        by_cases hkr : k < r
        · have hne : e1 ≠ e := by
            intro heq
            subst heq
            have := distinct_rank_eq hd he1 he rfl
            omega
          have hmem_old : e1 ∈ st.outGraph.getD (id - 1) [] := by
            rcases hmem with hm | ⟨_, _, hm⟩
            · exact hm
            · exact absurd hm hne
          have hsn_old : sn ∈ st.outGraph.getD (id - 1) [] := by
            rcases hsn with hm | ⟨_, _, hm⟩
            · exact hm
            · subst hm
              have := sorted_rank_le hs he1 he hkr
              omega
          rcases hpn1 with hpo | ⟨hidx, _, hpe⟩
          · exact h.compl (id - 1) hi k e1 (by rw [hp_old]; exact hkr) he1 hmem_old sn hsn_old
              kv pn hpnT (mem_entryOf.2 ⟨hv0, hpo⟩) hpnid hd1 hd2 hbefore
          · subst hpe
            rw [hidx] at hpnT
            have := distinct_rank_eq hd hpnT he rfl
            omega
        · have hkeq : k = r := by omega
          subst hkeq
          rw [he] at he1
          simp only [Option.some.injEq] at he1
          subst he1
          have hpe : (popCandidates st.edges (id - 1) e.id
              (st.removeCandidates.getD (id - 1) [])).1 = false := by
            rcases hmem with hm | ⟨_, hm, _⟩
            · obtain ⟨k1, hk1, hk1e⟩ := mem_out_rank h.base hi hm
              rw [hp_old] at hk1
              have := distinct_rank_eq hd hk1e he rfl
              omega
            · exact hm
          have hsn_old : sn ∈ st.outGraph.getD (id - 1) [] := by
            rcases hsn with hm | ⟨_, _, hm⟩
            · exact hm
            · subst hm; omega
          have hpn_old : pn ∈ st.outGraph.getD (sn.id - 1) [] := by
            rcases hpn1 with hm | ⟨_, _, hm⟩
            · exact hm
            · subst hm; omega
          have hlow := (h.base.node (id - 1) hi).rcLow
          rw [hp_old] at hlow
          have hhigh := h.high (id - 1) hi
          rw [hp_old] at hhigh
          have := pathExist_of_shortcut hd h.base hi he hlow hhigh
            ⟨sn, hsn_old, pn, mem_entryOf.2 ⟨hv0, hpn_old⟩, hpnid, hd1, hd2⟩
          rw [hpe] at this
          exact absurd this (by simp)
      · rw [← progress_tail_ne h1 hje] at hk
        have hje2 : j ≠ id - 1 := fun hh => hje hh.symm
        have hmem_old : e1 ∈ st.outGraph.getD j [] := by
          rcases hmem with hm | ⟨hm, _, _⟩
          · exact hm
          · exact absurd hm hje2
        have hsn_old : sn ∈ st.outGraph.getD j [] := by
          rcases hsn with hm | ⟨hm, _, _⟩
          · exact hm
          · exact absurd hm hje2
        rcases hpn1 with hpo | ⟨hidx, _, hpe⟩
        · exact h.compl j hj k e1 hk he1 hmem_old sn hsn_old
            kv pn hpnT (mem_entryOf.2 ⟨hv0, hpo⟩) hpnid hd1 hd2 hbefore
        · subst hpe
          rw [hidx] at hpnT
          have hkv := distinct_rank_eq hd hpnT he rfl
          subst hkv
          unfold progress at hk
          split_ifs at hk with hin
          · have := lt_of_lt_of_le hk (min_le_left _ _)
            omega
          · have hk1 := lt_of_lt_of_le hk (min_le_left _ _)
            have hk2 := lt_of_lt_of_le hk (min_le_right _ _)
            rcases hbefore with hb1 | ⟨hb1, hb2⟩
            · omega
            · subst hb1
              have := h.order j hj hin hk2 id (List.mem_cons_self _ _)
              omega

/-! ## The full invariant along the outer loop -/

theorem progress_nil (T : Graph) (r idx : Nat) :
    progress T r [] idx = min (r + 1) (sizeAt T idx) := by
  simp [progress]

theorem progress_liveAt (T : Graph) (r : Nat) {idx : Nat} (hi : idx < T.length) :
    progress T r (liveAt T r) idx = min r (sizeAt T idx) := by
  unfold progress
  split_ifs with hm
  · rfl
  · have : sizeAt T idx < r := by
      by_contra hc
      exact hm (mem_liveAt.2 ⟨⟨by omega, by omega⟩, by simpa using le_of_not_lt hc⟩)
    rw [min_eq_right (by omega), min_eq_right (by omega)]

theorem passFull_next {T : Graph} {r : Nat} {st : CommitState} (h : PassFull T r [] st) :
    PassFull T (r + 1) (liveAt T (r + 1)) st := by
  have hp : ∀ idx, idx < T.length →
      progress T (r + 1) (liveAt T (r + 1)) idx = progress T r [] idx := by
    intro idx hi
    rw [progress_liveAt T (r + 1) hi, progress_nil]
  refine ⟨⟨h.base.len, ?_, ?_, ?_⟩, ?_, ?_, ?_, ?_⟩
  · intro id hid; exact (mem_liveAt.1 hid).1
  · exact (allIds_sorted _).sublist (List.filter_sublist _)
  · intro idx hi; rw [hp idx hi]; exact h.base.node idx hi
  · intro idx hi; rw [hp idx hi]; exact h.high idx hi
  · intro idx hi hn hr
    exfalso
    apply hn
    exact mem_liveAt.2 ⟨⟨by omega, by omega⟩, by simp only [Nat.add_sub_cancel]; omega⟩
  · intro idx hi k e hk; rw [hp idx hi] at hk; exact h.sound idx hi k e hk
  · intro idx hi k e hk; rw [hp idx hi] at hk; exact h.compl idx hi k e hk

theorem passFull_initial (T : Graph) : PassFull T 0 (allIds T.length) (initialCommitState T) := by
  have hb := passBase_of_loopBase (loopBase_initial T)
  have hp : ∀ idx, idx < T.length → progress T 0 (allIds T.length) idx = 0 := by
    intro idx hi
    have : idx + 1 ∈ allIds T.length := mem_allIds.2 ⟨by omega, by omega⟩
    simp [progress, this]
  refine ⟨hb, ?_, ?_, ?_, ?_⟩
  · intro idx hi c hc _
    have hrc : (initialCommitState T).removeCandidates.getD idx [] =
        removeCandidatesOf T (T.getD idx []) := by
      simp [initialCommitState, List.getD_eq_getElem?_getD, List.getElem?_map,
        List.getElem?_eq_getElem hi]
    rw [hrc]; exact hc
  · intro idx hi hn
    exact absurd (mem_allIds.2 ⟨by omega, by omega⟩) hn
  · intro idx hi k e hk; rw [hp idx hi] at hk; omega
  · intro idx hi k e hk; rw [hp idx hi] at hk; omega

/-- For a graph with distinct targets whose lists are sorted by distance, stage 2 started
with fuel above the largest node size returns a state that satisfies the full invariant with
every rank of every node decided. -/
theorem adjustPathsEffectivelyRun_full (T : Graph) (fuel : Nat) (hd : DistinctTargets T)
    (hs : SortedByDistance T) (hf : maxSize T + 1 ≤ fuel) :
    ∃ rank st, adjustPathsEffectivelyRun fuel T = .ok (rank, st) ∧
      PassFull T rank [] st ∧ ∀ idx, idx < T.length → progress T rank [] idx = sizeAt T idx := by
  have hloop := commitLoop_induct T (maxSize T)
    (fun rank ids st => ids = liveAt T rank ∧ PassFull T rank ids st)
    (by
      intro rank ids st hQ _
      obtain ⟨st1, h1, h2⟩ := commitPass_induct T rank (PassFull T rank)
        (fun id rest st h => passFull_step hd hs h) ids st hQ.2
      refine ⟨st1, h1, ?_, ?_⟩
      · rw [hQ.1, liveAfter_liveAt]
      · rw [hQ.1, liveAfter_liveAt]
        exact passFull_next h2)
    (by
      intro rank ids st hQ hb
      rw [hQ.1]
      exact liveAt_eq_nil hb)
    fuel 0 (allIds T.length) (initialCommitState T)
    ⟨by simp [liveAt], passFull_initial T⟩ (by omega)
  obtain ⟨rank, st, hrun, hQ, _, _, _⟩ := hloop
  refine ⟨rank, st, hrun, hQ.2, ?_⟩
  intro idx hi
  have := progress_liveAt T rank hi
  rw [← hQ.1] at this
  rw [this]
  have hlive : idx + 1 ∉ liveAt T rank := by
    rw [← hQ.1]; simp
  have : sizeAt T idx < rank := by
    by_contra hc
    exact hlive (mem_liveAt.2 ⟨⟨by omega, by omega⟩, by simpa using le_of_not_lt hc⟩)
  omega

/-! ## Claims about adjustPathsEffectively -/

/-- C1. Pruning soundness of `adjustPathsEffectively`: for an input graph with valid ids,
lists sorted by distance and distinct targets, the pruner returns a graph in which every input
edge `s -> w` that is absent has a witness: an edge `s -> v` and an edge `v -> w` of the output,
both strictly shorter than `s -> w`.  In particular an input edge without such a two-hop path in
the input graph is kept. -/
theorem adjustPathsEffectively_sound (T : Graph) (fuel : Nat) (_hv : ValidIds T)
    (hs : SortedByDistance T) (hd : DistinctTargets T) (hf : maxSize T + 1 ≤ fuel) :
    ∃ out, adjustPathsEffectively fuel T = .ok out ∧ out.length = T.length ∧
      (∀ idx, idx < T.length → ∀ e ∈ T.getD idx [], e ∉ out.getD idx [] → Shortcut out idx e) ∧
      (∀ idx, idx < T.length → ∀ e ∈ T.getD idx [], ¬ Shortcut T idx e → e ∈ out.getD idx []) := by
  obtain ⟨rank, st, hrun, hfull, hprog⟩ := adjustPathsEffectivelyRun_full T fuel hd hs hf
  have hsound : ∀ idx, idx < T.length → ∀ e ∈ T.getD idx [], e ∉ st.outGraph.getD idx [] →
      Shortcut st.outGraph idx e := by
    intro idx hi e he hne
    obtain ⟨k, hk⟩ := List.mem_iff_getElem?.1 he
    have hlt := lt_size_of_getElem?_some hk
    exact hfull.sound idx hi k e (by rw [hprog idx hi]; exact hlt) hk hne
  refine ⟨st.outGraph, ?_, hfull.base.len.out, hsound, ?_⟩
  · simp only [adjustPathsEffectively, hrun]
  · intro idx hi e he hns
    by_contra hne
    exact hns (shortcut_mono (fun j x hx => passBase_subset hfull.base j hx)
      (hsound idx hi e he hne))

theorem adjustPathsEffectively_sound_witness :
    ValidIds triangleGraph ∧ SortedByDistance triangleGraph ∧ DistinctTargets triangleGraph ∧
    maxSize triangleGraph + 1 ≤ 3 ∧
    ∃ out, adjustPathsEffectively 3 triangleGraph = .ok out ∧ out.length = triangleGraph.length ∧
      (∀ idx, idx < triangleGraph.length → ∀ e ∈ triangleGraph.getD idx [],
        e ∉ out.getD idx [] → Shortcut out idx e) ∧
      (∀ idx, idx < triangleGraph.length → ∀ e ∈ triangleGraph.getD idx [],
        ¬ Shortcut triangleGraph idx e → e ∈ out.getD idx []) :=
  ⟨by decide, by decide, by decide, by decide,
    adjustPathsEffectively_sound triangleGraph 3 (by decide) (by decide) (by decide) (by decide)⟩


/-- C2, as stated, fails: on `lateLegGraph`, which satisfies the adjacency-list invariants,
the pruner keeps `1 -> 3` (distance 3) although `1 -> 2` (distance 1) and `2 -> 3` (distance 2)
are both in the output; `(2, 3)` is a recorded candidate of source 1 for the rank 1, and the
edge `2 -> 3` has rank 2 in the list of 2. -/
theorem adjustPathsEffectively_complete_counterexample :
    ValidIds lateLegGraph ∧ SortedByDistanceThenId lateLegGraph ∧
    DistinctTargets lateLegGraph ∧ NoSelfLoops lateLegGraph ∧
    adjustPathsEffectively 4 lateLegGraph = .ok lateLegGraph ∧
    (⟨3, 3⟩ : ObjectDistance) ∈ lateLegGraph.getD 0 [] ∧
    Shortcut lateLegGraph 0 ⟨3, 3⟩ ∧
    (1, (2, 3)) ∈ candidatesOf lateLegGraph (lateLegGraph.getD 0 []) ∧
    (lateLegGraph.getD 1 [])[2]? = some ⟨3, 2⟩ := by
  refine ⟨by decide, by decide, by decide, by decide, by rfl, by decide, ?_, by decide, by rfl⟩
  exact ⟨⟨2, 1⟩, by decide, ⟨3, 2⟩, by decide, rfl, by decide, by decide⟩

/-- C2, amended. For an input graph with valid ids, lists sorted by distance and distinct
targets, the output of `adjustPathsEffectively` holds no edge `s -> w` (rank `k` in the list of
`s`) together with edges `s -> v` and `v -> w` (rank `kv` in the list of `v`), both strictly
shorter than `s -> w`, such that `v -> w` is decided before `s -> w`: `kv < k`, or `kv = k`
and `v < s`. -/
theorem adjustPathsEffectively_complete (T : Graph) (fuel : Nat) (_hv : ValidIds T)
    (hs : SortedByDistance T) (hd : DistinctTargets T) (hf : maxSize T + 1 ≤ fuel) :
    ∃ out, adjustPathsEffectively fuel T = .ok out ∧
      ∀ idx, idx < T.length → ∀ k e, (T.getD idx [])[k]? = some e → e ∈ out.getD idx [] →
        ∀ sn ∈ out.getD idx [], ∀ kv pn, (T.getD (sn.id - 1) [])[kv]? = some pn →
          pn ∈ entryOf out sn.id → pn.id = e.id →
          sn.distance < e.distance → pn.distance < e.distance →
          ¬ DecidedBefore kv sn.id k (idx + 1) := by
  obtain ⟨rank, st, hrun, hfull, hprog⟩ := adjustPathsEffectivelyRun_full T fuel hd hs hf
  refine ⟨st.outGraph, ?_, ?_⟩
  · simp only [adjustPathsEffectively, hrun]
  · intro idx hi k e hk
    exact hfull.compl idx hi k e (by rw [hprog idx hi]; exact lt_size_of_getElem?_some hk) hk

theorem adjustPathsEffectively_complete_witness :
    ValidIds lateLegGraph ∧ SortedByDistance lateLegGraph ∧ DistinctTargets lateLegGraph ∧
    maxSize lateLegGraph + 1 ≤ 4 ∧
    ∃ out, adjustPathsEffectively 4 lateLegGraph = .ok out ∧
      ∀ idx, idx < lateLegGraph.length → ∀ k e, (lateLegGraph.getD idx [])[k]? = some e →
        e ∈ out.getD idx [] →
        ∀ sn ∈ out.getD idx [], ∀ kv pn, (lateLegGraph.getD (sn.id - 1) [])[kv]? = some pn →
          pn ∈ entryOf out sn.id → pn.id = e.id →
          sn.distance < e.distance → pn.distance < e.distance →
          ¬ DecidedBefore kv sn.id k (idx + 1) :=
  ⟨by decide, by decide, by decide, by decide,
    adjustPathsEffectively_complete lateLegGraph 4 (by decide) (by decide) (by decide)
      (by decide)⟩

/-! ## adjustPaths against adjustPathsEffectively -/

theorem pathFound_iff {g : Graph} {rank : Nat} {tn : GraphNode} {e : ObjectDistance} :
    pathFound g rank tn e = true ↔
      ∃ t ∈ tn, t.id ≠ e.id ∧ ∃ d ∈ entryOf g t.id, d.id = e.id ∧ d.distance < e.distance := by
  unfold pathFound
  split_ifs <;>
  simp only [List.any_eq_true, Bool.and_eq_true, decide_eq_true_eq, ne_eq]

theorem sorted_of_strictlySorted {T : Graph} (h : StrictlySortedByDistance T) :
    SortedByDistance T :=
  fun node hn => (h node hn).imp (fun hab => le_of_lt hab)

theorem strict_rank_lt {T : Graph} (hs : StrictlySortedByDistance T) {idx i j : Nat}
    {a b : ObjectDistance} (ha : (T.getD idx [])[i]? = some a)
    (hb : (T.getD idx [])[j]? = some b) (hij : i < j) : a.distance < b.distance := by
  have hpw : (T.getD idx []).Pairwise (fun a b => a.distance < b.distance) := by
    rcases getD_mem_or_nil T idx with h | h
    · exact hs _ h
    · rw [h]; exact List.Pairwise.nil
  obtain ⟨hi, hai⟩ := List.getElem?_eq_some_iff.1 ha
  obtain ⟨hj, hbj⟩ := List.getElem?_eq_some_iff.1 hb
  have := List.pairwise_iff_getElem.1 hpw i j hi hj hij
  rw [hai, hbj] at this
  exact this

theorem pathFound_eq_pathExist {T : Graph} {r id : Nat} {rest : List Nat} {st : CommitState}
    {e : ObjectDistance} (hd : DistinctTargets T) (hs : StrictlySortedByDistance T)
    (h : PassFull T r (id :: rest) st) (he : (T.getD (id - 1) [])[r]? = some e) :
    pathFound st.outGraph r (entryOf st.outGraph id) e =
      (popCandidates st.edges (id - 1) e.id (st.removeCandidates.getD (id - 1) [])).1 := by
  obtain ⟨h1, hN⟩ := h.base.valid id (List.mem_cons_self _ _)
  have hi : id - 1 < T.length := by omega
  have hsz := lt_size_of_getElem?_some he
  have hp_old : progress T r (id :: rest) (id - 1) = r := by
    rw [progress_head h1, min_eq_left (by omega)]
  have hentry : entryOf st.outGraph id = st.outGraph.getD (id - 1) [] := by
    unfold entryOf; rw [if_neg (by omega)]
  rw [Bool.eq_iff_iff, pathFound_iff, hentry]
  constructor
  · rintro ⟨t, ht, _, d, hdm, hdid, hdd⟩
    obtain ⟨kt, hkt, hkte⟩ := mem_out_rank h.base hi ht
    rw [hp_old] at hkt
    have hlow := (h.base.node (id - 1) hi).rcLow
    rw [hp_old] at hlow
    have hhigh := h.high (id - 1) hi
    rw [hp_old] at hhigh
    exact pathExist_of_shortcut hd h.base hi he hlow hhigh
      ⟨t, ht, d, hdm, hdid, strict_rank_lt hs hkte he hkt, hdd⟩
  · intro hp
    obtain ⟨sn, hsn, pn, hpn, hpnid, hd1, hd2⟩ := shortcut_of_pathExist hd h.base hi he hp
    refine ⟨sn, hsn, ?_, pn, hpn, hpnid, hd2⟩
    intro hid
    have := distinct_eq hd (passBase_subset h.base _ hsn) (List.getElem?_mem he) hid
    subst this
    omega

theorem stepState_outGraph (st : CommitState) (idx : Nat) (e : ObjectDistance) :
    (stepState st idx e).outGraph =
      if (popCandidates st.edges idx e.id (st.removeCandidates.getD idx [])).1
      then st.outGraph else st.outGraph.modify (fun n => n ++ [e]) idx := by
  simp only [stepState]
  split_ifs <;> rfl

theorem simplePass_sim {T : Graph} {r : Nat} (hd : DistinctTargets T)
    (hs : StrictlySortedByDistance T) :
    ∀ ids st, PassFull T r ids st →
      ∃ st1, commitPass T r ids st = .ok (liveAfter T r ids, st1) ∧ PassFull T r [] st1 ∧
        simplePass r (tmpEntries T ids) st.outGraph =
          (tmpEntries T (liveAfter T r ids), decide (liveAfter T r ids ≠ []), st1.outGraph) := by
  intro ids
  induction ids with
  | nil =>
    intro st h
    exact ⟨st, rfl, h, by simp [simplePass, tmpEntries, liveAfter]⟩
  | cons id rest ih =>
    intro st h
    rcases passFull_step hd (sorted_of_strictlySorted hs) h with ⟨hn, hrc, hP⟩ | ⟨e, he, hP⟩
    · obtain ⟨st1, h1, h2, h3⟩ := ih st hP
      have hsz : ¬ r < sizeAt T (id - 1) := by
        have := size_le_of_getElem?_none hn; omega
      have hlive : liveAfter T r (id :: rest) = liveAfter T r rest := by
        simp [liveAfter, List.filter_cons, hsz]
      refine ⟨st1, ?_, h2, ?_⟩
      · simp only [commitPass, commitStep_none hn hrc, h1, hlive]
        rfl
      · rw [hlive, ← h3]
        simp only [tmpEntries, List.map_cons, simplePass, simpleStep, hn]
    · obtain ⟨st1, h1, h2, h3⟩ := ih _ hP
      have hsz := lt_size_of_getElem?_some he
      have hlive : liveAfter T r (id :: rest) = id :: liveAfter T r rest := by
        simp [liveAfter, List.filter_cons, hsz]
      refine ⟨st1, ?_, h2, ?_⟩
      · simp only [commitPass, commitStep_some he, h1, hlive]
        rfl
      · have hstep : simpleStep r (id, T.getD (id - 1) []) st.outGraph =
            some (stepState st (id - 1) e).outGraph := by
          simp only [simpleStep, he, pathFound_eq_pathExist hd hs h he, stepState_outGraph]
          split_ifs <;> rfl
        rw [hlive]
        simp only [tmpEntries, List.map_cons, simplePass, hstep]
        simp only [tmpEntries] at h3
        rw [h3]
        simp

theorem simpleLoop_sim {T : Graph} (hd : DistinctTargets T) (hs : StrictlySortedByDistance T) :
    ∀ fuel rank ids st, ids = liveAt T rank → PassFull T rank ids st →
      maxSize T + 1 ≤ rank + (fuel + 1) →
      ∃ rank1 st1, commitLoop T (fuel + 1) rank ids st = .ok (rank1, st1) ∧
        simpleLoop (fuel + 1) rank (tmpEntries T ids) st.outGraph = .ok st1.outGraph := by
  intro fuel
  induction fuel with
  | zero =>
    intro rank ids st hids hP hf
    obtain ⟨st1, h1, h2, h3⟩ := simplePass_sim hd hs ids st hP
    have hnil : liveAfter T rank ids = [] := by
      rw [hids, liveAfter_liveAt]; exact liveAt_eq_nil (by omega)
    rw [hnil] at h1 h3
    by_cases hi : ids = []
    · subst hi
      refine ⟨rank, st, by simp [commitLoop], ?_⟩
      simp [simpleLoop, tmpEntries, simplePass]
    · refine ⟨rank + 1, st1, ?_, ?_⟩
      · simp [commitLoop, hi, h1]
      · simp [simpleLoop, h3]
  | succ fuel ih =>
    intro rank ids st hids hP hf
    obtain ⟨st1, h1, h2, h3⟩ := simplePass_sim hd hs ids st hP
    by_cases hi : ids = []
    · subst hi
      refine ⟨rank, st, by simp [commitLoop], ?_⟩
      simp [simpleLoop, tmpEntries, simplePass]
    · by_cases hnil : liveAfter T rank ids = []
      · rw [hnil] at h1 h3
        refine ⟨rank + 1, st1, ?_, ?_⟩
        · simp [commitLoop, hi, h1]
        · simp [simpleLoop, h3]
      · have hlive : liveAfter T rank ids = liveAt T (rank + 1) := by
          rw [hids, liveAfter_liveAt]
        have hrank : rank + 1 ≤ maxSize T := by
          by_contra hc
          exact hnil (by rw [hlive]; exact liveAt_eq_nil (by omega))
        obtain ⟨rank2, st2, h4, h5⟩ := ih (rank + 1) _ st1 hlive
          (by rw [hlive]; exact passFull_next h2) (by omega)
        refine ⟨rank2, st2, ?_, ?_⟩
        · rw [commitLoop]
          simp only [hi, if_false, h1]
          exact h4
        · rw [simpleLoop]
          simp only [h3, hnil, ne_eq, not_false_eq_true, decide_True, if_true]
          exact h5

theorem zip_allIds (T : Graph) : (allIds T.length).zip T = tmpEntries T (allIds T.length) := by
  apply List.ext_getElem?
  intro i
  by_cases hi : i < T.length
  · simp [tmpEntries, allIds, List.getElem?_zip_eq_some, List.getElem?_map, hi,
      List.getElem?_range, List.getD_eq_getElem?_getD, List.getElem?_eq_getElem]
  · rw [List.getElem?_eq_none (by simp [allIds]; omega),
      List.getElem?_eq_none (by simp [tmpEntries, allIds]; omega)]

/-- C3, as stated, fails: on `tieGraph`, which satisfies the adjacency-list invariants and has
short lists, `adjustPathsEffectively` keeps the edge `1 -> 3` (the leg `1 -> 2` is not strictly
shorter) while `adjustPaths` removes it (it compares only the leg `2 -> 3`). -/
theorem adjustPaths_equivalence_counterexample :
    ValidIds tieGraph ∧ SortedByDistanceThenId tieGraph ∧ DistinctTargets tieGraph ∧
    NoSelfLoops tieGraph ∧ SmallLists tieGraph ∧
    adjustPathsEffectively 3 tieGraph = .ok [[⟨2, 3⟩, ⟨3, 3⟩], [⟨3, 1⟩], []] ∧
    adjustPaths 3 tieGraph = .ok [[⟨2, 3⟩], [⟨3, 1⟩], []] :=
  ⟨by decide, by decide, by decide, by decide, by decide, by rfl, by rfl⟩

/-- C3, amended. For an input graph with valid ids, distinct targets, lists of fewer than 1000
edges and distances strictly ascending in every list (no ties), `adjustPathsEffectively` and
`adjustPaths` both return, and return the same graph. -/
theorem adjustPaths_eq_adjustPathsEffectively (T : Graph) (fuel : Nat) (_hv : ValidIds T)
    (hs : StrictlySortedByDistance T) (hd : DistinctTargets T) (_hz : SmallLists T)
    (hf : maxSize T + 1 ≤ fuel) :
    ∃ out, adjustPathsEffectively fuel T = .ok out ∧ adjustPaths fuel T = .ok out := by
  obtain ⟨f, rfl⟩ : ∃ f, fuel = f + 1 := ⟨fuel - 1, by omega⟩
  obtain ⟨rank, st, h1, h2⟩ := simpleLoop_sim hd hs f 0 (allIds T.length)
    (initialCommitState T) (by simp [liveAt]) (passFull_initial T) (by omega)
  refine ⟨st.outGraph, ?_, ?_⟩
  · simp only [adjustPathsEffectively, adjustPathsEffectivelyRun, h1]
  · simp only [adjustPaths, zip_allIds]
    exact h2

theorem adjustPaths_eq_adjustPathsEffectively_witness :
    ValidIds triangleGraph ∧ StrictlySortedByDistance triangleGraph ∧
    DistinctTargets triangleGraph ∧ SmallLists triangleGraph ∧
    maxSize triangleGraph + 1 ≤ 3 ∧
    ∃ out, adjustPathsEffectively 3 triangleGraph = .ok out ∧
      adjustPaths 3 triangleGraph = .ok out :=
  ⟨by decide, by decide, by decide, by decide, by decide,
    adjustPaths_eq_adjustPathsEffectively triangleGraph 3 (by decide) (by decide) (by decide)
      (by decide) (by decide)⟩

/-! ## convertToANNG: the edges after the first loop -/

theorem length_pushAt (g : Graph) (id : Nat) (e : ObjectDistance) :
    (pushAt g id e).length = g.length := by
  unfold pushAt
  split_ifs <;> simp

theorem pushAt_getD {g : Graph} {u : Nat} (id : Nat) (e : ObjectDistance) (hu : u < g.length) :
    (pushAt g id e).getD u [] =
      if id = u + 1 then g.getD u [] ++ [e] else g.getD u [] := by
  unfold pushAt
  by_cases h0 : id = 0
  · have : ¬ id = u + 1 := by omega
    simp only [h0, if_true, this, if_false]
    rw [if_neg (by omega)]
  · simp only [h0, if_false]
    by_cases h1 : id = u + 1
    · have : id - 1 = u := by omega
      rw [if_pos h1, this, getD_modify_self _ hu]
    · rw [if_neg h1, getD_modify_ne _ (by omega)]

theorem length_addReverseEdges (k : Nat) (node : GraphNode) (g : Graph) :
    (addReverseEdges k node g).length = g.length := by
  unfold addReverseEdges
  induction node generalizing g with
  | nil => rfl
  | cons ni rest ih => rw [List.foldl_cons, ih, length_pushAt]

theorem mem_addReverseEdges (k : Nat) (node : GraphNode) :
    ∀ (g : Graph) (u : Nat) (x : ObjectDistance), u < g.length →
      (x ∈ (addReverseEdges k node g).getD u [] ↔
        x ∈ g.getD u [] ∨
        (x.id = k + 1 ∧ ∃ ni ∈ node, ni.id = u + 1 ∧ ni.distance = x.distance)) := by
  unfold addReverseEdges
  induction node with
  | nil => intro g u x _; simp
  | cons ni rest ih =>
    intro g u x hu
    rw [List.foldl_cons, ih _ u x (by rw [length_pushAt]; exact hu), pushAt_getD _ _ hu]
    constructor
    · rintro (h | ⟨h1, n1, hn1, h2, h3⟩)
      · split_ifs at h with hid
        · rcases List.mem_append.1 h with h | h
          · exact Or.inl h
          · right
            simp only [List.mem_singleton] at h
            subst h
            exact ⟨rfl, ni, List.mem_cons_self _ _, hid, rfl⟩
        · exact Or.inl h
      · exact Or.inr ⟨h1, n1, List.mem_cons_of_mem _ hn1, h2, h3⟩
    · rintro (h | ⟨h1, n1, hn1, h2, h3⟩)
      · left
        split_ifs
        · exact List.mem_append_left _ h
        · exact h
      · rcases List.mem_cons.1 hn1 with rfl | hn1
        · left
          rw [if_pos h2]
          apply List.mem_append_right
          simp only [List.mem_singleton]
          cases x
          simp only [ObjectDistance.mk.injEq]
          exact ⟨h1, h3.symm⟩
        · exact Or.inr ⟨h1, n1, hn1, h2, h3⟩

theorem addReverseUpto_succ (k : Nat) (g : Graph) :
    addReverseUpto (k + 1) g =
      addReverseEdges k ((addReverseUpto k g).getD k []) (addReverseUpto k g) := by
  unfold addReverseUpto
  rw [List.range_succ, List.foldl_append]
  rfl

theorem length_addReverseUpto (k : Nat) (g : Graph) : (addReverseUpto k g).length = g.length := by
  induction k with
  | zero => rfl
  | succ k ih => rw [addReverseUpto_succ, length_addReverseEdges, ih]

theorem mem_addReverseUpto (g : Graph) (k : Nat) :
    k ≤ g.length → ∀ (u : Nat) (x : ObjectDistance), u < g.length →
      (x ∈ (addReverseUpto k g).getD u [] ↔
        x ∈ g.getD u [] ∨
        (1 ≤ x.id ∧ x.id ≤ k ∧ (⟨u + 1, x.distance⟩ : ObjectDistance) ∈ g.getD (x.id - 1) [])) := by
  induction k with
  | zero =>
    intro _ u x _
    simp only [addReverseUpto, List.range_zero, List.foldl_nil]
    constructor
    · exact Or.inl
    · rintro (h | ⟨h1, h2, _⟩)
      · exact h
      · omega
  | succ k ih =>
    intro hk u x hu
    have ih1 := ih (by omega)
    rw [addReverseUpto_succ, mem_addReverseEdges k _ _ u x (by rw [length_addReverseUpto]; exact hu),
      ih1 u x hu]
    constructor
    · rintro ((h | ⟨h1, h2, h3⟩) | ⟨h1, ni, hni, h2, h3⟩)
      · exact Or.inl h
      · exact Or.inr ⟨h1, by omega, h3⟩
      · rw [ih1 k ni (by omega)] at hni
        rcases hni with hni | ⟨h4, h5, h6⟩
        · right
          refine ⟨by omega, by omega, ?_⟩
          have : x.id - 1 = k := by omega
          rw [this, ← h2, ← h3]
          exact hni
        · left
          have : ni.id - 1 = u := by omega
          rw [this, h3, ← h1] at h6
          exact h6
    · rintro (h | ⟨h1, h2, h3⟩)
      · exact Or.inl (Or.inl h)
      · by_cases hx : x.id ≤ k
        · exact Or.inl (Or.inr ⟨h1, hx, h3⟩)
        · right
          have hxk : x.id = k + 1 := by omega
          refine ⟨hxk, ⟨u + 1, x.distance⟩, ?_, rfl, rfl⟩
          rw [ih1 k _ (by omega)]
          left
          have : x.id - 1 = k := by omega
          rw [this] at h3
          exact h3

/-- The edges of the list of index `u` after the first loop of `convertToANNG`: the input
edges of the list and, for every input edge `v -> u + 1`, the reverse edge. -/
theorem mem_addReverseAll (g : Graph) {u : Nat} (hu : u < g.length) (x : ObjectDistance) :
    x ∈ (addReverseUpto g.length g).getD u [] ↔
      x ∈ g.getD u [] ∨
      (1 ≤ x.id ∧ (⟨u + 1, x.distance⟩ : ObjectDistance) ∈ g.getD (x.id - 1) []) := by
  rw [mem_addReverseUpto g g.length (le_refl _) u x hu]
  constructor
  · rintro (h | ⟨h1, _, h3⟩)
    · exact Or.inl h
    · exact Or.inr ⟨h1, h3⟩
  · rintro (h | ⟨h1, h3⟩)
    · exact Or.inl h
    · refine Or.inr ⟨h1, ?_, h3⟩
      by_contra hc
      rw [List.getD_eq_getElem?_getD, List.getElem?_eq_none (by omega)] at h3
      simp at h3

/-! ## Facts about normalisation -/

theorem dedupAdjacent_sublist : ∀ (l : GraphNode) (p : Nat), List.Sublist (dedupAdjacent p l) l := by
  intro l
  induction l with
  | nil => intro p; exact List.Sublist.slnil
  | cons e rest ih =>
    intro p
    simp only [dedupAdjacent]
    split_ifs
    · exact (ih p).cons e
    · exact (ih e.id).cons₂ e

theorem exists_mem_dedupAdjacent : ∀ (l : GraphNode) (p : Nat) (x : ObjectDistance),
    x ∈ l → x.id ≠ p → ∃ y ∈ dedupAdjacent p l, y.id = x.id := by
  intro l
  induction l with
  | nil => intro p x hx; simp at hx
  | cons e rest ih =>
    intro p x hx hp
    simp only [dedupAdjacent]
    split_ifs with hpe
    · rcases List.mem_cons.1 hx with rfl | hx
      · exact absurd hpe.symm hp
      · exact ih p x hx hp
    · rcases List.mem_cons.1 hx with rfl | hx
      · exact ⟨x, List.mem_cons_self _ _, rfl⟩
      · by_cases hxe : x.id = e.id
        · exact ⟨e, List.mem_cons_self _ _, hxe.symm⟩
        · obtain ⟨y, hy, hyx⟩ := ih e.id x hx hxe
          exact ⟨y, List.mem_cons_of_mem _ hy, hyx⟩

theorem mem_of_mem_normalizeNode {l : GraphNode} {x : ObjectDistance}
    (h : x ∈ normalizeNode l) : x ∈ l :=
  (List.perm_insertionSort edgeLe l).mem_iff.1 ((dedupAdjacent_sublist _ _).subset h)

theorem normalizeNode_sorted (l : GraphNode) : (normalizeNode l).Pairwise edgeLe :=
  List.Pairwise.sublist (dedupAdjacent_sublist _ _) (List.sorted_insertionSort edgeLe l)

theorem exists_mem_normalizeNode {l : GraphNode} {x : ObjectDistance} (hx : x ∈ l)
    (h0 : x.id ≠ 0) : ∃ y ∈ normalizeNode l, y.id = x.id :=
  exists_mem_dedupAdjacent _ 0 x ((List.perm_insertionSort edgeLe l).mem_iff.2 hx) h0

theorem mem_normalizeNode_iff {l : GraphNode} (hf : ∀ a ∈ l, ∀ b ∈ l, a.id = b.id → a = b)
    (h0 : ∀ a ∈ l, a.id ≠ 0) (x : ObjectDistance) : x ∈ normalizeNode l ↔ x ∈ l := by
  constructor
  · exact mem_of_mem_normalizeNode
  · intro hx
    obtain ⟨y, hy, hyx⟩ := exists_mem_normalizeNode hx (h0 x hx)
    have := hf y (mem_of_mem_normalizeNode hy) x hx hyx
    rw [← this]; exact hy

theorem length_convertToANNG (S : Graph) : (convertToANNG S).length = S.length := by
  simp [convertToANNG, length_addReverseUpto]

theorem convertToANNG_getD (S : Graph) {u : Nat} (hu : u < S.length) :
    (convertToANNG S).getD u [] = normalizeNode ((addReverseUpto S.length S).getD u []) := by
  have hlen : u < (addReverseUpto S.length S).length := by
    rw [length_addReverseUpto]; exact hu
  simp only [convertToANNG, List.getD_eq_getElem?_getD, List.getElem?_map,
    List.getElem?_eq_getElem hlen, Option.map_some', Option.getD_some]
  split_ifs with h0
  · rw [List.length_eq_zero.1 h0]; rfl
  · rfl

theorem valid_getD {S : Graph} (hv : ValidIds S) {u : Nat} {e : ObjectDistance}
    (he : e ∈ S.getD u []) : 1 ≤ e.id ∧ e.id ≤ S.length := by
  rcases getD_mem_or_nil S u with h | h
  · exact hv _ h e he
  · rw [h] at he; simp at he

theorem lt_length_of_mem_getD {S : Graph} {u : Nat} {e : ObjectDistance}
    (he : e ∈ S.getD u []) : u < S.length := by
  by_contra hc
  rw [List.getD_eq_getElem?_getD, List.getElem?_eq_none (by omega)] at he
  simp at he

/-- With valid ids, distinct targets and symmetric distances, the list of index `u` that
`convertToANNG` leaves holds exactly the input edges of the list and the reverses of the input
edges that point to `u + 1`. -/
theorem mem_convertToANNG {S : Graph} (hv : ValidIds S) (hd : DistinctTargets S)
    (hsym : SymmetricDistances S) {u : Nat} (hu : u < S.length) (x : ObjectDistance) :
    x ∈ (convertToANNG S).getD u [] ↔
      x ∈ S.getD u [] ∨
      (1 ≤ x.id ∧ (⟨u + 1, x.distance⟩ : ObjectDistance) ∈ S.getD (x.id - 1) []) := by
  rw [convertToANNG_getD S hu, ← mem_addReverseAll S hu x]
  apply mem_normalizeNode_iff
  · intro a ha b hb hab
    rw [mem_addReverseAll S hu] at ha hb
    have hdist : a.distance = b.distance := by
      rcases ha with ha | ⟨ha1, ha2⟩ <;> rcases hb with hb | ⟨hb1, hb2⟩
      · rw [distinct_eq hd ha hb hab]
      · have := hsym u hu a ha ⟨u + 1, b.distance⟩
          (mem_entryOf.2 ⟨by omega, by rw [hab]; exact hb2⟩) rfl
        exact this.symm
      · have := hsym u hu b hb ⟨u + 1, a.distance⟩
          (mem_entryOf.2 ⟨by omega, by rw [← hab]; exact ha2⟩) rfl
        exact this
      · rw [hab] at ha2
        have := distinct_eq hd ha2 hb2 rfl
        simpa using this
    cases a; cases b
    simp only [ObjectDistance.mk.injEq]
    exact ⟨hab, hdist⟩
  · intro a ha
    rw [mem_addReverseAll S hu] at ha
    rcases ha with ha | ⟨ha1, _⟩
    · have := (valid_getD hv ha).1; omega
    · omega

/-- C4. Symmetrizer contract: for a snapshot with valid ids, no self-loops, distinct targets
per list and equal distances on `u -> v` and `v -> u` whenever both are present, every edge
`u -> v` of distance `d` in the result of `convertToANNG` has the edge `v -> u` of distance `d`
in the result, and every input edge `u -> v` of distance `d` has both `u -> v` and `v -> u`
of distance `d` in the result. -/
theorem convertToANNG_symmetric (S : Graph) (hv : ValidIds S) (_hl : NoSelfLoops S)
    (hd : DistinctTargets S) (hsym : SymmetricDistances S) :
    (∀ u v d, (⟨v, d⟩ : ObjectDistance) ∈ entryOf (convertToANNG S) u →
      (⟨u, d⟩ : ObjectDistance) ∈ entryOf (convertToANNG S) v) ∧
    (∀ u v d, (⟨v, d⟩ : ObjectDistance) ∈ entryOf S u →
      (⟨v, d⟩ : ObjectDistance) ∈ entryOf (convertToANNG S) u ∧
      (⟨u, d⟩ : ObjectDistance) ∈ entryOf (convertToANNG S) v) := by
  have hrev : ∀ u v d, (⟨v, d⟩ : ObjectDistance) ∈ entryOf S u →
      (⟨u, d⟩ : ObjectDistance) ∈ entryOf (convertToANNG S) v := by
    intro u v d h
    obtain ⟨hu0, h⟩ := mem_entryOf.1 h
    have hvv := valid_getD hv h
    simp only at hvv
    refine mem_entryOf.2 ⟨by omega, ?_⟩
    rw [mem_convertToANNG hv hd hsym (by omega)]
    right
    refine ⟨by simp only; omega, ?_⟩
    have : v - 1 + 1 = v := by omega
    simp only [this]
    exact h
  have hfwd : ∀ u v d, (⟨v, d⟩ : ObjectDistance) ∈ entryOf S u →
      (⟨v, d⟩ : ObjectDistance) ∈ entryOf (convertToANNG S) u := by
    intro u v d h
    obtain ⟨hu0, h⟩ := mem_entryOf.1 h
    refine mem_entryOf.2 ⟨hu0, ?_⟩
    rw [mem_convertToANNG hv hd hsym (lt_length_of_mem_getD h)]
    exact Or.inl h
  refine ⟨?_, fun u v d h => ⟨hfwd u v d h, hrev u v d h⟩⟩
  intro u v d h
  obtain ⟨hu0, h⟩ := mem_entryOf.1 h
  have hu : u - 1 < S.length := by
    have := lt_length_of_mem_getD h
    rwa [length_convertToANNG] at this
  rw [mem_convertToANNG hv hd hsym hu] at h
  rcases h with h | ⟨h1, h2⟩
  · exact hrev u v d (mem_entryOf.2 ⟨hu0, h⟩)
  · simp only at h1 h2
    have : u - 1 + 1 = u := by omega
    rw [this] at h2
    exact hfwd v u d (mem_entryOf.2 ⟨by omega, h2⟩)

theorem convertToANNG_symmetric_witness :
    ValidIds halfSymmetricGraph ∧ NoSelfLoops halfSymmetricGraph ∧
    DistinctTargets halfSymmetricGraph ∧ SymmetricDistances halfSymmetricGraph ∧
    (∀ u v d, (⟨v, d⟩ : ObjectDistance) ∈ entryOf (convertToANNG halfSymmetricGraph) u →
      (⟨u, d⟩ : ObjectDistance) ∈ entryOf (convertToANNG halfSymmetricGraph) v) ∧
    (∀ u v d, (⟨v, d⟩ : ObjectDistance) ∈ entryOf halfSymmetricGraph u →
      (⟨v, d⟩ : ObjectDistance) ∈ entryOf (convertToANNG halfSymmetricGraph) u ∧
      (⟨u, d⟩ : ObjectDistance) ∈ entryOf (convertToANNG halfSymmetricGraph) v) :=
  ⟨by decide, by decide, by decide, by decide,
    convertToANNG_symmetric halfSymmetricGraph (by decide) (by decide) (by decide) (by decide)⟩

/-! ## convertToANNG is idempotent -/

theorem dedupAdjacent_absorb (p : Nat) (a : ObjectDistance) (r : GraphNode) :
    dedupAdjacent p (a :: a :: r) = dedupAdjacent p (a :: r) := by
  simp only [dedupAdjacent]
  split_ifs <;> simp_all

theorem dedupAdjacent_dedup : ∀ (l : GraphNode), l.Pairwise edgeLe →
    ∀ p, dedupAdjacent p l = dedupAdjacent p l.dedup := by
  intro l
  induction l with
  | nil => intro _ p; rfl
  | cons a r ih =>
    intro hs p
    have hr := (List.pairwise_cons.1 hs).2
    by_cases ha : a ∈ r
    · rw [List.dedup_cons_of_mem ha, ← ih hr p]
      cases r with
      | nil => simp at ha
      | cons b r1 =>
        have hab : a = b := by
          have h1 : edgeLe a b := (List.pairwise_cons.1 hs).1 b (List.mem_cons_self _ _)
          rcases List.mem_cons.1 ha with h | h
          · exact h
          · exact antisymm h1 ((List.pairwise_cons.1 hr).1 a h)
        subst hab
        exact dedupAdjacent_absorb p a r1
    · rw [List.dedup_cons_of_not_mem ha]
      simp only [dedupAdjacent]
      rw [ih hr p, ih hr a.id]

theorem dedupAdjacent_of_sublist : ∀ (A : GraphNode), A.Nodup → ∀ (p : Nat) (X : GraphNode),
    List.Sublist X A → (∀ y ∈ dedupAdjacent p A, y ∈ X) →
    dedupAdjacent p X = dedupAdjacent p A := by
  intro A
  induction A with
  | nil =>
    intro _ p X hX _
    rw [List.sublist_nil.1 hX]
  | cons a A1 ih =>
    intro hnd p X hX hk
    have hna : a ∉ A1 := (List.nodup_cons.1 hnd).1
    have hnd1 : A1.Nodup := (List.nodup_cons.1 hnd).2
    by_cases hp : p = a.id
    · have hA : dedupAdjacent p (a :: A1) = dedupAdjacent p A1 := by
        simp only [dedupAdjacent, hp, if_true]
      rw [hA] at hk ⊢
      cases hX with
      | cons _ h1 => exact ih hnd1 p X h1 hk
      | cons₂ _ h1 =>
        rename_i X1
        have : dedupAdjacent p (a :: X1) = dedupAdjacent p X1 := by
          simp only [dedupAdjacent, hp, if_true]
        rw [this]
        refine ih hnd1 p X1 h1 ?_
        intro y hy
        rcases List.mem_cons.1 (hk y hy) with h | h
        · subst h
          exact absurd ((dedupAdjacent_sublist _ _).subset hy) hna
        · exact h
    · have hA : dedupAdjacent p (a :: A1) = a :: dedupAdjacent a.id A1 := by
        simp only [dedupAdjacent, hp, if_false]
      rw [hA] at hk ⊢
      have haX : a ∈ X := hk a (List.mem_cons_self _ _)
      cases hX with
      | cons _ h1 => exact absurd (h1.subset haX) hna
      | cons₂ _ h1 =>
        rename_i X1
        have : dedupAdjacent p (a :: X1) = a :: dedupAdjacent a.id X1 := by
          simp only [dedupAdjacent, hp, if_false]
        rw [this]
        congr 1
        refine ih hnd1 a.id X1 h1 ?_
        intro y hy
        rcases List.mem_cons.1 (hk y (List.mem_cons_of_mem _ hy)) with h | h
        · subst h
          exact absurd ((dedupAdjacent_sublist _ _).subset hy) hna
        · exact h

theorem normalizeNode_eq_dedup (l : GraphNode) :
    normalizeNode l = dedupAdjacent 0 (l.insertionSort edgeLe).dedup :=
  dedupAdjacent_dedup _ (List.sorted_insertionSort edgeLe l) 0

/-- Normalising a list that holds every edge kept by the normalisation of `A`, and only
edges of `A`, gives the normalisation of `A`. -/
theorem normalizeNode_between {A X : GraphNode} (h1 : ∀ x ∈ normalizeNode A, x ∈ X)
    (h2 : ∀ x ∈ X, x ∈ A) : normalizeNode X = normalizeNode A := by
  rw [normalizeNode_eq_dedup X, normalizeNode_eq_dedup A]
  have hsA : ((A.insertionSort edgeLe).dedup).Sorted edgeLe :=
    List.Pairwise.sublist (List.dedup_sublist _) (List.sorted_insertionSort edgeLe A)
  have hsX : ((X.insertionSort edgeLe).dedup).Sorted edgeLe :=
    List.Pairwise.sublist (List.dedup_sublist _) (List.sorted_insertionSort edgeLe X)
  have hsub : (X.insertionSort edgeLe).dedup ⊆ (A.insertionSort edgeLe).dedup := by
    intro x hx
    rw [List.mem_dedup, (List.perm_insertionSort edgeLe _).mem_iff] at hx ⊢
    exact h2 x hx
  have hsl : List.Sublist (X.insertionSort edgeLe).dedup (A.insertionSort edgeLe).dedup :=
    List.sublist_of_subperm_of_sorted ((List.nodup_dedup _).subperm hsub) hsX hsA
  refine dedupAdjacent_of_sublist _ (List.nodup_dedup _) 0 _ hsl ?_
  intro y hy
  rw [← normalizeNode_eq_dedup A] at hy
  rw [List.mem_dedup, (List.perm_insertionSort edgeLe _).mem_iff]
  exact h1 y hy

theorem ext_getD {l1 l2 : Graph} (hlen : l1.length = l2.length)
    (h : ∀ u, u < l1.length → l1.getD u [] = l2.getD u []) : l1 = l2 := by
  apply List.ext_getElem hlen
  intro n h1 h2
  have := h n h1
  rw [List.getD_eq_getElem?_getD, List.getD_eq_getElem?_getD, List.getElem?_eq_getElem h1,
    List.getElem?_eq_getElem h2] at this
  simpa using this

/-- C5. Symmetrizer idempotence: for a snapshot with valid ids and no self-loops, applying
`convertToANNG` twice gives the same adjacency lists, in the same order, as applying it once. -/
theorem convertToANNG_idempotent (S : Graph) (_hv : ValidIds S) (_hl : NoSelfLoops S) :
    convertToANNG (convertToANNG S) = convertToANNG S := by
  have hlen := length_convertToANNG S
  apply ext_getD (by rw [length_convertToANNG])
  intro u hu
  rw [length_convertToANNG, hlen] at hu
  rw [convertToANNG_getD (convertToANNG S) (by rw [hlen]; exact hu), convertToANNG_getD S hu]
  apply normalizeNode_between
  · intro x hx
    rw [mem_addReverseAll _ (by rw [hlen]; exact hu), convertToANNG_getD S hu]
    exact Or.inl hx
  · intro x hx
    rw [mem_addReverseAll _ (by rw [hlen]; exact hu)] at hx
    rcases hx with hx | ⟨hx1, hx2⟩
    · rw [convertToANNG_getD S hu] at hx
      exact mem_of_mem_normalizeNode hx
    · have hlt : x.id - 1 < S.length := by
        have := lt_length_of_mem_getD hx2
        rwa [hlen] at this
      rw [convertToANNG_getD S hlt] at hx2
      have hx3 := mem_of_mem_normalizeNode hx2
      rw [mem_addReverseAll S hlt] at hx3
      rw [mem_addReverseAll S hu]
      rcases hx3 with h | ⟨_, h⟩
      · exact Or.inr ⟨hx1, h⟩
      · left
        simp only at h
        have : x.id - 1 + 1 = x.id := by omega
        rw [this] at h
        exact h

theorem convertToANNG_idempotent_witness :
    ValidIds asymmetricGraph ∧ NoSelfLoops asymmetricGraph ∧
    convertToANNG (convertToANNG asymmetricGraph) = convertToANNG asymmetricGraph :=
  ⟨by decide, by decide,
    convertToANNG_idempotent asymmetricGraph (by decide) (by decide)⟩

/-! ## reconstructGraph: the three phases in closed form -/

theorem length_phaseF (S : Graph) (ef : Nat) (G : Graph) : (phaseF S ef G).length = G.length := by
  simp [phaseF]

theorem phaseF_getD (S : Graph) (ef : Nat) (G : Graph) {u : Nat} (hu : u < G.length) :
    (phaseF S ef G).getD u [] = forwardNode S ef u (G.getD u []) := by
  simp [phaseF, List.getD_eq_getElem?_getD, List.getElem?_mapIdx, List.getElem?_eq_getElem hu]

theorem length_pushReverse (id : Nat) (out : Graph) (e : ObjectDistance) :
    (pushReverse id out e).length = out.length := by
  unfold pushReverse
  split_ifs <;> simp

theorem pushReverse_getD (id : Nat) {out : Graph} (e : ObjectDistance) {u : Nat}
    (hu : u < out.length) :
    (pushReverse id out e).getD u [] =
      if e.id = u + 1 then out.getD u [] ++ [⟨id, e.distance⟩] else out.getD u [] := by
  unfold pushReverse
  by_cases h0 : e.id = 0
  · rw [if_pos h0, if_neg (by omega)]
  · rw [if_neg h0]
    by_cases h1 : e.id = u + 1
    · have : e.id - 1 = u := by omega
      rw [if_pos h1, this, getD_modify_self _ hu]
    · rw [if_neg h1, getD_modify_ne _ (by omega)]

theorem foldl_pushReverse (id : Nat) (l : GraphNode) : ∀ (out : Graph) (u : Nat), u < out.length →
    (l.foldl (pushReverse id) out).length = out.length ∧
    (l.foldl (pushReverse id) out).getD u [] =
      out.getD u [] ++ (l.filter (fun e => decide (e.id = u + 1))).map
        (fun e => (⟨id, e.distance⟩ : ObjectDistance)) := by
  induction l with
  | nil => intro out u _; simp
  | cons e rest ih =>
    intro out u hu
    have hlen := length_pushReverse id out e
    obtain ⟨h1, h2⟩ := ih (pushReverse id out e) u (by rw [hlen]; exact hu)
    rw [List.foldl_cons]
    refine ⟨by rw [h1, hlen], ?_⟩
    rw [h2, pushReverse_getD id e hu, List.filter_cons]
    by_cases he : e.id = u + 1
    · simp [he]
    · simp [he]

theorem phaseRFrom_spec (er : Nat) (nodes : List GraphNode) :
    ∀ (id : Nat) (out : Graph) (u : Nat), u < out.length →
      (phaseRFrom er id nodes out).length = out.length ∧
      (phaseRFrom er id nodes out).getD u [] =
        out.getD u [] ++ reverseEdgesFrom er (u + 1) id nodes := by
  induction nodes with
  | nil => intro id out u _; simp [phaseRFrom, reverseEdgesFrom]
  | cons node rest ih =>
    intro id out u hu
    obtain ⟨h1, h2⟩ := foldl_pushReverse id (node.take er) out u hu
    obtain ⟨h3, h4⟩ := ih (id + 1) (reverseNode er out id node) u
      (by unfold reverseNode; rw [h1]; exact hu)
    simp only [phaseRFrom, reverseEdgesFrom]
    refine ⟨?_, ?_⟩
    · rw [h3]; unfold reverseNode; exact h1
    · rw [h4]; unfold reverseNode; rw [h2, List.append_assoc]

theorem phaseR_getD (S : Graph) (er : Nat) {out : Graph} {u : Nat} (hu : u < out.length) :
    (phaseR S er out).getD u [] = out.getD u [] ++ reverseEdges S er (u + 1) :=
  (phaseRFrom_spec er S 1 out u hu).2

theorem length_phaseR (S : Graph) (er : Nat) (out : Graph) :
    (phaseR S er out).length = out.length := by
  cases out with
  | nil =>
    unfold phaseR
    generalize 1 = id
    induction S generalizing id with
    | nil => rfl
    | cons node rest ih =>
      simp only [phaseRFrom]
      have : reverseNode er [] id node = [] := by
        unfold reverseNode
        generalize node.take er = l
        induction l with
        | nil => rfl
        | cons e r ihr =>
          rw [List.foldl_cons]
          have : pushReverse id [] e = [] := by
            unfold pushReverse; split_ifs <;> simp
          rw [this]; exact ihr
      rw [this]; exact ih (id + 1)
  | cons a r => exact (phaseRFrom_spec er S 1 (a :: r) 0 (by simp)).1

theorem phaseN_getD {g : Graph} {u : Nat} (hu : u < g.length) :
    (phaseN g).getD u [] = normalizeNode (g.getD u []) := by
  simp [phaseN, List.getD_eq_getElem?_getD, List.getElem?_map, List.getElem?_eq_getElem hu]

/-- The result of `reconstructGraph` in closed form: it returns when `reverseEdgeSize` is at
most 10000, and the list of index `u` is then the normalisation of what Phase F leaves in the
node followed by the reverse edges of Phase R. -/
theorem reconstructGraph_closed (S G : Graph) (ef er : Nat) (her : er ≤ 10000) :
    ∃ out, reconstructGraph S G ef er = .ok out ∧ out.length = G.length ∧
      ∀ u, u < G.length → out.getD u [] =
        normalizeNode (forwardNode S ef u (G.getD u []) ++ reverseEdges S er (u + 1)) := by
  refine ⟨phaseN (phaseR S er (phaseF S ef G)), ?_, ?_, ?_⟩
  · unfold reconstructGraph
    rw [if_neg (by omega)]
  · simp [phaseN, length_phaseR, length_phaseF]
  · intro u hu
    rw [phaseN_getD (by rw [length_phaseR, length_phaseF]; exact hu),
      phaseR_getD S er (by rw [length_phaseF]; exact hu), phaseF_getD S ef G hu]

/-! ## Claims about reconstructGraph -/

theorem mem_reverseEdgesFrom (er s : Nat) : ∀ (nodes : List GraphNode) (id k : Nat)
    (e : ObjectDistance), e ∈ (nodes.getD k []).take er → e.id = s →
      (⟨id + k, e.distance⟩ : ObjectDistance) ∈ reverseEdgesFrom er s id nodes := by
  intro nodes
  induction nodes with
  | nil => intro id k e he; simp at he
  | cons node rest ih =>
    intro id k e he hs
    simp only [reverseEdgesFrom, List.mem_append]
    cases k with
    | zero =>
      left
      simp only [List.getD_cons_zero] at he
      exact List.mem_map.2 ⟨e, List.mem_filter.2 ⟨he, by simpa using hs⟩, rfl⟩
    | succ k =>
      right
      simp only [List.getD_cons_succ] at he
      have := ih (id + 1) k e he hs
      have heq : id + 1 + k = id + (k + 1) := by omega
      rw [heq] at this
      exact this

/-- C6. Reverse addition in `reconstructGraph`: for a snapshot with valid ids, a live graph
over the same ids and `reverseEdgeSize <= 10000`, the function returns, and for every id `i`
and every edge `e` among the first `min reverseEdgeSize |S[i-1]|` edges of `S[i-1]` the final
list of `e.id` contains an edge whose target is `i`. -/
theorem reconstructGraph_reverse_added (S G : Graph) (ef er : Nat) (hv : ValidIds S)
    (hlen : G.length = S.length) (her : er ≤ 10000) (i : Nat) (hi1 : 1 ≤ i)
    (_hiN : i ≤ S.length) (e : ObjectDistance) (he : e ∈ (S.getD (i - 1) []).take er) :
    ∃ out, reconstructGraph S G ef er = .ok out ∧ ∃ x ∈ entryOf out e.id, x.id = i := by
  obtain ⟨out, hout, _, hget⟩ := reconstructGraph_closed S G ef er her
  have hev := valid_getD hv (List.mem_of_mem_take he)
  have hu : e.id - 1 < G.length := by omega
  have hmem : (⟨i, e.distance⟩ : ObjectDistance) ∈ reverseEdges S er (e.id - 1 + 1) := by
    have := mem_reverseEdgesFrom er (e.id - 1 + 1) S 1 (i - 1) e he (by omega)
    have h1 : 1 + (i - 1) = i := by omega
    rw [h1] at this
    exact this
  obtain ⟨y, hy, hyi⟩ := exists_mem_normalizeNode
    (l := forwardNode S ef (e.id - 1) (G.getD (e.id - 1) []) ++ reverseEdges S er (e.id - 1 + 1))
    (List.mem_append_right _ hmem) (by simp only; omega)
  refine ⟨out, hout, y, mem_entryOf.2 ⟨by omega, ?_⟩, hyi⟩
  rw [hget _ hu]
  exact hy

theorem reconstructGraph_reverse_added_witness :
    ValidIds chainGraph ∧ emptyGraph3.length = chainGraph.length ∧ 1 ≤ 10000 ∧ 1 ≤ 1 ∧
    1 ≤ chainGraph.length ∧ (⟨2, 10⟩ : ObjectDistance) ∈ (chainGraph.getD (1 - 1) []).take 1 ∧
    ∃ out, reconstructGraph chainGraph emptyGraph3 1 1 = .ok out ∧
      ∃ x ∈ entryOf out (⟨2, 10⟩ : ObjectDistance).id, x.id = 1 :=
  ⟨by decide, by decide, by decide, by decide, by decide, by decide,
    reconstructGraph_reverse_added chainGraph emptyGraph3 1 1 (by decide) (by decide)
      (by decide) 1 (by decide) (by decide) ⟨2, 10⟩ (by decide)⟩

theorem length_reverseEdgesFrom (er s : Nat) : ∀ (nodes : List GraphNode) (id : Nat),
    (reverseEdgesFrom er s id nodes).length =
      (nodes.map (fun node => (node.take er).countP (fun e => decide (e.id = s)))).sum := by
  intro nodes
  induction nodes with
  | nil => intro id; rfl
  | cons node rest ih =>
    intro id
    simp only [reverseEdgesFrom, List.length_append, List.length_map, List.map_cons,
      List.sum_cons, ih (id + 1), List.countP_eq_length_filter]

/-- C7. Reverse-edge bound of `reconstructGraph`: for a snapshot with valid ids, a live graph
over the same ids and a node `s`, the list of `s` after Phase R is its list after Phase F
followed by `reverseCount S reverseEdgeSize s` edges, the number of positions `(j, k)` with
`k < min reverseEdgeSize |S[j-1]|` and `S[j-1][k].id = s`; Phase N then runs on that graph. -/
theorem phaseR_appended_count (S G : Graph) (ef er : Nat) (_hv : ValidIds S)
    (hlen : G.length = S.length) (s : Nat) (hs1 : 1 ≤ s) (hsN : s ≤ S.length) :
    (entryOf (phaseR S er (phaseF S ef G)) s).length =
      (entryOf (phaseF S ef G) s).length + reverseCount S er s ∧
    (er ≤ 10000 →
      reconstructGraph S G ef er = .ok (phaseN (phaseR S er (phaseF S ef G)))) := by
  have hu : s - 1 < (phaseF S ef G).length := by rw [length_phaseF]; omega
  refine ⟨?_, ?_⟩
  · unfold entryOf
    rw [if_neg (by omega), if_neg (by omega), phaseR_getD S er hu, List.length_append]
    have : s - 1 + 1 = s := by omega
    rw [this]
    unfold reverseEdges reverseCount
    rw [length_reverseEdgesFrom]
  · intro her
    unfold reconstructGraph
    rw [if_neg (by omega)]

theorem phaseR_appended_count_witness :
    ValidIds chainGraph ∧ emptyGraph3.length = chainGraph.length ∧ 1 ≤ 2 ∧
    2 ≤ chainGraph.length ∧
    (entryOf (phaseR chainGraph 1 (phaseF chainGraph 1 emptyGraph3)) 2).length =
      (entryOf (phaseF chainGraph 1 emptyGraph3) 2).length + reverseCount chainGraph 1 2 ∧
    (1 ≤ 10000 →
      reconstructGraph chainGraph emptyGraph3 1 1 =
        .ok (phaseN (phaseR chainGraph 1 (phaseF chainGraph 1 emptyGraph3)))) :=
  ⟨by decide, by decide, by decide, by decide,
    phaseR_appended_count chainGraph emptyGraph3 1 1 (by decide) (by decide) 2 (by decide)
      (by decide)⟩

theorem reverseEdgesFrom_zero (s : Nat) : ∀ (nodes : List GraphNode) (id : Nat),
    reverseEdgesFrom 0 s id nodes = [] := by
  intro nodes
  induction nodes with
  | nil => intro id; rfl
  | cons node rest ih => intro id; simp [reverseEdgesFrom, ih]

theorem dedupAdjacent_of_nodup : ∀ (l : GraphNode) (p : Nat),
    (l.map ObjectDistance.id).Nodup → p ∉ l.map ObjectDistance.id → dedupAdjacent p l = l := by
  intro l
  induction l with
  | nil => intro p _ _; rfl
  | cons e rest ih =>
    intro p hnd hp
    simp only [List.map_cons, List.nodup_cons, List.mem_cons, not_or] at hnd hp
    simp only [dedupAdjacent, hp.1, if_false]
    rw [ih e.id hnd.2 hnd.1]

theorem dropRepeatedTargets_of_nodup : ∀ (l : GraphNode) (seen : List Nat),
    (l.map ObjectDistance.id).Nodup → (∀ x ∈ seen, x ∉ l.map ObjectDistance.id) →
    dropRepeatedTargets seen l = l := by
  intro l
  induction l with
  | nil => intro seen _ _; rfl
  | cons e rest ih =>
    intro seen hnd hs
    simp only [List.map_cons, List.nodup_cons] at hnd
    have he : e.id ∉ seen := fun hm => hs e.id hm (by simp)
    simp only [dropRepeatedTargets, he, if_false]
    rw [ih (e.id :: seen) hnd.2]
    intro x hx
    rcases List.mem_cons.1 hx with rfl | hx
    · exact hnd.1
    · exact fun hm => hs x hx (by simp only [List.map_cons]; exact List.mem_cons_of_mem _ hm)

/-- For a list with distinct, non-zero targets both normalisations are the sorted list. -/
theorem normalizeNode_eq_specNormalize {l : GraphNode} (hnd : (l.map ObjectDistance.id).Nodup)
    (h0 : ∀ e ∈ l, e.id ≠ 0) : normalizeNode l = specNormalize l := by
  have hperm := List.perm_insertionSort edgeLe l
  have hnd1 : ((l.insertionSort edgeLe).map ObjectDistance.id).Nodup :=
    (hperm.map _).nodup_iff.2 hnd
  unfold normalizeNode specNormalize
  rw [dedupAdjacent_of_nodup _ 0 hnd1, dropRepeatedTargets_of_nodup _ [] hnd1 (by simp)]
  intro hm
  obtain ⟨e, he, he0⟩ := List.mem_map.1 hm
  exact h0 e (hperm.mem_iff.1 he) he0

/-- C8, as stated, fails: with `E_fwd = 3`, `E_rev = 0` and the first list of
`repeatedTargetGraph`, the final list of id 1 still holds the target 2 twice, so it is not the
first three edges sorted with repeated targets dropped. -/
theorem reconstructGraph_forward_cap_counterexample :
    3 ≤ (repeatedTargetGraph.getD 0 []).length ∧
    reconstructGraph repeatedTargetGraph emptyGraph3 3 0 =
      .ok [[⟨2, 10⟩, ⟨3, 20⟩, ⟨2, 30⟩], [], []] ∧
    specNormalize ((repeatedTargetGraph.getD 0 []).take 3) = [⟨2, 10⟩, ⟨3, 20⟩] :=
  ⟨by decide, by rfl, by rfl⟩

/-- C8, amended. Forward cap of `reconstructGraph`: with `E_rev = 0` and `E_fwd > 0`, for every
id `i` with `|S[i-1]| >= E_fwd` the final list of `i` is the first `E_fwd` edges of `S[i-1]`
sorted by distance then id, with every edge erased whose target is the target of the edge
kept just before it (a target repeated further apart stays); it has at most `E_fwd` edges,
each among the first `E_fwd` edges of `S[i-1]`, and when the targets of those edges are
distinct it is the spec's normalisation.  With `E_fwd = 0` and `E_rev = 0` every list is
empty. -/
theorem reconstructGraph_forward_cap (S G : Graph) (ef : Nat) (hv : ValidIds S)
    (hlen : G.length = S.length) :
    (0 < ef → ∃ out, reconstructGraph S G ef 0 = .ok out ∧
      ∀ i, 1 ≤ i → i ≤ S.length → ef ≤ (S.getD (i - 1) []).length →
        entryOf out i = normalizeNode ((S.getD (i - 1) []).take ef) ∧
        (entryOf out i).length ≤ ef ∧
        (∀ e ∈ entryOf out i, e ∈ (S.getD (i - 1) []).take ef) ∧
        ((((S.getD (i - 1) []).take ef).map ObjectDistance.id).Nodup →
          entryOf out i = specNormalize ((S.getD (i - 1) []).take ef))) ∧
    (∃ out, reconstructGraph S G 0 0 = .ok out ∧ out.length = G.length ∧
      ∀ node ∈ out, node = []) := by
  refine ⟨?_, ?_⟩
  · intro hef
    obtain ⟨out, hout, _, hget⟩ := reconstructGraph_closed S G ef 0 (by omega)
    refine ⟨out, hout, ?_⟩
    intro i hi1 hiN hsz
    have hentry : entryOf out i = normalizeNode ((S.getD (i - 1) []).take ef) := by
      unfold entryOf
      rw [if_neg (by omega), hget (i - 1) (by omega)]
      unfold reverseEdges forwardNode
      rw [reverseEdgesFrom_zero, if_neg (by omega), if_neg (by omega), List.append_nil]
    have hsub : ∀ e ∈ entryOf out i, e ∈ (S.getD (i - 1) []).take ef := by
      intro e he
      rw [hentry] at he
      exact mem_of_mem_normalizeNode he
    refine ⟨hentry, ?_, hsub, ?_⟩
    · rw [hentry]
      have h1 : (normalizeNode ((S.getD (i - 1) []).take ef)).length ≤
          (((S.getD (i - 1) []).take ef).insertionSort edgeLe).length :=
        (dedupAdjacent_sublist _ _).length_le
      rw [List.length_insertionSort, List.length_take] at h1
      exact le_trans h1 (min_le_left _ _)
    · intro hnd
      rw [hentry]
      apply normalizeNode_eq_specNormalize hnd
      intro e he
      have := (valid_getD hv (List.mem_of_mem_take he)).1
      omega
  · obtain ⟨out, hout, hl, hget⟩ := reconstructGraph_closed S G 0 0 (by omega)
    refine ⟨out, hout, hl, ?_⟩
    intro node hnode
    obtain ⟨u, hu, rfl⟩ := List.mem_iff_getElem.1 hnode
    have := hget u (by omega)
    rw [List.getD_eq_getElem?_getD, List.getElem?_eq_getElem hu] at this
    simp only [Option.getD_some] at this
    rw [this]
    unfold reverseEdges forwardNode
    rw [reverseEdgesFrom_zero]
    rfl

theorem reconstructGraph_forward_cap_witness :
    ValidIds repeatedTargetGraph ∧ emptyGraph3.length = repeatedTargetGraph.length ∧
    (0 < 2 → ∃ out, reconstructGraph repeatedTargetGraph emptyGraph3 2 0 = .ok out ∧
      ∀ i, 1 ≤ i → i ≤ repeatedTargetGraph.length →
        2 ≤ (repeatedTargetGraph.getD (i - 1) []).length →
        entryOf out i = normalizeNode ((repeatedTargetGraph.getD (i - 1) []).take 2) ∧
        (entryOf out i).length ≤ 2 ∧
        (∀ e ∈ entryOf out i, e ∈ (repeatedTargetGraph.getD (i - 1) []).take 2) ∧
        ((((repeatedTargetGraph.getD (i - 1) []).take 2).map ObjectDistance.id).Nodup →
          entryOf out i = specNormalize ((repeatedTargetGraph.getD (i - 1) []).take 2))) ∧
    (∃ out, reconstructGraph repeatedTargetGraph emptyGraph3 0 0 = .ok out ∧
      out.length = emptyGraph3.length ∧ ∀ node ∈ out, node = []) :=
  ⟨by decide, by decide,
    reconstructGraph_forward_cap repeatedTargetGraph emptyGraph3 2 (by decide) (by decide)⟩

/-- C9, as stated, fails: with `E_fwd = 1`, `E_rev = 0` and a snapshot of two empty lists,
Phase F leaves the nodes as they are (the lists are shorter than `E_fwd`), so the live graph
that holds the edge `1 -> 2` on entry still holds it at the end and the empty live graph
stays empty. -/
theorem reconstructGraph_snapshot_counterexample :
    reconstructGraph [[], []] [[], []] 1 0 = .ok [[], []] ∧
    reconstructGraph [[], []] [[⟨2, 1⟩], []] 1 0 = .ok [[⟨2, 1⟩], []] :=
  ⟨by rfl, by rfl⟩

/-- C9, amended. For a snapshot `S`, `E_rev <= 10000` and two live graphs over the ids of `S`,
both runs of `reconstructGraph` return, and they leave the same final list for every id `i`
with `E_fwd = 0` or `|S[i-1]| >= E_fwd` (for the other ids Phase F keeps the prior list). -/
theorem reconstructGraph_snapshot_determined (S G1 G2 : Graph) (ef er : Nat)
    (h1 : G1.length = S.length) (h2 : G2.length = S.length) (her : er ≤ 10000) :
    ∃ out1 out2, reconstructGraph S G1 ef er = .ok out1 ∧
      reconstructGraph S G2 ef er = .ok out2 ∧
      ∀ i, 1 ≤ i → i ≤ S.length → (ef = 0 ∨ ef ≤ (S.getD (i - 1) []).length) →
        entryOf out1 i = entryOf out2 i := by
  obtain ⟨out1, hout1, _, hget1⟩ := reconstructGraph_closed S G1 ef er her
  obtain ⟨out2, hout2, _, hget2⟩ := reconstructGraph_closed S G2 ef er her
  refine ⟨out1, out2, hout1, hout2, ?_⟩
  intro i hi1 hiN hcase
  unfold entryOf
  rw [if_neg (by omega), if_neg (by omega), hget1 (i - 1) (by omega), hget2 (i - 1) (by omega)]
  congr 2
  unfold forwardNode
  rcases hcase with h | h
  · rw [if_pos h, if_pos h]
  · by_cases h0 : ef = 0
    · rw [if_pos h0, if_pos h0]
    · rw [if_neg h0, if_neg h0, if_neg (by omega), if_neg (by omega)]

theorem reconstructGraph_snapshot_determined_witness :
    emptyGraph3.length = chainGraph.length ∧ repeatedTargetGraph.length = chainGraph.length ∧
    1 ≤ 10000 ∧
    ∃ out1 out2, reconstructGraph chainGraph emptyGraph3 1 1 = .ok out1 ∧
      reconstructGraph chainGraph repeatedTargetGraph 1 1 = .ok out2 ∧
      ∀ i, 1 ≤ i → i ≤ chainGraph.length →
        (1 = 0 ∨ 1 ≤ (chainGraph.getD (i - 1) []).length) →
        entryOf out1 i = entryOf out2 i :=
  ⟨by decide, by decide, by decide,
    reconstructGraph_snapshot_determined chainGraph emptyGraph3 repeatedTargetGraph 1 1
      (by decide) (by decide) (by decide)⟩

/-- C10. Normalization closure, ordering part: `reconstructGraph` called with
`reverseEdgeSize <= 10000` on a snapshot and a live graph over the same ids returns a graph in
which every list is sorted by distance ascending, ties by target id ascending. -/
theorem reconstructGraph_sorted (S G : Graph) (ef er : Nat) (_hlen : G.length = S.length)
    (her : er ≤ 10000) :
    ∃ out, reconstructGraph S G ef er = .ok out ∧ ∀ node ∈ out, node.Pairwise edgeLe := by
  refine ⟨phaseN (phaseR S er (phaseF S ef G)), ?_, ?_⟩
  · unfold reconstructGraph
    rw [if_neg (by omega)]
  · intro node hnode
    unfold phaseN at hnode
    obtain ⟨g, _, rfl⟩ := List.mem_map.1 hnode
    exact normalizeNode_sorted g

theorem reconstructGraph_sorted_witness :
    repeatedTargetGraph.length = chainGraph.length ∧ 2 ≤ 10000 ∧
    ∃ out, reconstructGraph chainGraph repeatedTargetGraph 2 2 = .ok out ∧
      ∀ node ∈ out, node.Pairwise edgeLe :=
  ⟨by decide, by decide,
    reconstructGraph_sorted chainGraph repeatedTargetGraph 2 2 (by decide) (by decide)⟩

/-! ## reconstructGraph: repeated targets after normalisation -/

theorem dedupAdjacent_adjacent : ∀ (l : GraphNode) (p : Nat),
    (∀ x, (dedupAdjacent p l).head? = some x → x.id ≠ p) ∧
    ∀ k a b, (dedupAdjacent p l)[k]? = some a → (dedupAdjacent p l)[k + 1]? = some b →
      a.id ≠ b.id := by
  intro l
  induction l with
  | nil => intro p; simp [dedupAdjacent]
  | cons e rest ih =>
    intro p
    simp only [dedupAdjacent]
    split_ifs with hp
    · exact ih p
    · refine ⟨?_, ?_⟩
      · intro x hx
        simp only [List.head?_cons, Option.some.injEq] at hx
        subst hx
        exact fun h => hp h.symm
      · intro k a b ha hb
        cases k with
        | zero =>
          simp only [List.getElem?_cons_zero, Option.some.injEq] at ha
          simp only [List.getElem?_cons_succ] at hb
          have := (ih e.id).1 b (by rw [List.head?_eq_getElem?]; exact hb)
          rw [← ha]
          exact fun h => this h.symm
        | succ k =>
          simp only [List.getElem?_cons_succ] at ha hb
          exact (ih e.id).2 k a b ha hb

theorem normalizeNode_nodup_of_functional {l : GraphNode}
    (hf : ∀ a ∈ l, ∀ b ∈ l, a.id = b.id → a = b) :
    ((normalizeNode l).map ObjectDistance.id).Nodup := by
  rw [normalizeNode_eq_dedup]
  have hnd : ((l.insertionSort edgeLe).dedup.map ObjectDistance.id).Nodup := by
    apply List.Nodup.map_on _ (List.nodup_dedup _)
    intro a ha b hb hab
    rw [List.mem_dedup, (List.perm_insertionSort edgeLe _).mem_iff] at ha hb
    exact hf a ha b hb hab
  exact List.Nodup.sublist ((dedupAdjacent_sublist _ _).map _) hnd

theorem mem_reverseEdgesFrom_iff (er s : Nat) : ∀ (nodes : List GraphNode) (id : Nat)
    (x : ObjectDistance), x ∈ reverseEdgesFrom er s id nodes →
      ∃ k, id ≤ x.id ∧ x.id = id + k ∧
        (⟨s, x.distance⟩ : ObjectDistance) ∈ (nodes.getD k []).take er := by
  intro nodes
  induction nodes with
  | nil => intro id x hx; simp [reverseEdgesFrom] at hx
  | cons node rest ih =>
    intro id x hx
    simp only [reverseEdgesFrom, List.mem_append, List.mem_map, List.mem_filter,
      decide_eq_true_eq] at hx
    rcases hx with ⟨e, ⟨he, hes⟩, rfl⟩ | hx
    · refine ⟨0, le_refl _, rfl, ?_⟩
      simp only [List.getD_cons_zero]
      have : (⟨s, e.distance⟩ : ObjectDistance) = e := by
        cases e; simp_all
      rw [this]; exact he
    · obtain ⟨k, h1, h2, h3⟩ := ih (id + 1) x hx
      exact ⟨k + 1, by omega, by omega, by simpa using h3⟩

/-- C11, as stated, fails: `skewGraph` has valid ids and distinct targets, and with
`E_fwd = 2`, `E_rev = 1` the final list of id 1 holds the target 2 twice: the forward edge at
distance 10 and the reverse of `2 -> 1` at distance 20 are not neighbours in the sorted list. -/
theorem reconstructGraph_dedup_counterexample :
    ValidIds skewGraph ∧ DistinctTargets skewGraph ∧
    reconstructGraph skewGraph emptyGraph3 2 1 =
      .ok [[⟨2, 10⟩, ⟨3, 15⟩, ⟨2, 20⟩], [⟨1, 10⟩], []] ∧
    ¬ (([⟨2, 10⟩, ⟨3, 15⟩, ⟨2, 20⟩] : GraphNode).map ObjectDistance.id).Nodup :=
  ⟨by decide, by decide, by rfl, by decide⟩

/-- C11, amended. After `reconstructGraph` (with `E_rev <= 10000`, a snapshot with valid ids
and a live graph over the same ids) no list holds two consecutive edges with the same target;
and when the snapshot has distinct targets per list and equal distances on `u -> v` and
`v -> u`, the final list of every id `i` with `E_fwd = 0` or `|S[i-1]| >= E_fwd` holds no two
edges with the same target. -/
theorem reconstructGraph_dedup (S G : Graph) (ef er : Nat) (_hv : ValidIds S)
    (hlen : G.length = S.length) (her : er ≤ 10000) :
    ∃ out, reconstructGraph S G ef er = .ok out ∧
      (∀ node ∈ out, ∀ k a b, node[k]? = some a → node[k + 1]? = some b → a.id ≠ b.id) ∧
      (DistinctTargets S → SymmetricDistances S → ∀ i, 1 ≤ i → i ≤ S.length →
        (ef = 0 ∨ ef ≤ (S.getD (i - 1) []).length) →
        ((entryOf out i).map ObjectDistance.id).Nodup) := by
  obtain ⟨out, hout, hl, hget⟩ := reconstructGraph_closed S G ef er her
  refine ⟨out, hout, ?_, ?_⟩
  · intro node hnode
    obtain ⟨u, hu, rfl⟩ := List.mem_iff_getElem.1 hnode
    have := hget u (by omega)
    rw [List.getD_eq_getElem?_getD, List.getElem?_eq_getElem hu] at this
    simp only [Option.getD_some] at this
    rw [this]
    exact (dedupAdjacent_adjacent _ 0).2
  · intro hd hsym i hi1 hiN hcase
    unfold entryOf
    rw [if_neg (by omega), hget (i - 1) (by omega)]
    apply normalizeNode_nodup_of_functional
    have hfwd : ∀ a ∈ forwardNode S ef (i - 1) (G.getD (i - 1) []), a ∈ S.getD (i - 1) [] := by
      intro a ha
      unfold forwardNode at ha
      by_cases h0 : ef = 0
      · rw [if_pos h0] at ha; simp at ha
      · rw [if_neg h0] at ha
        rcases hcase with h | h
        · exact absurd h h0
        · rw [if_neg (by omega)] at ha
          exact List.mem_of_mem_take ha
    have hrev : ∀ b ∈ reverseEdges S er (i - 1 + 1),
        1 ≤ b.id ∧ (⟨i, b.distance⟩ : ObjectDistance) ∈ S.getD (b.id - 1) [] := by
      intro b hb
      obtain ⟨k, h1, h2, h3⟩ := mem_reverseEdgesFrom_iff er (i - 1 + 1) S 1 b hb
      have hk : b.id - 1 = k := by omega
      have hi : i - 1 + 1 = i := by omega
      rw [hk, ← hi]
      exact ⟨h1, List.mem_of_mem_take h3⟩
    have hmix : ∀ a ∈ S.getD (i - 1) [], ∀ b ∈ reverseEdges S er (i - 1 + 1),
        a.id = b.id → a = b := by
      intro a ha b hb hab
      obtain ⟨hb1, hb2⟩ := hrev b hb
      have := hsym (i - 1) (by omega) a ha ⟨i, b.distance⟩
        (mem_entryOf.2 ⟨by omega, by rw [hab]; exact hb2⟩) (by simp only; omega)
      cases a; cases b
      simp only [ObjectDistance.mk.injEq] at hab this ⊢
      exact ⟨hab, this.symm⟩
    intro a ha b hb hab
    rcases List.mem_append.1 ha with ha | ha <;> rcases List.mem_append.1 hb with hb | hb
    · exact distinct_eq hd (hfwd a ha) (hfwd b hb) hab
    · exact hmix a (hfwd a ha) b hb hab
    · exact (hmix b (hfwd b hb) a ha hab.symm).symm
    · obtain ⟨_, ha2⟩ := hrev a ha
      obtain ⟨_, hb2⟩ := hrev b hb
      rw [hab] at ha2
      have := distinct_eq hd ha2 hb2 rfl
      cases a; cases b
      simp only [ObjectDistance.mk.injEq] at hab this ⊢
      exact ⟨hab, this.2⟩

theorem reconstructGraph_dedup_witness :
    ValidIds chainGraph ∧ emptyGraph3.length = chainGraph.length ∧ 1 ≤ 10000 ∧
    ∃ out, reconstructGraph chainGraph emptyGraph3 1 1 = .ok out ∧
      (∀ node ∈ out, ∀ k a b, node[k]? = some a → node[k + 1]? = some b → a.id ≠ b.id) ∧
      (DistinctTargets chainGraph → SymmetricDistances chainGraph → ∀ i, 1 ≤ i →
        i ≤ chainGraph.length → (1 = 0 ∨ 1 ≤ (chainGraph.getD (i - 1) []).length) →
        ((entryOf out i).map ObjectDistance.id).Nodup) :=
  ⟨by decide, by decide, by decide,
    reconstructGraph_dedup chainGraph emptyGraph3 1 1 (by decide) (by decide) (by decide)⟩

/-! ## extractGraph -/

theorem extractGraph_eq (index : LiveGraph) : ∀ (graph : Graph),
    extractGraph graph index = graph ++ index.filterMap (fun n => n) := by
  induction index with
  | nil => intro graph; simp [extractGraph]
  | cons node rest ih =>
    intro graph
    have := ih (extractNode graph node)
    unfold extractGraph at this ⊢
    rw [List.foldl_cons, this]
    cases node <;> simp [extractNode]

/-- When every node can be read, `extractGraph` started on the empty vector gives the live
graph. -/
theorem extractGraph_readable (G : Graph) : extractGraph [] (G.map some) = G := by
  rw [extractGraph_eq, List.filterMap_map, List.nil_append]
  have : ((fun (n : Option GraphNode) => n) ∘ some) = some := rfl
  rw [this, List.filterMap_some]

/-- C14, the code at a failing input: with id 1 unreadable and id 2 holding the list
`[(1, 10)]`, `extractGraph` returns a snapshot of one entry, and the list of id 2 stands at
index 0, the place of id 1; the entry of id 1 is not left empty, it is left out. -/
theorem extractGraph_unreadable_shifts :
    extractGraph [] [none, some [⟨1, 10⟩]] = [[⟨1, 10⟩]] ∧
    (extractGraph [] [none, some [⟨1, 10⟩]]).length = 1 ∧
    (extractGraph [] [none, some [⟨1, 10⟩]]).getD 0 [] = [⟨1, 10⟩] ∧
    (extractGraph [] [none, some [⟨1, 10⟩]]).getD 1 [] = [] :=
  ⟨by rfl, by rfl, by rfl, by rfl⟩

/-! ## adjustPathsEffectively: the number of traversals and the fatal branch -/

theorem exists_sizeAt_eq_maxSize : ∀ (T : Graph), T ≠ [] →
    ∃ idx, idx < T.length ∧ sizeAt T idx = maxSize T := by
  intro T
  induction T with
  | nil => intro h; exact absurd rfl h
  | cons a rest ih =>
    intro _
    by_cases hr : rest = []
    · subst hr
      exact ⟨0, by simp, by simp [sizeAt, maxSize]⟩
    · obtain ⟨idx, hidx, hsz⟩ := ih hr
      by_cases hle : maxSize rest ≤ a.length
      · refine ⟨0, by simp, ?_⟩
        simp only [sizeAt, maxSize, List.getD_cons_zero, List.map_cons, List.foldr_cons]
        exact (max_eq_left hle).symm
      · refine ⟨idx + 1, by simp only [List.length_cons]; omega, ?_⟩
        simp only [sizeAt, maxSize, List.getD_cons_succ, List.map_cons, List.foldr_cons]
        simp only [sizeAt, maxSize] at hsz hle
        rw [hsz]
        exact (max_eq_right (by omega)).symm

/-- For any graph, stage 2 started with enough fuel returns in a state that satisfies the
invariant of the outer loop with an empty list of ids. -/
theorem adjustPathsEffectivelyRun_loopBase (T : Graph) (fuel : Nat)
    (hf : maxSize T + 1 ≤ fuel) :
    ∃ rank st, adjustPathsEffectivelyRun fuel T = .ok (rank, st) ∧
      rank ≤ maxSize T + 1 ∧ LoopBase T rank [] st := by
  have hloop := commitLoop_induct T (maxSize T) (LoopBase T)
    (by
      intro rank ids st hQ _
      obtain ⟨st1, h1, h2⟩ := commitPass_induct T rank (PassBase T rank)
        (fun id rest st h => passBase_step h) ids st (passBase_of_loopBase hQ)
      refine ⟨st1, h1, ?_⟩
      have := loopBase_of_passBase h2
      rw [hQ.ids_eq, liveAfter_liveAt]
      exact this)
    (by
      intro rank ids st hQ hb
      rw [hQ.ids_eq]
      exact liveAt_eq_nil hb)
    fuel 0 (allIds T.length) (initialCommitState T) (loopBase_initial T) (by omega)
  obtain ⟨rank, st, hrun, hQ, _, _, hub⟩ := hloop
  exact ⟨rank, st, hrun, by simpa using hub, hQ⟩

/-- C15, as stated, fails: the largest list of `triangleGraph` has 2 edges and the outer loop
of stage 2 makes 3 traversals before the list of ids is empty (the ids of the longest lists
are erased by the traversal at rank 2). -/
theorem adjustPathsEffectively_iterations_counterexample :
    maxSize triangleGraph = 2 ∧
    adjustPathsEffectivelyRun 3 triangleGraph =
      .ok (3, { removeCandidates := [[], [], []]
                edges := [[2], [3], []]
                outGraph := [[⟨2, 10⟩], [⟨3, 10⟩], []] }) :=
  ⟨by rfl, by rfl⟩

/-- C15, amended. For every input graph the outer loop of stage 2 makes at most
`max_s |T[s]| + 1` traversals before the list of ids is empty, and exactly that many when the
graph has a node. -/
theorem adjustPathsEffectively_iterations (T : Graph) (fuel : Nat)
    (hf : maxSize T + 1 ≤ fuel) :
    ∃ rank st, adjustPathsEffectivelyRun fuel T = .ok (rank, st) ∧
      rank ≤ maxSize T + 1 ∧ (T ≠ [] → rank = maxSize T + 1) := by
  obtain ⟨rank, st, hrun, hub, hQ⟩ := adjustPathsEffectivelyRun_loopBase T fuel hf
  refine ⟨rank, st, hrun, hub, ?_⟩
  intro hT
  obtain ⟨idx, hidx, hsz⟩ := exists_sizeAt_eq_maxSize T hT
  have hlive : idx + 1 ∉ liveAt T rank := by
    rw [← hQ.ids_eq]; simp
  have : sizeAt T idx < rank := by
    by_contra hc
    exact hlive (mem_liveAt.2 ⟨⟨by omega, by omega⟩, by simpa using le_of_not_lt hc⟩)
  omega

theorem adjustPathsEffectively_iterations_witness :
    maxSize messyGraph + 1 ≤ 4 ∧
    ∃ rank st, adjustPathsEffectivelyRun 4 messyGraph = .ok (rank, st) ∧
      rank ≤ maxSize messyGraph + 1 ∧ (messyGraph ≠ [] → rank = maxSize messyGraph + 1) :=
  ⟨by decide, adjustPathsEffectively_iterations messyGraph 4 (by decide)⟩

theorem commitLoop_ok_or_outOfFuel (T : Graph) : ∀ (fuel rank : Nat) (ids : List Nat)
    (st : CommitState), LoopBase T rank ids st →
      (∃ r s, commitLoop T fuel rank ids st = .ok (r, s)) ∨
      commitLoop T fuel rank ids st = .error .outOfFuel := by
  intro fuel
  induction fuel with
  | zero =>
    intro rank ids st _
    simp only [commitLoop]
    split_ifs
    · exact Or.inl ⟨rank, st, rfl⟩
    · exact Or.inr rfl
  | succ fuel ih =>
    intro rank ids st hQ
    by_cases hnil : ids = []
    · left
      exact ⟨rank, st, by simp [commitLoop, hnil]⟩
    · obtain ⟨st1, h1, h2⟩ := commitPass_induct T rank (PassBase T rank)
        (fun id rest st h => passBase_step h) ids st (passBase_of_loopBase hQ)
      have hQ1 : LoopBase T (rank + 1) (liveAfter T rank ids) st1 := by
        have := loopBase_of_passBase h2
        rw [hQ.ids_eq, liveAfter_liveAt]
        exact this
      have hstep : commitLoop T (fuel + 1) rank ids st =
          commitLoop T fuel (rank + 1) (liveAfter T rank ids) st1 := by
        simp only [commitLoop, hnil, if_false, h1]
      rw [hstep]
      exact ih _ _ _ hQ1

/-- C17. Stage 2 invariant of `adjustPathsEffectively`: for every input graph with valid ids
(repeated targets and unsorted lists included) the run never ends in the fatal branch
"Something wrong" whatever the fuel, and with fuel above the largest list size it returns
with every removal-candidate list empty. -/
theorem adjustPathsEffectively_no_abort (T : Graph) (_hv : ValidIds T) :
    (∀ fuel id n, adjustPathsEffectivelyRun fuel T ≠ .error (.somethingWrong id n)) ∧
    (∀ fuel, maxSize T + 1 ≤ fuel →
      ∃ rank st, adjustPathsEffectivelyRun fuel T = .ok (rank, st) ∧
        ∀ rc ∈ st.removeCandidates, rc = []) := by
  refine ⟨?_, ?_⟩
  · intro fuel id n h
    rcases commitLoop_ok_or_outOfFuel T fuel 0 _ _ (loopBase_initial T) with ⟨r, s, h1⟩ | h1
    · unfold adjustPathsEffectivelyRun at h
      rw [h1] at h
      exact absurd h (by simp)
    · unfold adjustPathsEffectivelyRun at h
      rw [h1] at h
      exact absurd h (by simp)
  · intro fuel hf
    obtain ⟨rank, st, hrun, _, hlen, hnode⟩ := adjustPathsEffectivelyRun_base T fuel hf
    refine ⟨rank, st, hrun, ?_⟩
    intro rc hrc
    obtain ⟨u, hu, rfl⟩ := List.mem_iff_getElem.1 hrc
    have hu1 : u < T.length := by rw [← hlen.rc]; exact hu
    have := nodeBase_rc_nil (hnode u hu1) (le_refl _)
    rw [List.getD_eq_getElem?_getD, List.getElem?_eq_getElem hu] at this
    simpa using this

theorem adjustPathsEffectively_no_abort_witness :
    ValidIds messyGraph ∧
    (∀ fuel id n, adjustPathsEffectivelyRun fuel messyGraph ≠ .error (.somethingWrong id n)) ∧
    (∀ fuel, maxSize messyGraph + 1 ≤ fuel →
      ∃ rank st, adjustPathsEffectivelyRun fuel messyGraph = .ok (rank, st) ∧
        ∀ rc ∈ st.removeCandidates, rc = []) :=
  ⟨by decide, adjustPathsEffectively_no_abort messyGraph (by decide)⟩

/-! ## reconstructGraphWithConstraint: the vector `reverse` -/

theorem foldl_reverseAdd (id : Nat) (node : GraphNode) :
    ∀ (rev : List GraphNode) (v : Nat) (x : ObjectDistance), v < rev.length →
      (node.foldl (reverseAdd id) rev).length = rev.length ∧
      (x ∈ (node.foldl (reverseAdd id) rev).getD v [] ↔
        x ∈ rev.getD v [] ∨ (x.id = id ∧ (⟨v, x.distance⟩ : ObjectDistance) ∈ node)) := by
  induction node with
  | nil => intro rev v x _; simp
  | cons e rest ih =>
    intro rev v x hv
    have hlen : (reverseAdd id rev e).length = rev.length := by simp [reverseAdd]
    obtain ⟨h1, h2⟩ := ih (reverseAdd id rev e) v x (by rw [hlen]; exact hv)
    rw [List.foldl_cons]
    refine ⟨by rw [h1, hlen], ?_⟩
    rw [h2]
    have hget : (reverseAdd id rev e).getD v [] =
        if e.id = v then rev.getD v [] ++ [⟨id, e.distance⟩] else rev.getD v [] := by
      unfold reverseAdd
      split_ifs with h
      · subst h; exact getD_modify_self _ hv
      · exact getD_modify_ne _ h
    rw [hget]
    constructor
    · rintro (h | ⟨h3, h4⟩)
      · split_ifs at h with hev
        · rcases List.mem_append.1 h with h | h
          · exact Or.inl h
          · right
            simp only [List.mem_singleton] at h
            subst h
            refine ⟨rfl, ?_⟩
            have : (⟨v, e.distance⟩ : ObjectDistance) = e := by cases e; simp_all
            simp only [this]
            exact List.mem_cons_self _ _
        · exact Or.inl h
      · exact Or.inr ⟨h3, List.mem_cons_of_mem _ h4⟩
    · rintro (h | ⟨h3, h4⟩)
      · left
        split_ifs
        · exact List.mem_append_left _ h
        · exact h
      · rcases List.mem_cons.1 h4 with h5 | h5
        · left
          have hev : e.id = v := by rw [← h5]
          rw [if_pos hev]
          apply List.mem_append_right
          simp only [List.mem_singleton]
          cases x
          simp only [ObjectDistance.mk.injEq] at h3 ⊢
          refine ⟨h3, ?_⟩
          rw [← h5]
        · exact Or.inr ⟨h3, h5⟩

theorem buildReverseFrom_spec (nodes : List GraphNode) :
    ∀ (id : Nat) (rev : List GraphNode) (v : Nat) (x : ObjectDistance), v < rev.length →
      (buildReverseFrom id nodes rev).length = rev.length ∧
      (x ∈ (buildReverseFrom id nodes rev).getD v [] ↔
        x ∈ rev.getD v [] ∨
        ∃ k, x.id = id + k ∧ (⟨v, x.distance⟩ : ObjectDistance) ∈ nodes.getD k []) := by
  induction nodes with
  | nil => intro id rev v x _; simp [buildReverseFrom]
  | cons node rest ih =>
    intro id rev v x hv
    obtain ⟨h1, h2⟩ := foldl_reverseAdd id node rev v x hv
    obtain ⟨h3, h4⟩ := ih (id + 1) (node.foldl (reverseAdd id) rev) v x (by rw [h1]; exact hv)
    simp only [buildReverseFrom]
    refine ⟨by rw [h3, h1], ?_⟩
    rw [h4, h2]
    constructor
    · rintro ((h | ⟨h5, h6⟩) | ⟨k, h5, h6⟩)
      · exact Or.inl h
      · exact Or.inr ⟨0, by omega, by simpa using h6⟩
      · exact Or.inr ⟨k + 1, by omega, by simpa using h6⟩
    · rintro (h | ⟨k, h5, h6⟩)
      · exact Or.inl (Or.inl h)
      · cases k with
        | zero => exact Or.inl (Or.inr ⟨by omega, by simpa using h6⟩)
        | succ k => exact Or.inr ⟨k, by omega, by simpa using h6⟩

theorem length_buildReverse (S : Graph) : (buildReverse S).length = S.length + 1 := by
  cases S with
  | nil => rfl
  | cons a r =>
    have := (buildReverseFrom_spec (a :: r) 1 (List.replicate ((a :: r).length + 1) []) 0
      ⟨0, 0⟩ (by simp)).1
    rw [buildReverse, this, List.length_replicate]

/-- The list `reverse[v]` holds `(u, d)` exactly for the edges `u -> v` of distance `d` of
the snapshot. -/
theorem mem_buildReverse (S : Graph) {v : Nat} (hv : v ≤ S.length) (x : ObjectDistance) :
    x ∈ (buildReverse S).getD v [] ↔
      1 ≤ x.id ∧ (⟨v, x.distance⟩ : ObjectDistance) ∈ S.getD (x.id - 1) [] := by
  have := (buildReverseFrom_spec S 1 (List.replicate (S.length + 1) []) v x
    (by rw [List.length_replicate]; omega)).2
  rw [buildReverse, this]
  have hrep : (List.replicate (S.length + 1) ([] : GraphNode)).getD v [] = [] := by
    rw [List.getD_eq_getElem?_getD]
    cases h : (List.replicate (S.length + 1) ([] : GraphNode))[v]? with
    | none => rfl
    | some a =>
      have := List.getElem?_mem h
      rw [List.mem_replicate] at this
      simp [this.2]
  rw [hrep]
  constructor
  · rintro (h | ⟨k, h1, h2⟩)
    · simp at h
    · have : x.id - 1 = k := by omega
      rw [this]
      exact ⟨by omega, h2⟩
  · rintro ⟨h1, h2⟩
    exact Or.inr ⟨x.id - 1, by omega, h2⟩

theorem buildReverse_ids (S : Graph) {v : Nat} {x : ObjectDistance}
    (hx : x ∈ (buildReverse S).getD v []) : 1 ≤ x.id ∧ x.id ≤ S.length := by
  have hv : v ≤ S.length := by
    have := lt_length_of_mem_getD hx
    rw [length_buildReverse] at this
    omega
  obtain ⟨h1, h2⟩ := (mem_buildReverse S hv x).1 hx
  have := lt_length_of_mem_getD h2
  exact ⟨h1, by omega⟩

/-! ## reconstructGraphWithConstraint: the reverse emission -/

theorem sum_map_modify_le {c : GraphNode → Nat} {f : GraphNode → GraphNode} {k : Nat}
    (hf : ∀ a, c (f a) ≤ c a + k) : ∀ (l : Graph) (i : Nat),
    ((l.modify f i).map c).sum ≤ (l.map c).sum + k := by
  intro l
  induction l with
  | nil => intro i; simp
  | cons a rest ih =>
    intro i
    cases i with
    | zero =>
      simp only [List.modify_zero_cons, List.map_cons, List.sum_cons]
      have := hf a
      omega
    | succ i =>
      simp only [List.modify_succ_cons, List.map_cons, List.sum_cons]
      have := ih i
      omega

theorem targetCount_pushAt_le (g : Graph) (rid : Nat) (e : ObjectDistance) (u : Nat) :
    targetCount (pushAt g rid e) u ≤ targetCount g u + (if e.id = u then 1 else 0) := by
  unfold pushAt
  by_cases h0 : rid = 0
  · rw [if_pos h0]; omega
  · rw [if_neg h0]
    unfold targetCount
    apply sum_map_modify_le
    intro a
    by_cases h1 : e.id = u
    · simp [List.countP_append, h1]
    · simp [List.countP_append, h1]

theorem getD_set_nat (l : List Nat) (i j v : Nat) (hi : i < l.length) :
    (l.set i v).getD j 0 = if i = j then v else l.getD j 0 := by
  simp only [List.getD_eq_getElem?_getD, List.getElem?_set, hi, if_true]
  split_ifs <;> rfl

/-- What `emitEdge` does: it leaves the live graph and the counters as they are, or it
appends the edge and increments the counter of its target; it appends only when the counter
of the target is below `reverseEdgeSize` and is zero or the node has fewer than
`originalEdgeSize` edges. -/
theorem emitEdge_cases (ef er n rid : Nat) (st : EmitState) (rni : ObjectDistance) :
    ((emitEdge ef er n rid st rni).outGraph = st.outGraph ∧
      (emitEdge ef er n rid st rni).indegreeCount = st.indegreeCount) ∨
    (st.indegreeCount.getD rni.id 0 < er ∧
      (st.indegreeCount.getD rni.id 0 = 0 ∨ (entryOf st.outGraph rid).length < ef) ∧
      (emitEdge ef er n rid st rni).outGraph = pushAt st.outGraph rid ⟨rni.id, rni.distance⟩ ∧
      (emitEdge ef er n rid st rni).indegreeCount =
        st.indegreeCount.set rni.id (st.indegreeCount.getD rni.id 0 + 1)) := by
  by_cases h1 : er ≤ st.indegreeCount.getD rni.id 0
  · left
    simp only [emitEdge, h1, if_true, and_self]
  · by_cases h2 : 0 < st.indegreeCount.getD rni.id 0 ∧ ef ≤ (entryOf st.outGraph rid).length
    · left
      simp only [emitEdge, h1, h2, if_true, if_false, and_self]
    · right
      refine ⟨by omega, ?_, ?_, ?_⟩
      · by_cases h0 : st.indegreeCount.getD rni.id 0 = 0
        · exact Or.inl h0
        · right
          by_contra hc
          exact h2 ⟨by omega, by omega⟩
      · simp only [emitEdge, h1, h2, if_false]
      · simp only [emitEdge, h1, h2, if_false]

theorem emitEdge_zeroCount (ef er n rid : Nat) (st : EmitState) (rni : ObjectDistance) :
    (emitEdge ef er n rid st rni).zeroCount = st.zeroCount := by
  simp only [emitEdge]
  split_ifs <;> rfl

theorem emitEdge_violations (ef er n rid : Nat) (st : EmitState) (rni : ObjectDistance) :
    (emitEdge ef er n rid st rni).violations =
      if n ≤ rni.id then st.violations ++ [IndexViolation.indegreeCount rni.id]
      else st.violations := by
  simp only [emitEdge]
  split_ifs <;> rfl

theorem emitEdge_inv {ef er n rid : Nat} {init : List Nat} {st : EmitState}
    {rni : ObjectDistance} (h : EmitInv er init st) (hid : rni.id < init.length) :
    EmitInv er init (emitEdge ef er n rid st rni) := by
  rcases emitEdge_cases ef er n rid st rni with ⟨h1, h2⟩ | ⟨h1, _, h3, h4⟩
  · exact ⟨by rw [h2]; exact h.len, by rw [h1, h2]; exact h.counted,
      by rw [h1, h2]; exact h.capped⟩
  · have hlen : rni.id < st.indegreeCount.length := by rw [h.len]; exact hid
    refine ⟨by rw [h4, List.length_set]; exact h.len, ?_, ?_⟩
    · intro u
      rw [h3, h4, getD_set_nat _ _ _ _ hlen]
      have h5 := targetCount_pushAt_le st.outGraph rid ⟨rni.id, rni.distance⟩ u
      have h6 := h.counted u
      simp only at h5
      by_cases hu : rni.id = u
      · subst hu
        simp only [if_true] at h5 ⊢
        omega
      · simp only [hu, if_false] at h5 ⊢
        omega
    · intro u
      rw [h3, h4, getD_set_nat _ _ _ _ hlen]
      have h5 := targetCount_pushAt_le st.outGraph rid ⟨rni.id, rni.distance⟩ u
      simp only at h5
      by_cases hu : rni.id = u
      · subst hu
        simp only [if_true]
        right; omega
      · simp only [hu, if_false] at h5 ⊢
        rcases h.capped u with h7 | h7
        · left; omega
        · exact Or.inr h7

theorem foldl_emitEdge_inv {ef er n rid : Nat} {init : List Nat} (rnode : GraphNode) :
    ∀ (st : EmitState), EmitInv er init st → (∀ x ∈ rnode, x.id < init.length) →
      EmitInv er init (rnode.foldl (emitEdge ef er n rid) st) := by
  induction rnode with
  | nil => intro st h _; exact h
  | cons x rest ih =>
    intro st h hx
    rw [List.foldl_cons]
    exact ih _ (emitEdge_inv h (hx x (List.mem_cons_self _ _)))
      (fun y hy => hx y (List.mem_cons_of_mem _ hy))

theorem foldl_emitEdge_zeroCount {ef er n rid : Nat} (rnode : GraphNode) :
    ∀ (st : EmitState), (rnode.foldl (emitEdge ef er n rid) st).zeroCount = st.zeroCount := by
  induction rnode with
  | nil => intro st; rfl
  | cons x rest ih =>
    intro st
    rw [List.foldl_cons, ih, emitEdge_zeroCount]

theorem foldl_emitEdge_violations {ef er n rid : Nat} (rnode : GraphNode) :
    ∀ (st : EmitState) (v : IndexViolation),
      (v ∈ st.violations ∨ ∃ x ∈ rnode, n ≤ x.id ∧ v = IndexViolation.indegreeCount x.id) →
      v ∈ (rnode.foldl (emitEdge ef er n rid) st).violations := by
  induction rnode with
  | nil =>
    intro st v h
    rcases h with h | ⟨x, hx, _⟩
    · exact h
    · simp at hx
  | cons x rest ih =>
    intro st v h
    rw [List.foldl_cons]
    apply ih
    rw [emitEdge_violations]
    rcases h with h | ⟨y, hy, hn, hv⟩
    · left
      split_ifs
      · exact List.mem_append_left _ h
      · exact h
    · rcases List.mem_cons.1 hy with rfl | hy
      · left
        rw [if_pos hn, hv]
        simp
      · exact Or.inr ⟨y, hy, hn, hv⟩

theorem emitRank_inv {mem : PastEnd} {ef er n : Nat} {reverse : List GraphNode}
    {rs : List (Nat × Nat)} {init : List Nat} {st : EmitState} (i : Nat)
    (h : EmitInv er init st)
    (hrev : ∀ v x, x ∈ reverse.getD v [] → x.id < init.length) :
    EmitInv er init (emitRank mem ef er n reverse rs st i) := by
  simp only [emitRank]
  split_ifs
  all_goals first
    | exact ⟨h.len, h.counted, h.capped⟩
    | exact foldl_emitEdge_inv _ _ ⟨h.len, h.counted, h.capped⟩ (hrev _)

theorem emitRank_zeroCount (mem : PastEnd) (ef er n : Nat) (reverse : List GraphNode)
    (rs : List (Nat × Nat)) (st : EmitState) (i : Nat) :
    (emitRank mem ef er n reverse rs st i).zeroCount =
      st.zeroCount + (if (rs.getD i mem.reverseSize).1 = 0 then 1 else 0) := by
  simp only [emitRank]
  split_ifs <;> first | rfl | (rw [foldl_emitEdge_zeroCount]; rfl)

theorem mem_ite_append {α : Type} {c : Prop} [Decidable c] {v : α} {l : List α} (r : List α)
    (h : v ∈ l) : v ∈ (if c then l ++ r else l) := by
  split_ifs
  · exact List.mem_append_left _ h
  · exact h

theorem emitRank_violations {mem : PastEnd} {ef er n : Nat} {reverse : List GraphNode}
    {rs : List (Nat × Nat)} {st : EmitState} {i : Nat} {v : IndexViolation}
    (h : v ∈ st.violations ∨ (rs.length ≤ i ∧ v = IndexViolation.reverseSize i) ∨
      ((rs.getD i mem.reverseSize).1 ≠ 0 ∧
        ∃ x ∈ reverse.getD (rs.getD i mem.reverseSize).2 [],
          n ≤ x.id ∧ v = IndexViolation.indegreeCount x.id)) :
    v ∈ (emitRank mem ef er n reverse rs st i).violations := by
  have hv1 : v ∈ st.violations ∨ (rs.length ≤ i ∧ v = IndexViolation.reverseSize i) →
      v ∈ (if rs.length ≤ i then st.violations ++ [IndexViolation.reverseSize i]
        else st.violations) := by
    rintro (h1 | ⟨h1, h2⟩)
    · exact mem_ite_append _ h1
    · rw [if_pos h1, h2]; simp
  simp only [emitRank]
  by_cases h0 : (rs.getD i mem.reverseSize).1 = 0
  · rw [if_pos h0]
    rcases h with h | h | ⟨h, _⟩
    · exact hv1 (Or.inl h)
    · exact hv1 (Or.inr h)
    · exact absurd h0 h
  · rw [if_neg h0]
    apply foldl_emitEdge_violations
    rcases h with h | h | ⟨_, h⟩
    · exact Or.inl (mem_ite_append _ (hv1 (Or.inl h)))
    · exact Or.inl (mem_ite_append _ (hv1 (Or.inr h)))
    · exact Or.inr h

theorem foldl_emitRank_inv {mem : PastEnd} {ef er n : Nat} {reverse : List GraphNode}
    {rs : List (Nat × Nat)} {init : List Nat}
    (hrev : ∀ v x, x ∈ reverse.getD v [] → x.id < init.length) (l : List Nat) :
    ∀ (st : EmitState), EmitInv er init st →
      EmitInv er init (l.foldl (emitRank mem ef er n reverse rs) st) := by
  induction l with
  | nil => intro st h; exact h
  | cons i rest ih =>
    intro st h
    rw [List.foldl_cons]
    exact ih _ (emitRank_inv i h hrev)

theorem foldl_emitRank_zeroCount (mem : PastEnd) (ef er n : Nat) (reverse : List GraphNode)
    (rs : List (Nat × Nat)) (l : List Nat) : ∀ (st : EmitState),
    (l.foldl (emitRank mem ef er n reverse rs) st).zeroCount =
      st.zeroCount + l.countP (fun i => decide ((rs.getD i mem.reverseSize).1 = 0)) := by
  induction l with
  | nil => intro st; simp
  | cons i rest ih =>
    intro st
    rw [List.foldl_cons, ih, emitRank_zeroCount, List.countP_cons]
    by_cases h0 : (rs.getD i mem.reverseSize).1 = 0
    · simp only [h0, if_true, decide_True]; omega
    · simp only [h0, if_false, decide_False]
      simp

theorem foldl_emitRank_violations {mem : PastEnd} {ef er n : Nat} {reverse : List GraphNode}
    {rs : List (Nat × Nat)} {v : IndexViolation} (l : List Nat) :
    ∀ (st : EmitState),
      (v ∈ st.violations ∨ ∃ i ∈ l, (rs.length ≤ i ∧ v = IndexViolation.reverseSize i) ∨
        ((rs.getD i mem.reverseSize).1 ≠ 0 ∧
          ∃ x ∈ reverse.getD (rs.getD i mem.reverseSize).2 [],
            n ≤ x.id ∧ v = IndexViolation.indegreeCount x.id)) →
      v ∈ (l.foldl (emitRank mem ef er n reverse rs) st).violations := by
  induction l with
  | nil =>
    intro st h
    rcases h with h | ⟨i, hi, _⟩
    · exact h
    · simp at hi
  | cons j rest ih =>
    intro st h
    rw [List.foldl_cons]
    apply ih
    rcases h with h | ⟨i, hi, h⟩
    · exact Or.inl (emitRank_violations (Or.inl h))
    · rcases List.mem_cons.1 hi with rfl | hi
      · exact Or.inl (emitRank_violations (Or.inr h))
      · exact Or.inr ⟨i, hi, h⟩

theorem length_reverseSizeOf (n : Nat) (reverse : List GraphNode) :
    (reverseSizeOf n reverse).length = n + 1 := by
  unfold reverseSizeOf
  rw [List.length_insertionSort]
  simp [allIds]

theorem targetCount_preclear (G : Graph) (u : Nat) : targetCount (preclear G) u = 0 := by
  unfold targetCount preclear
  induction G with
  | nil => rfl
  | cons a rest ih =>
    simp only [List.map_cons, List.sum_cons]
    simp only [List.map_map] at ih ⊢
    rw [ih]
    split_ifs with h
    · rw [List.length_eq_zero.1 h]; rfl
    · rfl

theorem getD_initialCount_lt (mem : PastEnd) (n : Nat) :
    (List.replicate n 0 ++ [mem.indegreeCount]).length = n + 1 := by simp

/-- The invariant holds when the reverse emission ends. -/
theorem reverseEmission_inv (mem : PastEnd) (S : Graph) (ef er : Nat) (G : Graph) :
    EmitInv er (List.replicate S.length 0 ++ [mem.indegreeCount])
      (reverseEmission mem S ef er (preclear G)) := by
  unfold reverseEmission
  apply foldl_emitRank_inv
  · intro v x hx
    have := (buildReverse_ids S hx).2
    rw [getD_initialCount_lt]
    omega
  · refine ⟨rfl, ?_, ?_⟩
    · intro u
      simp only [initialEmitState, targetCount_preclear]
      omega
    · intro u
      left
      simp only [initialEmitState, targetCount_preclear]

/-- At the end of the reverse emission every id has been appended as a target at most
`reverseEdgeSize` times over all lists. -/
theorem reverseEmission_targetCount_le (mem : PastEnd) (S : Graph) (ef er : Nat) (G : Graph)
    (u : Nat) : targetCount (reverseEmission mem S ef er (preclear G)).outGraph u ≤ er := by
  have h := reverseEmission_inv mem S ef er G
  rcases h.capped u with h1 | h1
  · omega
  · have := h.counted u
    omega

theorem map_getD_range {α : Type} (l : List α) (d : α) :
    (List.range l.length).map (fun i => l.getD i d) = l := by
  apply List.ext_getElem
  · simp
  · intro i h1 h2
    simp only [List.getElem_map, List.getElem_range, List.getD_eq_getElem?_getD,
      List.getElem?_eq_getElem h2, Option.getD_some]

theorem countP_range_getD {α : Type} (l : List α) (d : α) (p : α → Bool) :
    (List.range l.length).countP (fun i => p (l.getD i d)) = l.countP p := by
  have h := List.countP_map p (fun i => l.getD i d) (List.range l.length)
  rw [map_getD_range] at h
  rw [h]
  rfl

/-- The list `reverse[v]` is empty exactly when no edge of the snapshot targets `v`. -/
theorem buildReverse_empty_iff (S : Graph) {v : Nat} (hv : v ≤ S.length) :
    ((buildReverse S).getD v []).length = 0 ↔ ∀ node ∈ S, ∀ e ∈ node, e.id ≠ v := by
  constructor
  · intro h node hn e he hid
    obtain ⟨k, hk, rfl⟩ := List.mem_iff_getElem.1 hn
    have hx : (⟨k + 1, e.distance⟩ : ObjectDistance) ∈ (buildReverse S).getD v [] := by
      rw [mem_buildReverse S hv]
      refine ⟨by simp, ?_⟩
      simp only [Nat.add_sub_cancel, List.getD_eq_getElem?_getD, List.getElem?_eq_getElem hk,
        Option.getD_some]
      rw [← hid]
      exact he
    rw [List.length_eq_zero.1 h] at hx
    simp at hx
  · intro h
    rw [List.length_eq_zero]
    apply List.eq_nil_iff_forall_not_mem.2
    intro x hx
    rw [mem_buildReverse S hv] at hx
    rcases getD_mem_or_nil S (x.id - 1) with hm | hm
    · exact h _ hm _ hx.2 rfl
    · rw [hm] at hx
      simp at hx

/-- The number of entries of `reverseSize` with an empty reverse list, the reserved entry
of index 0 included. -/
theorem countP_reverseSizeOf (S : Graph) :
    (reverseSizeOf S.length (buildReverse S)).countP (fun en => decide (en.1 = 0)) =
      zeroReverseIds S + 1 := by
  unfold reverseSizeOf
  rw [(List.perm_insertionSort pairLe _).countP_eq, List.countP_cons, List.countP_map]
  simp only [decide_True, if_true]
  congr 1
  unfold zeroReverseIds
  apply List.countP_congr
  intro v hv
  have hv2 := (mem_allIds.1 hv).2
  simp only [Function.comp, decide_eq_true_eq]
  exact buildReverse_empty_iff S hv2

/-- The counter `zeroCount` at the end of the reverse emission: the ids without a reverse
edge, plus one for the reserved entry of index 0, plus one when the cell read past the
end of `reverseSize` holds a zero size. -/
theorem reverseEmission_zeroCount (mem : PastEnd) (S : Graph) (ef er : Nat) (G : Graph) :
    (reverseEmission mem S ef er G).zeroCount =
      zeroReverseIds S + 1 + (if mem.reverseSize.1 = 0 then 1 else 0) := by
  unfold reverseEmission
  rw [foldl_emitRank_zeroCount, List.range_succ, List.countP_append]
  have h1 := countP_range_getD (reverseSizeOf S.length (buildReverse S)) mem.reverseSize
    (fun en => decide (en.1 = 0))
  rw [h1, countP_reverseSizeOf]
  simp only [initialEmitState, Nat.zero_add]
  congr 1
  rw [List.countP_singleton]
  have : (reverseSizeOf S.length (buildReverse S)).getD
      (reverseSizeOf S.length (buildReverse S)).length mem.reverseSize = mem.reverseSize := by
    rw [List.getD_eq_getElem?_getD, List.getElem?_eq_none (le_refl _)]
    rfl
  rw [this]
  by_cases h0 : mem.reverseSize.1 = 0 <;> simp [h0]

/-- The emission loop `sizerank <= reverseSize.size()` reads `reverseSize[N + 1]`, one past
the end of the vector of `N + 1` entries. -/
theorem reverseEmission_reads_past_reverseSize (mem : PastEnd) (S : Graph) (ef er : Nat)
    (G : Graph) :
    IndexViolation.reverseSize (S.length + 1) ∈ (reverseEmission mem S ef er G).violations := by
  unfold reverseEmission
  apply foldl_emitRank_violations
  right
  refine ⟨S.length + 1, ?_, Or.inl ⟨?_, rfl⟩⟩
  · rw [length_reverseSizeOf, List.mem_range]; omega
  · rw [length_reverseSizeOf]

/-- When the node of the largest id `N` has an edge to a valid target, the emission loop
indexes `indegreeCount[N]`, one past the end of the vector of `N` counters. -/
theorem reverseEmission_reads_past_indegreeCount (mem : PastEnd) (S : Graph) (ef er : Nat)
    (G : Graph) (e : ObjectDistance) (he : e ∈ S.getD (S.length - 1) [])
    (h1 : 1 ≤ e.id) (h2 : e.id ≤ S.length) :
    IndexViolation.indegreeCount S.length ∈ (reverseEmission mem S ef er G).violations := by
  have hN : 1 ≤ S.length := by omega
  have hx : (⟨S.length, e.distance⟩ : ObjectDistance) ∈ (buildReverse S).getD e.id [] := by
    rw [mem_buildReverse S h2]
    exact ⟨hN, he⟩
  have hmem : (((buildReverse S).getD e.id []).length, e.id) ∈
      reverseSizeOf S.length (buildReverse S) := by
    unfold reverseSizeOf
    rw [(List.perm_insertionSort pairLe _).mem_iff]
    apply List.mem_cons_of_mem
    exact List.mem_map.2 ⟨e.id, mem_allIds.2 ⟨h1, h2⟩, rfl⟩
  obtain ⟨i, hi, hget⟩ := List.mem_iff_getElem.1 hmem
  have hgetD : (reverseSizeOf S.length (buildReverse S)).getD i mem.reverseSize =
      (((buildReverse S).getD e.id []).length, e.id) := by
    rw [List.getD_eq_getElem?_getD, List.getElem?_eq_getElem hi, Option.getD_some, hget]
  unfold reverseEmission
  apply foldl_emitRank_violations
  right
  refine ⟨i, ?_, Or.inr ⟨?_, ⟨S.length, e.distance⟩, ?_, le_refl _, rfl⟩⟩
  · rw [List.mem_range]; omega
  · rw [hgetD]
    intro h0
    rw [List.length_eq_zero.1 h0] at hx
    simp at hx
  · rw [hgetD]
    exact hx

theorem reverseEmission_succ (mem : PastEnd) (S : Graph) (ef er : Nat) (G : Graph) :
    reverseEmission mem S ef er G =
      emitRank mem ef er S.length (buildReverse S) (reverseSizeOf S.length (buildReverse S))
        ((List.range (reverseSizeOf S.length (buildReverse S)).length).foldl
          (emitRank mem ef er S.length (buildReverse S)
            (reverseSizeOf S.length (buildReverse S)))
          (initialEmitState mem S.length G))
        (reverseSizeOf S.length (buildReverse S)).length := by
  unfold reverseEmission
  rw [List.range_succ, List.foldl_append]
  rfl

/-- On the fan snapshot with `originalEdgeSize = 1` and `reverseEdgeSize = 1` the reverse emission
gives node 3 both reverse edges, whatever the cell read past the end holds. -/
theorem reverseEmission_fanGraph (mem : PastEnd) :
    (reverseEmission mem fanGraph 1 1 (preclear emptyGraph3)).outGraph =
      [[], [], [⟨1, 1⟩, ⟨2, 1⟩]] := by
  rw [reverseEmission_succ]
  have h : (List.range (reverseSizeOf fanGraph.length (buildReverse fanGraph)).length).foldl
      (emitRank mem 1 1 fanGraph.length (buildReverse fanGraph)
        (reverseSizeOf fanGraph.length (buildReverse fanGraph)))
      (initialEmitState mem fanGraph.length (preclear emptyGraph3)) =
      { outGraph := [[], [], [⟨1, 1⟩, ⟨2, 1⟩]], indegreeCount := [0, 1, 1, mem.indegreeCount],
        zeroCount := 3, violations := [] } := by
    rfl
  rw [h]
  obtain ⟨⟨sz, rid⟩, c⟩ := mem
  have hrs : reverseSizeOf fanGraph.length (buildReverse fanGraph) =
      [(0, 0), (0, 1), (0, 2), (2, 3)] := by rfl
  have hrev : buildReverse fanGraph = [[], [], [], [⟨1, 1⟩, ⟨2, 1⟩]] := by rfl
  rw [hrs, hrev]
  have hget : ([(0, 0), (0, 1), (0, 2), (2, 3)] : List (Nat × Nat)).getD
      ([(0, 0), (0, 1), (0, 2), (2, 3)] : List (Nat × Nat)).length (sz, rid) = (sz, rid) := by
    rfl
  simp only [emitRank, hget]
  by_cases h0 : sz = 0
  · simp [h0]
  · rw [if_neg h0]
    rcases rid with _ | _ | _ | _ | rid
    · rfl
    · rfl
    · rfl
    · rfl
    · rfl

theorem length_addEdge_le (node : GraphNode) (e : ObjectDistance) :
    (addEdge node e).length ≤ node.length + 1 := by
  unfold addEdge
  split_ifs
  · omega
  · simp

/-- In the additive mode the forward top-up stops at `originalEdgeSize` edges: it leaves a
list that is longer as it is, and fills a shorter one to at most `originalEdgeSize`. -/
theorem length_topUpLoop_additive (ef : Nat) :
    ∀ (l : List ObjectDistance) (onode : GraphNode),
      (topUpLoop ef 'a' l onode).length ≤ max ef onode.length := by
  intro l
  induction l with
  | nil => intro onode; exact le_max_right _ _
  | cons e rest ih =>
    intro onode
    simp only [topUpLoop]
    split_ifs with h
    · exact le_max_right _ _
    · have h1 : onode.length < ef := by
        by_contra hc
        exact h ⟨trivial, by omega⟩
      have h2 := length_addEdge_le onode e
      have h3 := ih (addEdge onode e)
      have h4 : max ef (addEdge onode e).length = ef := max_eq_left (by omega)
      rw [h4] at h3
      exact le_trans h3 (le_max_left _ _)

theorem length_normalizeNode_le (l : GraphNode) : (normalizeNode l).length ≤ l.length := by
  unfold normalizeNode
  have := (dedupAdjacent_sublist (l.insertionSort edgeLe) 0).length_le
  rw [List.length_insertionSort] at this
  exact this

/-- In the additive mode the forward top-up leaves every list with at most
`originalEdgeSize` edges, or as long as it was. -/
theorem length_entryOf_topUp_additive (S : Graph) (ef : Nat) (out : Graph) (i : Nat) :
    (entryOf (topUp S ef 'a' out) i).length ≤ max ef (entryOf out i).length := by
  unfold entryOf
  split_ifs with h
  · simp
  · unfold topUp
    rw [List.getD_eq_getElem?_getD, List.getD_eq_getElem?_getD, List.getElem?_mapIdx]
    cases hget : out[i - 1]? with
    | none => simp
    | some a =>
      simp only [Option.map_some', Option.getD_some]
      exact length_topUpLoop_additive ef _ a

theorem entryOf_phaseN (g : Graph) (i : Nat) :
    entryOf (phaseN g) i = normalizeNode (entryOf g i) := by
  unfold entryOf phaseN
  split_ifs with h
  · rfl
  · rw [List.getD_eq_getElem?_getD, List.getD_eq_getElem?_getD, List.getElem?_map]
    cases g[i - 1]? <;> rfl

theorem targetCount_pos_of_mem {g : Graph} {node : GraphNode} {e : ObjectDistance}
    (hn : node ∈ g) (he : e ∈ node) : 0 < targetCount g e.id := by
  unfold targetCount
  induction g with
  | nil => simp at hn
  | cons a rest ih =>
    rw [List.map_cons, List.sum_cons]
    rcases List.mem_cons.1 hn with h | h
    · have : 0 < a.countP (fun x => decide (x.id = e.id)) :=
        List.countP_pos_iff.2 ⟨e, h ▸ he, by simp⟩
      omega
    · have := ih h
      omega

/-- With `reverseEdgeSize = 0` the reverse emission leaves every list empty. -/
theorem reverseEmission_zero_empty (mem : PastEnd) (S G : Graph) (ef : Nat) (i : Nat) :
    entryOf (reverseEmission mem S ef 0 (preclear G)).outGraph i = [] := by
  apply List.eq_nil_iff_forall_not_mem.2
  intro e he
  rw [mem_entryOf] at he
  rcases getD_mem_or_nil (reverseEmission mem S ef 0 (preclear G)).outGraph (i - 1) with h | h
  · have h1 := targetCount_pos_of_mem h he.2
    have h2 := reverseEmission_targetCount_le mem S ef 0 G e.id
    omega
  · rw [h] at he
    simp at he

/-- C13, counterexample: on the fan snapshot with `originalEdgeSize = 1` and
`reverseEdgeSize = 1` in the additive mode, for every content of the cells read past the
end, the final list of node 3 holds two edges. -/
theorem reconstructGraphWithConstraint_additive_cap_counterexample :
    ValidIds fanGraph ∧
    ∀ (mem : PastEnd), ∃ run,
      reconstructGraphWithConstraint mem fanGraph emptyGraph3 1 1 'a' = .ok run ∧
      entryOf run.outGraph 3 = [⟨1, 1⟩, ⟨2, 1⟩] ∧
      ¬ (entryOf run.outGraph 3).length ≤ 1 := by
  refine ⟨by decide, ?_⟩
  intro mem
  refine ⟨_, by rfl, ?_⟩
  have hout : topUp fanGraph 1 'a'
      (phaseN (reverseEmission mem fanGraph 1 1 (preclear emptyGraph3)).outGraph) =
      [[⟨3, 1⟩], [⟨3, 1⟩], [⟨1, 1⟩, ⟨2, 1⟩]] := by
    rw [reverseEmission_fanGraph]
    rfl
  have hout2 : (entryOf (topUp fanGraph 1 'a'
      (phaseN (reverseEmission mem fanGraph 1 1 (preclear emptyGraph3)).outGraph)) 3) =
      [⟨1, 1⟩, ⟨2, 1⟩] := by
    rw [hout]; rfl
  refine ⟨hout2, ?_⟩
  show ¬ (entryOf (topUp fanGraph 1 'a'
      (phaseN (reverseEmission mem fanGraph 1 1 (preclear emptyGraph3)).outGraph)) 3).length ≤ 1
  rw [hout2]
  decide

/-- C13 (out-degree in the additive mode), as the code has it.  For every snapshot with valid
ids, every live graph and every content of the cells read past the end,
`reconstructGraphWithConstraint` in mode 'a' returns, and every final list has at most
`originalEdgeSize` edges or at most as many edges as the reverse emission gave it: the
reverse emission appends an edge whose target has not been used yet to a list of any
length, and the forward top-up only stops adding.  With `reverseEdgeSize = 0` every final
list has at most `originalEdgeSize` edges. -/
theorem reconstructGraphWithConstraint_additive_cap (mem : PastEnd) (S G : Graph)
    (ef er : Nat) (_hv : ValidIds S) (her : er ≤ 10000) :
    ∃ run, reconstructGraphWithConstraint mem S G ef er 'a' = .ok run ∧
      (∀ i, (entryOf run.outGraph i).length ≤
        max ef (entryOf (reverseEmission mem S ef er (preclear G)).outGraph i).length) ∧
      (er = 0 → ∀ i, (entryOf run.outGraph i).length ≤ ef) := by
  have hmain : ∀ i, (entryOf (topUp S ef 'a'
      (phaseN (reverseEmission mem S ef er (preclear G)).outGraph)) i).length ≤
      max ef (entryOf (reverseEmission mem S ef er (preclear G)).outGraph i).length := by
    intro i
    have h1 := length_entryOf_topUp_additive S ef
      (phaseN (reverseEmission mem S ef er (preclear G)).outGraph) i
    rw [entryOf_phaseN] at h1
    have h2 := length_normalizeNode_le
      (entryOf (reverseEmission mem S ef er (preclear G)).outGraph i)
    exact le_trans h1 (max_le_max (le_refl _) h2)
  refine ⟨⟨topUp S ef 'a' (phaseN (reverseEmission mem S ef er (preclear G)).outGraph),
    (reverseEmission mem S ef er (preclear G)).zeroCount,
    (reverseEmission mem S ef er (preclear G)).violations⟩, ?_, hmain, ?_⟩
  · simp only [reconstructGraphWithConstraint, gt_iff_lt, not_lt.2 her, if_false]
  · intro h0 i
    have := hmain i
    subst h0
    rw [reverseEmission_zero_empty] at this
    simpa using this

theorem reconstructGraphWithConstraint_additive_cap_witness :
    ValidIds fairGraph ∧ 1 ≤ 10000 ∧
    ∃ run, reconstructGraphWithConstraint ⟨(0, 0), 0⟩ fairGraph emptyGraph3 1 1 'a' = .ok run ∧
      (∀ i, (entryOf run.outGraph i).length ≤ max 1
        (entryOf (reverseEmission ⟨(0, 0), 0⟩ fairGraph 1 1
          (preclear emptyGraph3)).outGraph i).length) ∧
      (1 = 0 → ∀ i, (entryOf run.outGraph i).length ≤ 1) :=
  ⟨by decide, by decide,
    reconstructGraphWithConstraint_additive_cap ⟨(0, 0), 0⟩ fairGraph emptyGraph3 1 1
      (by decide) (by decide)⟩

/-! ## reconstructGraphWithConstraint: the reported count and the indices -/

/-- C19, at a failing input: on the snapshot of two nodes with the edges `1 -> 2` and
`2 -> 1` every id is the target of an edge, so no id has an empty reverse list; for every
content of the cell read past the end of `reverseSize`, the call returns and the count it
reports is 1 when that cell holds a nonzero size and 2 when it holds a zero size: the
reserved entry `reverseSize[0] = (0, 0)` is counted, and so is the cell past the end. -/
theorem reconstructGraphWithConstraint_zeroCount_off :
    ValidIds pairGraph ∧ zeroReverseIds pairGraph = 0 ∧
    ∀ (mem : PastEnd) (mode : Char), ∃ run,
      reconstructGraphWithConstraint mem pairGraph [[], []] 1 1 mode = .ok run ∧
      run.zeroCount = 1 + (if mem.reverseSize.1 = 0 then 1 else 0) ∧
      run.zeroCount ≠ zeroReverseIds pairGraph := by
  refine ⟨by decide, by decide, ?_⟩
  intro mem mode
  have hz := reverseEmission_zeroCount mem pairGraph 1 1 (preclear [[], []])
  have h0 : zeroReverseIds pairGraph = 0 := by decide
  rw [h0] at hz
  refine ⟨⟨topUp pairGraph 1 mode
    (phaseN (reverseEmission mem pairGraph 1 1 (preclear [[], []])).outGraph),
    (reverseEmission mem pairGraph 1 1 (preclear [[], []])).zeroCount,
    (reverseEmission mem pairGraph 1 1 (preclear [[], []])).violations⟩, by rfl, ?_, ?_⟩
  · show (reverseEmission mem pairGraph 1 1 (preclear [[], []])).zeroCount = _
    rw [hz]
  · show (reverseEmission mem pairGraph 1 1 (preclear [[], []])).zeroCount ≠ _
    rw [hz, h0]
    omega

/-- C20, at a failing input: on the snapshot of two nodes with the edges `1 -> 2` and
`2 -> 1`, whose targets are valid ids, the vector `reverseSize` has 3 entries and the vector
`indegreeCount` has 2 counters; for every content of the cells past the end, the call reads
`reverseSize[3]` and accesses `indegreeCount[2]`. -/
theorem reconstructGraphWithConstraint_index_violations :
    ValidIds pairGraph ∧
    (reverseSizeOf pairGraph.length (buildReverse pairGraph)).length = 3 ∧
    ∀ (mem : PastEnd) (mode : Char), ∃ run,
      reconstructGraphWithConstraint mem pairGraph [[], []] 1 1 mode = .ok run ∧
      IndexViolation.reverseSize 3 ∈ run.violations ∧
      IndexViolation.indegreeCount 2 ∈ run.violations := by
  refine ⟨by decide, by rfl, ?_⟩
  intro mem mode
  refine ⟨⟨topUp pairGraph 1 mode
    (phaseN (reverseEmission mem pairGraph 1 1 (preclear [[], []])).outGraph),
    (reverseEmission mem pairGraph 1 1 (preclear [[], []])).zeroCount,
    (reverseEmission mem pairGraph 1 1 (preclear [[], []])).violations⟩, by rfl, ?_, ?_⟩
  · exact reverseEmission_reads_past_reverseSize mem pairGraph 1 1 (preclear [[], []])
  · exact reverseEmission_reads_past_indegreeCount mem pairGraph 1 1 (preclear [[], []])
      ⟨1, 10⟩ (by decide) (by decide) (by decide)

/-! ## The test of `reverseEdgeSize` and the end of a call -/

theorem snapshotMisses_eq_nil {S G : Graph} (hlen : G.length ≤ S.length) :
    snapshotMisses S G = [] := by
  unfold snapshotMisses
  rw [List.filter_eq_nil_iff]
  intro id hid
  have h1 := (mem_allIds.1 hid).1
  have h2 := (mem_allIds.1 hid).2
  simp only [decide_eq_true_eq]
  omega

/-- Both functions end with `exit(1)` exactly when `reverseEdgeSize > 10000`, for every
snapshot and live graph; the error carries `reverseEdgeSize`, and the live graph is then the
live graph of the entry. -/
theorem reconstruct_exited_iff (mem : PastEnd) (S G : Graph) (ef er : Nat) (mode : Char) :
    ((∃ e, (reconstructGraphOnLive S G ef er).ending = .exited e) ↔ 10000 < er) ∧
    ((∃ e, (reconstructGraphWithConstraintOnLive mem S G ef er mode).ending = .exited e) ↔
      10000 < er) ∧
    ((∃ e, reconstructGraph S G ef er = .error e) ↔ 10000 < er) ∧
    ((∃ e, reconstructGraphWithConstraint mem S G ef er mode = .error e) ↔ 10000 < er) ∧
    (10000 < er →
      reconstructGraphOnLive S G ef er = ⟨G, .exited (.edgeSizeTooLarge er)⟩ ∧
      reconstructGraphWithConstraintOnLive mem S G ef er mode =
        ⟨G, .exited (.edgeSizeTooLarge er)⟩) := by
  by_cases h : 10000 < er
  · have hg : er > 10000 := h
    refine ⟨?_, ?_, ?_, ?_, ?_⟩
    · simp [reconstructGraphOnLive, hg]
    · simp [reconstructGraphWithConstraintOnLive, hg]
    · simp [reconstructGraph, hg]
    · simp [reconstructGraphWithConstraint, hg]
    · intro _
      simp [reconstructGraphOnLive, reconstructGraphWithConstraintOnLive, hg]
  · have hg : ¬ er > 10000 := h
    refine ⟨?_, ?_, ?_, ?_, ?_⟩
    · simp only [reconstructGraphOnLive, hg, if_false, h, iff_false, not_exists]
      intro e
      split_ifs <;> simp
    · simp only [reconstructGraphWithConstraintOnLive, hg, if_false, h, iff_false, not_exists]
      intro e
      split_ifs <;> simp
    · simp [reconstructGraph, hg]
    · simp [reconstructGraphWithConstraint, hg]
    · intro h2
      exact absurd h2 h

/-- With `reverseEdgeSize <= 10000` and a live graph over the ids of the snapshot,
`reconstructGraph` returns with every access inside the bounds. -/
theorem reconstructGraphOnLive_returned (S G : Graph) (ef er : Nat)
    (hlen : G.length = S.length) (her : er ≤ 10000) :
    ∃ out, reconstructGraph S G ef er = .ok out ∧
      reconstructGraphOnLive S G ef er = ⟨out, .returned⟩ := by
  have hg : ¬ er > 10000 := by omega
  refine ⟨phaseN (phaseR S er (phaseF S ef G)), ?_, ?_⟩
  · simp only [reconstructGraph, hg, if_false]
  · simp only [reconstructGraphOnLive, hg, if_false,
      snapshotMisses_eq_nil (le_of_eq hlen), ne_eq, not_true_eq_false, and_false]

/-- With `reverseEdgeSize <= 10000`, every call of `reconstructGraphWithConstraint` makes an
access outside the bounds, whatever the snapshot, the live graph, the mode and the cells
past the end: the emission loop reads `reverseSize[N + 1]`. -/
theorem reconstructGraphWithConstraintOnLive_outOfBounds (mem : PastEnd) (S G : Graph)
    (ef er : Nat) (mode : Char) (her : er ≤ 10000) :
    (reconstructGraphWithConstraintOnLive mem S G ef er mode).ending = .outOfBounds := by
  have hg : ¬ er > 10000 := by omega
  have hv := reverseEmission_reads_past_reverseSize mem S ef er (preclear G)
  have hne : (reverseEmission mem S ef er (preclear G)).violations ≠ [] := by
    intro h0
    rw [h0] at hv
    simp at hv
  simp only [reconstructGraphWithConstraintOnLive, hg, if_false, hne, false_and, and_false]

/-- A live graph with more ids than the snapshot: with `originalEdgeSize = 1` Phase F of
`reconstructGraph` reads `graph[0]` of the empty snapshot. -/
theorem reconstructGraphOnLive_longer_live :
    reconstructGraphOnLive [] [[]] 1 1 = ⟨[[]], .outOfBounds⟩ := by rfl

/-- C16, at a failing input: on the snapshot of two nodes with the edges `1 -> 2` and
`2 -> 1`, with valid ids and a live graph of two readable nodes, for every content of the
cells past the end and either mode: with `reverseEdgeSize = 10001` both functions end with
`exit(1)` and the live graph of the entry; with `reverseEdgeSize = 1` `reconstructGraph`
returns, and `reconstructGraphWithConstraint` neither ends with `exit(1)` nor returns with
its accesses inside the bounds: it reads `reverseSize[3]`, outside the vector of 3 entries.
When that cell holds the size 7 and the id 9, the call goes on to read `reverse[9]`,
outside the vector of 3 entries. -/
theorem reconstruct_fatal_off :
    ValidIds pairGraph ∧ ([[], []] : Graph).length = pairGraph.length ∧
    (∀ (mem : PastEnd) (mode : Char),
      reconstructGraphOnLive pairGraph [[], []] 1 10001 =
        ⟨[[], []], .exited (.edgeSizeTooLarge 10001)⟩ ∧
      reconstructGraphWithConstraintOnLive mem pairGraph [[], []] 1 10001 mode =
        ⟨[[], []], .exited (.edgeSizeTooLarge 10001)⟩ ∧
      reconstructGraphOnLive pairGraph [[], []] 1 1 =
        ⟨[[⟨2, 10⟩], [⟨1, 10⟩]], .returned⟩ ∧
      (reconstructGraphWithConstraintOnLive mem pairGraph [[], []] 1 1 mode).ending =
        .outOfBounds ∧
      IndexViolation.reverseSize 3 ∈
        (reverseEmission mem pairGraph 1 1 (preclear [[], []])).violations) ∧
    (reverseEmission ⟨(7, 9), 0⟩ pairGraph 1 1 (preclear [[], []])).violations =
      [IndexViolation.indegreeCount 2, IndexViolation.reverseSize 3,
        IndexViolation.reverse 9] := by
  refine ⟨by decide, by rfl, ?_, by rfl⟩
  intro mem mode
  refine ⟨by rfl, by rfl, by rfl, ?_, ?_⟩
  · exact reconstructGraphWithConstraintOnLive_outOfBounds mem pairGraph [[], []] 1 1 mode
      (by decide)
  · exact reverseEmission_reads_past_reverseSize mem pairGraph 1 1 (preclear [[], []])

/-! ## adjustPathsEffectively: pruning only deletes, and keeps the edge of rank 0 -/

/-- C21. Pruning only deletes: for every input graph with valid ids, with fuel above the
largest list size, `adjustPathsEffectively` returns a graph over the same ids in which the
list of every node `s` is a subsequence of the input list of `s` (the same edges, in the
same relative order); a list that is in ascending order of distance stays so. -/
theorem adjustPathsEffectively_sublist (T : Graph) (fuel : Nat) (_hv : ValidIds T)
    (hf : maxSize T + 1 ≤ fuel) :
    ∃ out, adjustPathsEffectively fuel T = .ok out ∧ out.length = T.length ∧
      (∀ s, List.Sublist (entryOf out s) (entryOf T s)) ∧
      (∀ s, (entryOf T s).Pairwise (fun a b => a.distance ≤ b.distance) →
        (entryOf out s).Pairwise (fun a b => a.distance ≤ b.distance)) := by
  obtain ⟨rank, st, hrun, _, hlen, hnode⟩ := adjustPathsEffectivelyRun_base T fuel hf
  have hsub : ∀ s, List.Sublist (entryOf st.outGraph s) (entryOf T s) := by
    intro s
    unfold entryOf
    split_ifs with h0
    · exact List.Sublist.slnil
    · by_cases hs : s - 1 < T.length
      · have := (hnode (s - 1) hs).outSub
        unfold sizeAt at this
        rw [List.take_length] at this
        exact this
      · have hnil : st.outGraph.getD (s - 1) [] = [] := by
          rw [List.getD_eq_getElem?_getD, List.getElem?_eq_none (by rw [hlen.out]; omega)]
          rfl
        rw [hnil]
        exact List.nil_sublist _
  refine ⟨st.outGraph, ?_, hlen.out, hsub, ?_⟩
  · simp only [adjustPathsEffectively, hrun]
  · intro s hs
    exact List.Pairwise.sublist (hsub s) hs

theorem adjustPathsEffectively_sublist_witness :
    ValidIds messyGraph ∧ maxSize messyGraph + 1 ≤ 4 ∧
    ∃ out, adjustPathsEffectively 4 messyGraph = .ok out ∧ out.length = messyGraph.length ∧
      (∀ s, List.Sublist (entryOf out s) (entryOf messyGraph s)) ∧
      (∀ s, (entryOf messyGraph s).Pairwise (fun a b => a.distance ≤ b.distance) →
        (entryOf out s).Pairwise (fun a b => a.distance ≤ b.distance)) :=
  ⟨by decide, by decide, adjustPathsEffectively_sublist messyGraph 4 (by decide) (by decide)⟩

theorem nodeFirst_step {T : Graph} {r id : Nat} {rest : List Nat} {st : CommitState}
    (h : PassBase T r (id :: rest) st)
    (hf : ∀ idx, idx < T.length → NodeFirst T st idx (progress T r (id :: rest) idx)) :
    ((T.getD (id - 1) [])[r]? = none ∧ st.removeCandidates.getD (id - 1) [] = [] ∧
      (PassBase T r rest st ∧
        ∀ idx, idx < T.length → NodeFirst T st idx (progress T r rest idx))) ∨
    (∃ e, (T.getD (id - 1) [])[r]? = some e ∧
      (PassBase T r rest (stepState st (id - 1) e) ∧
        ∀ idx, idx < T.length →
          NodeFirst T (stepState st (id - 1) e) idx (progress T r rest idx))) := by
  have hv := h.valid id (List.mem_cons_self _ _)
  have hnot : id ∉ rest := by
    intro hmem
    have := (List.pairwise_cons.1 h.sorted).1 id hmem
    omega
  have hidx0 : id - 1 < T.length := by omega
  rcases passBase_step h with ⟨hn, hrc, hP⟩ | ⟨e, he, hP⟩
  · refine Or.inl ⟨hn, hrc, hP, ?_⟩
    intro idx hidx
    by_cases hi : id - 1 = idx
    · subst hi
      have h0 := hf (id - 1) hidx
      rw [progress_head hv.1] at h0
      rw [progress_tail_self hv.1 hnot]
      have hsz : sizeAt T (id - 1) ≤ r := by
        unfold sizeAt
        exact List.getElem?_eq_none_iff.1 hn
      rw [min_eq_right hsz] at h0
      rw [min_eq_right (by omega)]
      exact h0
    · have h0 := hf idx hidx
      rw [progress_tail_ne hv.1 hi] at h0
      exact h0
  · refine Or.inr ⟨e, he, hP, ?_⟩
    intro idx hidx
    by_cases hi : id - 1 = idx
    · subst hi
      intro _ e0 he0
      rw [stepState_out_self e h.len hidx]
      by_cases hr : r = 0
      · subst hr
        rw [he] at he0
        have he0e : e = e0 := Option.some.inj he0
        subst he0e
        have hnb := h.node (id - 1) hidx
        rw [progress_head hv.1, Nat.zero_min] at hnb
        have hout : st.outGraph.getD (id - 1) [] = [] := by
          have := hnb.outSub
          rw [List.take_zero] at this
          exact List.eq_nil_of_sublist_nil this
        have hpop : (popCandidates st.edges (id - 1) e.id
            (st.removeCandidates.getD (id - 1) [])).1 = false := by
          by_contra hc
          have hc2 : (popCandidates st.edges (id - 1) e.id
              (st.removeCandidates.getD (id - 1) [])).1 = true := by
            simpa using hc
          obtain ⟨c, _, hc1, _⟩ := (popCandidates_fst _ _ _ _).1 hc2
          obtain ⟨x, hx, _⟩ := (hnb.edgesOut c.1).1 hc1
          rw [hout] at hx
          simp at hx
        rw [hpop, hout]
        rfl
      · have hlt : r < sizeAt T (id - 1) := by
          unfold sizeAt
          exact (List.getElem?_eq_some_iff.1 he).1
        have h0 := hf (id - 1) hidx
        rw [progress_head hv.1] at h0
        have h1 := h0 (by rw [min_eq_left (by omega)]; omega) e0 he0
        split_ifs
        · exact h1
        · cases hout : st.outGraph.getD (id - 1) [] with
          | nil => rw [hout] at h1; simp at h1
          | cons a t => rw [hout] at h1; simpa using h1
    · have h0 := hf idx hidx
      rw [progress_tail_ne hv.1 hi] at h0
      intro hp e0 he0
      rw [stepState_out_ne e hi]
      exact h0 hp e0 he0

/-- For any graph, stage 2 started with fuel above the largest node size returns a state in
which the committed list of every node with an edge starts with the edge of rank 0. -/
theorem adjustPathsEffectivelyRun_first (T : Graph) (fuel : Nat) (hf : maxSize T + 1 ≤ fuel) :
    ∃ rank st, adjustPathsEffectivelyRun fuel T = .ok (rank, st) ∧ StateLen T st ∧
      ∀ idx e, (T.getD idx [])[0]? = some e → (st.outGraph.getD idx []).head? = some e := by
  have hloop := commitLoop_induct T (maxSize T)
    (fun rank ids st => LoopBase T rank ids st ∧
      ∀ idx, idx < T.length → NodeFirst T st idx (min rank (sizeAt T idx)))
    (by
      intro rank ids st hQ _
      obtain ⟨st1, h1, h2⟩ := commitPass_induct T rank
        (fun ids st => PassBase T rank ids st ∧
          ∀ idx, idx < T.length → NodeFirst T st idx (progress T rank ids idx))
        (fun id rest st h => nodeFirst_step h.1 h.2) ids st
        ⟨passBase_of_loopBase hQ.1, by
          intro idx hidx
          rw [hQ.1.ids_eq, progress_liveAt T rank hidx]
          exact hQ.2 idx hidx⟩
      refine ⟨st1, h1, ?_, ?_⟩
      · have := loopBase_of_passBase h2.1
        rw [hQ.1.ids_eq, liveAfter_liveAt]
        exact this
      · intro idx hidx
        have := h2.2 idx hidx
        rw [progress_nil] at this
        exact this)
    (by
      intro rank ids st hQ hb
      rw [hQ.1.ids_eq]
      exact liveAt_eq_nil hb)
    fuel 0 (allIds T.length) (initialCommitState T)
    ⟨loopBase_initial T, by
      intro idx _ hp
      rw [Nat.zero_min] at hp
      omega⟩
    (by omega)
  obtain ⟨rank, st, hrun, hQ, _, _, _⟩ := hloop
  refine ⟨rank, st, hrun, hQ.1.len, ?_⟩
  intro idx e he
  have hlt : 0 < (T.getD idx []).length := (List.getElem?_eq_some_iff.1 he).1
  have hidx : idx < T.length := lt_length_of_mem_getD (List.getElem?_mem he)
  have hlive : idx + 1 ∉ liveAt T rank := by
    rw [← hQ.1.ids_eq]; simp
  have hsz : sizeAt T idx < rank := by
    by_contra hc
    exact hlive (mem_liveAt.2 ⟨⟨by omega, by omega⟩, by simpa using le_of_not_lt hc⟩)
  have hnf := hQ.2 idx hidx
  rw [min_eq_right (by omega)] at hnf
  exact hnf (by unfold sizeAt; omega) e he

/-- C22. Pruning keeps the nearest edge: for every input graph with valid ids, with fuel
above the largest list size, `adjustPathsEffectively` returns, and for every node `s` with
a non-empty input list the edge of rank 0 of that list is the first edge of the output list
of `s`; the output list of such a node is not empty. -/
theorem adjustPathsEffectively_keeps_first (T : Graph) (fuel : Nat) (_hv : ValidIds T)
    (hf : maxSize T + 1 ≤ fuel) :
    ∃ out, adjustPathsEffectively fuel T = .ok out ∧
      ∀ s e, (entryOf T s)[0]? = some e →
        (entryOf out s)[0]? = some e ∧ e ∈ entryOf out s ∧ entryOf out s ≠ [] := by
  obtain ⟨rank, st, hrun, _, hfirst⟩ := adjustPathsEffectivelyRun_first T fuel hf
  refine ⟨st.outGraph, ?_, ?_⟩
  · simp only [adjustPathsEffectively, hrun]
  · intro s e he
    have hs : s ≠ 0 := by
      intro h0
      rw [h0] at he
      simp [entryOf] at he
    have hT : entryOf T s = T.getD (s - 1) [] := by simp only [entryOf, hs, if_false]
    have hO : entryOf st.outGraph s = st.outGraph.getD (s - 1) [] := by
      simp only [entryOf, hs, if_false]
    rw [hT] at he
    have hhead := hfirst (s - 1) e he
    rw [hO]
    cases hout : st.outGraph.getD (s - 1) [] with
    | nil => rw [hout] at hhead; simp at hhead
    | cons a t =>
      rw [hout] at hhead
      have hae : a = e := by simpa using hhead
      subst hae
      exact ⟨by simp, List.mem_cons_self _ _, List.cons_ne_nil _ _⟩

theorem adjustPathsEffectively_keeps_first_witness :
    ValidIds messyGraph ∧ maxSize messyGraph + 1 ≤ 4 ∧
    ∃ out, adjustPathsEffectively 4 messyGraph = .ok out ∧
      ∀ s e, (entryOf messyGraph s)[0]? = some e →
        (entryOf out s)[0]? = some e ∧ e ∈ entryOf out s ∧ entryOf out s ≠ [] :=
  ⟨by decide, by decide,
    adjustPathsEffectively_keeps_first messyGraph 4 (by decide) (by decide)⟩

/-! ## The concrete scenarios of the spec (distances scaled by 10) -/

/-- Scenario 1, trivial triangle: the edge `1 -> 3` is removed. -/
theorem scenario_trivial_triangle :
    adjustPathsEffectively 3 triangleGraph = .ok [[⟨2, 10⟩], [⟨3, 10⟩], []] := by rfl

/-- Scenario 2, no shortcut: both edges of node 1 are kept. -/
theorem scenario_no_shortcut :
    adjustPathsEffectively 3 [[⟨2, 10⟩, ⟨3, 5⟩], [⟨3, 10⟩], []] =
      .ok [[⟨2, 10⟩, ⟨3, 5⟩], [⟨3, 10⟩], []] := by rfl

/-- Scenario 3, reconstruct forward cap. -/
theorem scenario_forward_cap :
    reconstructGraph [[⟨2, 10⟩, ⟨2, 20⟩], []] [[], []] 1 0 = .ok [[⟨2, 10⟩], []] := by rfl

/-- Scenario 4, reverse addition. -/
theorem scenario_reverse_addition :
    reconstructGraph chainGraph emptyGraph3 1 1 =
      .ok [[⟨2, 10⟩], [⟨1, 10⟩, ⟨3, 10⟩], [⟨2, 10⟩]] := by rfl

/-- Scenario 5, constrained fairness: the ids are processed in the order 3, 2, 1 after the
reserved entry; node 3 gets no edge, node 2 gets its one reverse source, node 1 gets the
source 2 and, the counter read at index 3 past the end holding 0, the source 3. -/
theorem scenario_constrained_fairness :
    reverseSizeOf 3 (buildReverse fairGraph) = [(0, 0), (0, 3), (1, 2), (2, 1)] ∧
    (reverseEmission ⟨(0, 0), 0⟩ fairGraph 1 1 (preclear emptyGraph3)).outGraph =
      [[⟨2, 10⟩, ⟨3, 20⟩], [⟨1, 10⟩], []] := ⟨by rfl, by rfl⟩

/-- Scenario 6, symmetrize and dedup: the snapshot is unchanged. -/
theorem scenario_symmetrize :
    convertToANNG [[⟨2, 10⟩], [⟨1, 10⟩]] = [[⟨2, 10⟩], [⟨1, 10⟩]] := by rfl

end NGT
